import Mathlib

/-!
# MyNav: hierarchical ordering and merge-import engine

A shallow embedding of the server routes of `server/src/index.js`, the schema of
`server/src/db.js` and the drag-and-drop handlers of `frontend/src/App.jsx`.

Tables are lists of rows in rowid order.  SQL `NULL` / JavaScript `undefined` is `none`.
-/

namespace MyNav

/-! ## Data model (`db.js`) -/

/-- Row of table `categories`: `id INTEGER PRIMARY KEY AUTOINCREMENT, name TEXT UNIQUE,
icon TEXT, sort_order INTEGER DEFAULT 0, parent_id INTEGER DEFAULT NULL`. -/
structure Category where
  id : Nat
  name : Option String
  icon : Option String
  sort_order : Int
  parent_id : Option Nat
deriving DecidableEq, Repr

/-- Row of table `links`; column `sort_order INTEGER DEFAULT 0` is added by `ALTER TABLE`. -/
structure Link where
  id : Nat
  url : Option String
  title : Option String
  description : Option String
  icon : Option String
  category_id : Option Nat
  tags : Option String
  created_at : String
  sort_order : Int
deriving DecidableEq, Repr

/-- Row of table `menu_links`. -/
structure MenuLink where
  id : Nat
  title : Option String
  url : Option String
  icon : Option String
  position : Option String
  sort_order : Int
deriving DecidableEq, Repr

/-- Contents of the database file: the three tables and their `sqlite_sequence` counters
(`AUTOINCREMENT`). -/
structure Data where
  categories : List Category
  links : List Link
  menu_links : List MenuLink
  catSeq : Nat
  linkSeq : Nat
  menuSeq : Nat
deriving DecidableEq, Repr

/-- The rowid SQLite gives to a row inserted into an `AUTOINCREMENT` table: one more than the
largest rowid that ever existed (the counter in `sqlite_sequence` or a rowid now in the table). -/
def nextId (seq : Nat) (ids : List Nat) : Nat :=
  ids.foldl max seq + 1

/-! ## Category routes (`index.js`) -/

/-- The condition `c.parent_id IS NOT NULL AND NOT EXISTS (SELECT 1 FROM categories p WHERE
p.id = c.parent_id)`. -/
def isOrphan (d : Data) (c : Category) : Bool :=
  match c.parent_id with
  | none => false
  | some p => !(d.categories.any fun q => q.id == p)

/-- Rows selected by the orphan query of `POST /api/categories/cleanup-orphans`. -/
def findOrphans (d : Data) : List Category :=
  d.categories.filter (isOrphan d)

/-- Handler of `POST /api/categories/cleanup-orphans`: the new contents and the reported `count`. -/
def cleanupOrphans (d : Data) : Data × Nat :=
  let orphans := findOrphans d
  if orphans.length > 0 then
    let orphanIds := orphans.map (·.id)
    let links := d.links.filter fun l =>
      match l.category_id with
      | none => true
      | some c => !(orphanIds.contains c)
    let categories := d.categories.filter fun c => !(orphanIds.contains c.id)
    ({ d with links := links, categories := categories }, orphans.length)
  else
    (d, 0)

/-- Handler of `DELETE /api/categories/:id/links`. -/
def clearLinks (d : Data) (id : Nat) : Data :=
  { d with links := d.links.filter fun l => !(l.category_id == some id) }

/-- Handler of `DELETE /api/categories/:id`: the new contents and the returned `deletedIds`. -/
def deleteCategory (d : Data) (id : Nat) : Data × List Nat :=
  let subCats := d.categories.filter fun c => c.parent_id == some id
  let idsToDelete := id :: subCats.map (·.id)
  let links := d.links.filter fun l =>
    match l.category_id with
    | none => true
    | some c => !(idsToDelete.contains c)
  let safeIds := idsToDelete.filter fun i => i != 1
  let categories :=
    if safeIds.length > 0 then d.categories.filter fun c => !(safeIds.contains c.id)
    else d.categories
  ({ d with links := links, categories := categories }, safeIds)

/-- The direct subcategories of `id`: the rows of `SELECT id FROM categories WHERE
parent_id = ?`. -/
def directSubcategories (d : Data) (id : Nat) : List Category :=
  d.categories.filter fun c => c.parent_id == some id

/-- The links owned by category `id` or by one of its direct subcategories. -/
def ownedLinks (d : Data) (id : Nat) : List Link :=
  d.links.filter fun l =>
    l.category_id == some id || (directSubcategories d id).any fun c => l.category_id == some c.id

/-- Error responses of the single-statement routes. -/
inductive Err where
  | badRequest
  | serverError
deriving DecidableEq, Repr

/-- JavaScript truthiness of an optional number: `undefined`, `null` and `0` are falsy. -/
def truthyNat : Option Nat → Bool
  | some n => n != 0
  | none => false

/-- JavaScript truthiness of an optional string: `undefined`, `null` and `''` are falsy. -/
def truthyStr : Option String → Bool
  | some s => s != ""
  | none => false

/-- The JavaScript expression `a || b` on optional strings. -/
def strOr (a b : Option String) : Option String :=
  if truthyStr a then a else b

/-- Request body of `POST /api/categories` and `PUT /api/categories/:id`. -/
structure CategoryBody where
  name : Option String
  icon : Option String
  parent_id : Option Nat
  sort_order : Option Int
deriving DecidableEq, Repr

/-- Handler of `POST /api/categories`; the `INSERT` throws on the `UNIQUE` constraint of `name`. -/
def createCategory (d : Data) (b : CategoryBody) : Except Err (Data × Category) :=
  if b.name.isSome && d.categories.any (fun c => c.name == b.name) then
    .error .badRequest
  else
    let id := nextId d.catSeq (d.categories.map (·.id))
    let row : Category := ⟨id, b.name, b.icon, b.sort_order.getD 0, b.parent_id⟩
    .ok ({ d with categories := d.categories ++ [row], catSeq := id }, row)

/-- Handler of `PUT /api/categories/:id`: `UPDATE categories SET name = ?, icon = ?,
parent_id = ?, sort_order = COALESCE(?, sort_order) WHERE id = ?`. -/
def updateCategory (d : Data) (id : Nat) (b : CategoryBody) : Except Err Data :=
  if b.name.isSome && d.categories.any (fun c => c.id == id) &&
      d.categories.any (fun c => c.id != id && c.name == b.name) then
    .error .badRequest
  else
    .ok { d with categories := d.categories.map fun c =>
      if c.id = id then
        { c with name := b.name, icon := b.icon, parent_id := b.parent_id,
                 sort_order := b.sort_order.getD c.sort_order }
      else c }

/-! ## Link routes (`index.js`) -/

/-- Request body of `POST /api/links` and `PUT /api/links/:id`; also a link of an import
document. -/
structure LinkBody where
  url : Option String
  title : Option String
  description : Option String
  icon : Option String
  category_id : Option Nat
  tags : Option String
deriving DecidableEq, Repr

/-- The statement `INSERT INTO links (url, title, description, icon, category_id, tags)`:
`sort_order` takes its column default `0`, `created_at` the current timestamp `now`. -/
def insertLink (now : String) (d : Data) (url title description icon : Option String)
    (category_id : Nat) (tags : Option String) : Data :=
  let id := nextId d.linkSeq (d.links.map (·.id))
  { d with
    links := d.links ++ [⟨id, url, title, description, icon, some category_id, tags, now, 0⟩],
    linkSeq := id }

/-- Handler of `POST /api/links`. -/
def addLink (now : String) (d : Data) (b : LinkBody) : Except Err Data :=
  if !truthyStr b.url then .error .badRequest
  else
    .ok (insertLink now d b.url b.title b.description b.icon
      (if truthyNat b.category_id then b.category_id.getD 1 else 1) (strOr b.tags (some "")))

/-- Handler of `PUT /api/links/:id`. -/
def updateLink (d : Data) (id : Nat) (b : LinkBody) : Data :=
  { d with links := d.links.map fun l =>
    if l.id = id then
      { l with title := b.title, description := b.description, icon := b.icon,
               category_id := b.category_id, tags := b.tags }
    else l }

/-- Handler of `DELETE /api/links/:id`. -/
def deleteLink (d : Data) (id : Nat) : Data :=
  { d with links := d.links.filter fun l => l.id != id }

/-- Request body of `PATCH /api/links/:id/move`.  For `category_id`, `none` is `undefined`
and `some none` is JSON `null`. -/
structure MoveBody where
  category_id : Option (Option Nat)
  sort_order : Option Int
deriving DecidableEq, Repr

/-- Handler of `PATCH /api/links/:id/move`: the dynamic `UPDATE links SET ... WHERE id = ?`. -/
def moveLink (d : Data) (linkId : Nat) (b : MoveBody) : Except Err Data :=
  if b.category_id.isNone && b.sort_order.isNone then .error .badRequest
  else
    .ok { d with links := d.links.map fun l =>
      if l.id = linkId then
        { l with category_id := b.category_id.getD l.category_id,
                 sort_order := b.sort_order.getD l.sort_order }
      else l }

/-! ## Drag-and-drop handlers (`App.jsx`) -/

/-- The client-side `.sort((a, b) => (a.sort_order || 0) - (b.sort_order || 0))`.
`Array.prototype.sort` is stable, and so is insertion sort, so the two agree. -/
def sortBySortOrder (ls : List Link) : List Link :=
  ls.insertionSort fun a b => a.sort_order ≤ b.sort_order

/-- `Array.prototype.findIndex`: `-1` when no element satisfies the predicate. -/
def findIndex (p : Link → Bool) (ls : List Link) : Int :=
  match ls.findIdx? p with
  | some i => (i : Int)
  | none => -1

/-- The index at which `Array.prototype.splice` starts: a negative `start` counts from the end,
and the result is clamped to `0 .. len`. -/
def spliceStart (len : Nat) (start : Int) : Nat :=
  if start < 0 then (len + start).toNat else min start.toNat len

/-- The two statements `const [removed] = categoryLinks.splice(oldIndex, 1)` and
`categoryLinks.splice(newIndex, 0, removed)`.  Nothing is removed only from an empty array,
which neither handler passes here. -/
def relocate (categoryLinks : List Link) (oldIndex newIndex : Int) : List Link :=
  let i := spliceStart categoryLinks.length oldIndex
  let rest := categoryLinks.eraseIdx i
  match categoryLinks[i]? with
  | some removed => rest.insertIdx (spliceStart rest.length newIndex) removed
  | none => rest

/-- The array `categoryLinks` of both handlers before the relocation: the client's links of
category `c`, sorted by `sort_order`. -/
def sortedGroup (links : List Link) (c : Option Nat) : List Link :=
  sortBySortOrder (links.filter fun l => l.category_id == c)

/-- One `fetch` of `PATCH /api/links/:id/move`. -/
structure MoveRequest where
  linkId : Nat
  body : MoveBody
deriving DecidableEq, Repr

/-- The requests `categoryLinks.map((link, idx) => fetch(.../move, body: {sort_order: idx}))`. -/
def reorderRequests (categoryLinks : List Link) : List MoveRequest :=
  categoryLinks.enum.map fun p => ⟨p.2.id, ⟨none, some (p.1 : Int)⟩⟩

/-- The sequence that `handleDrop` reconstructs for a same-category drop, `none` when the
handler returns early. -/
def handleDropSequence (links : List Link) (draggedLink targetLink : Link) : Option (List Link) :=
  let categoryLinks := sortBySortOrder (links.filter fun l => l.category_id == draggedLink.category_id)
  let oldIndex := findIndex (fun l => l.id == draggedLink.id) categoryLinks
  let newIndex := findIndex (fun l => l.id == targetLink.id) categoryLinks
  if oldIndex == -1 || newIndex == -1 || oldIndex == newIndex then none
  else some (relocate categoryLinks oldIndex newIndex)

/-- The requests sent by `handleDrop(args, targetLink)`; `links` and `draggedLink` are the
component state, `sourceLinkId` is `args.source.data.linkId`. -/
def handleDrop (links : List Link) (draggedLink : Link) (sourceLinkId : Nat) (targetLink : Link) :
    List MoveRequest :=
  if sourceLinkId == targetLink.id then []
  else if draggedLink.category_id != targetLink.category_id then
    [⟨draggedLink.id, ⟨some targetLink.category_id, some targetLink.sort_order⟩⟩]
  else
    match handleDropSequence links draggedLink targetLink with
    | none => []
    | some categoryLinks => reorderRequests categoryLinks

/-- The sequence that `handleDragEnd` reconstructs for a same-category drag, `none` when the
handler returns early. -/
def handleDragEndSequence (links : List Link) (activeLink overLink : Link) : Option (List Link) :=
  let categoryLinks := sortBySortOrder (links.filter fun l => l.category_id == activeLink.category_id)
  let oldIndex := findIndex (fun l => l.id == activeLink.id) categoryLinks
  let newIndex := findIndex (fun l => l.id == overLink.id) categoryLinks
  if oldIndex == newIndex then none
  else some (relocate categoryLinks oldIndex newIndex)

/-- The requests sent by `handleDragEnd(event)`; `activeId` and `overId` are `event.active.id`
and `event.over.id`. -/
def handleDragEnd (links : List Link) (activeId overId : Nat) : List MoveRequest :=
  match links.find? (fun l => l.id == activeId), links.find? (fun l => l.id == overId) with
  | some activeLink, some overLink =>
    if activeLink.id == overLink.id then []
    else if activeLink.category_id != overLink.category_id then
      [⟨activeLink.id, ⟨some overLink.category_id, some overLink.sort_order⟩⟩]
    else
      match handleDragEndSequence links activeLink overLink with
      | none => []
      | some categoryLinks => reorderRequests categoryLinks
  | _, _ => []

/-- The server handling the requests of one gesture in the order in which they were sent; a
request answered with an error changes nothing. -/
def applyRequests (d : Data) (reqs : List MoveRequest) : Data :=
  reqs.foldl (fun d r =>
    match moveLink d r.linkId r.body with
    | .ok d' => d'
    | .error _ => d) d

/-- What the requests of `reorderRequests seq`, numbered from `k`, do to one row of `links`:
each request whose id matches overwrites `sort_order`. -/
def writeOrder : List Link → Nat → Link → Link
  | [], _, l => l
  | x :: xs, k, l =>
    writeOrder xs (k + 1) (if l.id = x.id then { l with sort_order := (k : Int) } else l)

/-! ## Forms (`App.jsx`) -/

/-- The body that `handleAddCategory` posts: the form state `newCat` (its `name`, its `icon`
and the `parent_id` chosen in the select, parsed; `null` when none is chosen) and nothing
else, so no `sort_order` is sent. -/
def handleAddCategory (name icon : String) (parent_id : Option Nat) : CategoryBody :=
  ⟨some name, some icon, parent_id, none⟩

/-- Body of the request that `handleSaveMenuLink` sends. -/
structure MenuLinkBody where
  title : String
  url : String
  icon : String
  position : String
  sort_order : Int
deriving DecidableEq, Repr

/-- The body built by `handleSaveMenuLink`; `editMenuLink` is `null` when a new entry is added,
`menuLinks` is the list shown, and `sort_order` is
`editMenuLink?.sort_order || (menuLinks.length > 0 ? Math.max(...menuLinks.map(l => l.sort_order || 0)) + 1 : 0)`. -/
def handleSaveMenuLink (editMenuLink : Option MenuLink) (menuLinks : List MenuLink)
    (title url icon : String) : MenuLinkBody :=
  let next : Int :=
    match menuLinks.map (fun l => l.sort_order) with
    | [] => 0
    | x :: xs => xs.foldl max x + 1
  let sort_order : Int :=
    match editMenuLink with
    | some e => if e.sort_order = 0 then next else e.sort_order
    | none => next
  ⟨title, url, icon, "right", sort_order⟩

/-! ## Sibling groups -/

/-- The links sharing the `category_id` `c`. -/
def linkGroup (d : Data) (c : Option Nat) : List Link :=
  d.links.filter fun l => l.category_id == c

/-- The categories sharing the `parent_id` `p` (`none` is the group of top-level categories). -/
def categoryGroup (d : Data) (p : Option Nat) : List Category :=
  d.categories.filter fun c => c.parent_id == p

/-- The values are exactly `0 .. n-1`, each once. -/
def Contiguous (orders : List Int) : Prop :=
  orders.Perm ((List.range orders.length).map Int.ofNat)

instance (orders : List Int) : Decidable (Contiguous orders) := by
  unfold Contiguous
  infer_instance

/-- Every sibling group has contiguous zero-based `sort_order` values. -/
def SortOrdersDense (d : Data) : Prop :=
  (∀ c, Contiguous ((linkGroup d c).map (·.sort_order))) ∧
    ∀ p, Contiguous ((categoryGroup d p).map (·.sort_order))

/-! ## Structural invariants -/

/-- Every link has a `category_id` that is the id of a category. -/
def LinksResolved (d : Data) : Prop :=
  ∀ l ∈ d.links, ∃ c ∈ d.categories, l.category_id = some c.id

/-- The `parent_id` of `c` is null or the id of a category whose own `parent_id` is null. -/
def parentIsTopLevel (d : Data) (c : Category) : Bool :=
  match c.parent_id with
  | none => true
  | some p => d.categories.any fun q => q.id == p && q.parent_id.isNone

/-- The two-level invariant: every non-null `parent_id` is the id of an existing category whose
own `parent_id` is null. -/
def TwoLevel (d : Data) : Prop :=
  ∀ c ∈ d.categories, parentIsTopLevel d c = true

instance (d : Data) : Decidable (TwoLevel d) := by
  unfold TwoLevel
  infer_instance

/-! ## Import documents (`index.js`, `POST /api/backup/import`) -/

/-- Category of an import document. -/
structure CategoryDoc where
  id : Nat
  name : Option String
  icon : Option String
  parent_id : Option Nat
  sort_order : Option Int
deriving DecidableEq, Repr

/-- Menu link of an import document. -/
structure MenuLinkDoc where
  id : Option Nat
  title : Option String
  url : Option String
  icon : Option String
  position : Option String
  sort_order : Option Int
deriving DecidableEq, Repr

/-- Link of an import document; `sort_order` and `created_at` are present in an export and
are not read by the import. -/
structure LinkDoc where
  id : Option Nat
  url : Option String
  title : Option String
  description : Option String
  icon : Option String
  category_id : Option Nat
  tags : Option String
  sort_order : Option Int
  created_at : Option String
deriving DecidableEq, Repr

/-- Node of a browser bookmark tree: `{type, name, url, children}`. -/
inductive BookmarkNode where
  | mk (type : Option String) (name : Option String) (url : Option String)
      (children : Option (List BookmarkNode))

/-- Request body of `POST /api/backup/import`.  A field is `none` when it is `undefined`;
`roots = some none` is a `roots` field without `bookmark_bar.children`. -/
structure ImportDoc where
  mynav_version : Option String
  roots : Option (Option (List BookmarkNode))
  categories : Option (List CategoryDoc)
  links : Option (List LinkDoc)
  menu_links : Option (List MenuLinkDoc)

/-- What `new URL(url)` offers to the bookmark parser: `origin` and `hostname`, or `none` when
the constructor throws. -/
structure ParsedUrl where
  origin : String
  hostname : String

/-- `s.replace(pat, '')` on character lists: the first occurrence of `pat` is removed. -/
def removeFirst (pat : List Char) : List Char → List Char
  | [] => []
  | c :: cs => if pat.isPrefixOf (c :: cs) then (c :: cs).drop pat.length else c :: removeFirst pat cs

/-- Inner function `extractTitleFromURL` of `parseBrowserBookmarks`. -/
def extractTitleFromURL (parseUrl : String → Option ParsedUrl) (url : String) : String :=
  match parseUrl url with
  | some u =>
    let hostname := removeFirst "www.".data u.hostname.data
    let name := hostname.takeWhile fun c => c != '.'
    match name with
    | [] => ""
    | c :: cs => String.mk (c.toUpper :: cs)
  | none => "Link"

/-- Mutable variables of `parseBrowserBookmarks`. -/
structure ParseState where
  categoryIdCounter : Nat
  categories : List CategoryDoc
  links : List LinkDoc
deriving DecidableEq, Repr

mutual
/-- Body of the `for` loop of `processBookmarkChildren` for one `item`. -/
def processBookmarkItem (parseUrl : String → Option ParsedUrl) (uncategorizedCatId : Nat)
    (parentCatId : Option Nat) (s : ParseState) : BookmarkNode → ParseState
  | .mk type name url children =>
    if type == some "folder" then
      let catId := s.categoryIdCounter
      let s1 : ParseState :=
        { s with
          categoryIdCounter := s.categoryIdCounter + 1,
          categories := s.categories ++
            [⟨catId, name, some "📁", parentCatId, some (s.categories.length : Int)⟩] }
      match children with
      | some cs => processBookmarkChildren parseUrl uncategorizedCatId (some catId) s1 cs
      | none => s1
    else if type == some "url" && truthyStr url then
      let targetCatId := if truthyNat parentCatId then parentCatId.getD 0 else uncategorizedCatId
      let u := url.getD ""
      let faviconUrl :=
        match parseUrl u with
        | some o => o.origin ++ "/favicon.ico"
        | none => ""
      { s with links := s.links ++
          [⟨some (s.links.length + 1), url, strOr name (some (extractTitleFromURL parseUrl u)),
            url, some faviconUrl, some targetCatId, some "", none, none⟩] }
    else s
/-- Inner function `processBookmarkChildren(children, parentCatId)` of `parseBrowserBookmarks`. -/
def processBookmarkChildren (parseUrl : String → Option ParsedUrl) (uncategorizedCatId : Nat)
    (parentCatId : Option Nat) (s : ParseState) : List BookmarkNode → ParseState
  | [] => s
  | item :: rest =>
    processBookmarkChildren parseUrl uncategorizedCatId parentCatId
      (processBookmarkItem parseUrl uncategorizedCatId parentCatId s item) rest
end

/-- Function `parseBrowserBookmarks(data)`; the argument is `data.roots.bookmark_bar.children`,
`none` when one of `data.roots`, `.bookmark_bar`, `.children` is falsy. -/
def parseBrowserBookmarks (parseUrl : String → Option ParsedUrl)
    (children : Option (List BookmarkNode)) : List CategoryDoc × List LinkDoc :=
  let uncategorizedCatId := 10000
  let s0 : ParseState :=
    ⟨10001, [⟨uncategorizedCatId, some "待分类", some "📌", none, some 9999⟩], []⟩
  let s :=
    match children with
    | some cs => processBookmarkChildren parseUrl uncategorizedCatId none s0 cs
    | none => s0
  (s.categories, s.links)

/-! ### The bookmark tree read as a specification -/

/-- A folder of the tree: the id of its category, its name and the id of the category of the
folder that immediately encloses it (`none` directly under the bookmark bar). -/
structure FolderEntry where
  id : Nat
  name : Option String
  parent : Option Nat
deriving DecidableEq, Repr

/-- A bookmark of the tree: its url, its name and the id of the category of the folder that
immediately encloses it (`none` directly under the bookmark bar). -/
structure BookmarkEntry where
  url : String
  name : Option String
  parent : Option Nat
deriving DecidableEq, Repr

mutual
/-- The folders at and below a node, in document order, when the node is enclosed by `parent`
and `next` is the id for the next folder met: a folder takes `next` and encloses its
children; a node of another type contributes nothing. -/
def foldersOfNode (parent : Option Nat) (next : Nat) : BookmarkNode → List FolderEntry
  | .mk type name _ children =>
    if type == some "folder" then
      ⟨next, name, parent⟩ ::
        (match children with
          | some cs => foldersOfList (some next) (next + 1) cs
          | none => [])
    else []
/-- The folders at and below the nodes of a list, in document order. -/
def foldersOfList (parent : Option Nat) (next : Nat) : List BookmarkNode → List FolderEntry
  | [] => []
  | n :: ns =>
    foldersOfNode parent next n ++
      foldersOfList parent (next + (foldersOfNode parent next n).length) ns
end

mutual
/-- The bookmarks at and below a node, in document order: a node of type `url` with a
non-empty url is a bookmark of the enclosing folder; a folder contributes the bookmarks of its
children; any other node contributes nothing. -/
def bookmarksOfNode (parent : Option Nat) (next : Nat) : BookmarkNode → List BookmarkEntry
  | .mk type name url children =>
    if type == some "folder" then
      match children with
      | some cs => bookmarksOfList (some next) (next + 1) cs
      | none => []
    else if type == some "url" && truthyStr url then [⟨url.getD "", name, parent⟩]
    else []
/-- The bookmarks at and below the nodes of a list, in document order. -/
def bookmarksOfList (parent : Option Nat) (next : Nat) : List BookmarkNode → List BookmarkEntry
  | [] => []
  | n :: ns =>
    bookmarksOfNode parent next n ++
      bookmarksOfList parent (next + (foldersOfNode parent next n).length) ns
end

mutual
/-- Number of folders at and below a node. -/
def folderCountNode : BookmarkNode → Nat
  | .mk type _ _ children =>
    if type == some "folder" then
      1 + (match children with
        | some cs => folderCountList cs
        | none => 0)
    else 0
/-- Number of folders at and below the nodes of a list. -/
def folderCountList : List BookmarkNode → Nat
  | [] => 0
  | n :: ns => folderCountNode n + folderCountList ns
end

mutual
/-- Number of nodes of type `url` with a non-empty url at and below a node, through folders. -/
def bookmarkCountNode : BookmarkNode → Nat
  | .mk type _ url children =>
    if type == some "folder" then
      match children with
      | some cs => bookmarkCountList cs
      | none => 0
    else if type == some "url" && truthyStr url then 1
    else 0
/-- Number of bookmarks at and below the nodes of a list. -/
def bookmarkCountList : List BookmarkNode → Nat
  | [] => 0
  | n :: ns => bookmarkCountNode n + bookmarkCountList ns
end

/-- The category that the parser makes of a folder met when `categories` has length `k`. -/
def folderCategory (k : Nat) (e : FolderEntry) : CategoryDoc :=
  ⟨e.id, e.name, some "📁", e.parent, some (k : Int)⟩

/-- The link that the parser makes of a bookmark met when `links` has length `k`. -/
def bookmarkLink (parseUrl : String → Option ParsedUrl) (uncategorizedCatId : Nat) (k : Nat)
    (e : BookmarkEntry) : LinkDoc :=
  ⟨some (k + 1), some e.url, strOr e.name (some (extractTitleFromURL parseUrl e.url)),
    some e.url,
    some (match parseUrl e.url with
      | some o => o.origin ++ "/favicon.ico"
      | none => ""),
    some (if truthyNat e.parent then e.parent.getD 0 else uncategorizedCatId), some "",
    none, none⟩

/-- What the format detection of the import route yields: the `categories`, `links` and
`menu_links` to reconcile, or `none` for the 400 response. -/
def detectFormat (parseUrl : String → Option ParsedUrl) (data : ImportDoc) :
    Option (List CategoryDoc × List LinkDoc × List MenuLinkDoc) :=
  let isMyNavFormat := data.mynav_version.isSome || (data.categories.isSome && data.links.isSome)
  match data.roots with
  | some roots =>
    let parsed := parseBrowserBookmarks parseUrl roots
    some (parsed.1, parsed.2, [])
  | none =>
    if isMyNavFormat then
      some (data.categories.getD [], data.links.getD [], data.menu_links.getD [])
    else none

/-! ## Merge import (`index.js`, `POST /api/backup/import`) -/

/-- The object `categoryMap`: the entry written last for a key is the one found. -/
abbrev CategoryMap := List (Nat × Nat)

/-- The query `SELECT id FROM categories WHERE name = ?`; `NULL` equals nothing. -/
def findCategoryByName (d : Data) (name : Option String) : Option Category :=
  match name with
  | some n => d.categories.find? fun c => c.name == some n
  | none => none

/-- Body of the loop of step 1 for one `cat`. -/
def importCategory (st : Data × CategoryMap) (cat : CategoryDoc) : Data × CategoryMap :=
  match findCategoryByName st.1 cat.name with
  | some existing => (st.1, (cat.id, existing.id) :: st.2)
  | none =>
    let id := nextId st.1.catSeq (st.1.categories.map (·.id))
    ({ st.1 with
        categories := st.1.categories ++
          [⟨id, cat.name, strOr cat.icon (some ""), cat.sort_order.getD 0, none⟩],
        catSeq := id },
      (cat.id, id) :: st.2)

/-- The pair `(mappedParentId, mappedCatId)` when step 2 issues its `UPDATE` for `cat`. -/
def parentUpdate (categoryMap : CategoryMap) (cat : CategoryDoc) : Option (Nat × Nat) :=
  if truthyNat cat.parent_id then
    let mappedParentId := categoryMap.lookup (cat.parent_id.getD 0)
    let mappedCatId := categoryMap.lookup cat.id
    if truthyNat mappedParentId && truthyNat mappedCatId then
      some (mappedParentId.getD 0, mappedCatId.getD 0)
    else none
  else none

/-- Body of the loop of step 2 for one `cat`. -/
def importParent (categoryMap : CategoryMap) (d : Data) (cat : CategoryDoc) : Data :=
  match parentUpdate categoryMap cat with
  | some (mappedParentId, mappedCatId) =>
    { d with categories := d.categories.map fun c =>
        if c.id = mappedCatId then { c with parent_id := some mappedParentId } else c }
  | none => d

/-- The query `SELECT * FROM links WHERE url = ?`: the first row in rowid order. -/
def findLinkByUrl (d : Data) (url : Option String) : Option Link :=
  match url with
  | some u => d.links.find? fun l => l.url == some u
  | none => none

/-- Counters `addedCount` and `mergedCount`. -/
structure LinkCounts where
  addedCount : Nat
  mergedCount : Nat
deriving DecidableEq, Repr

/-- Body of the link loop for one `link`. -/
def importLink (now : String) (categoryMap : CategoryMap) (st : Data × LinkCounts)
    (link : LinkDoc) : Data × LinkCounts :=
  let mapped := categoryMap.lookup (link.category_id.getD 0)
  let newCatId :=
    if link.category_id.isSome && truthyNat mapped then mapped.getD 1 else 1
  match findLinkByUrl st.1 link.url with
  | some existing =>
    ({ st.1 with links := st.1.links.map fun l =>
        if l.id = existing.id then
          { l with title := strOr link.title existing.title,
                   description := strOr link.description existing.description,
                   icon := strOr link.icon existing.icon }
        else l },
      { st.2 with mergedCount := st.2.mergedCount + 1 })
  | none =>
    (insertLink now st.1 link.url link.title link.description link.icon newCatId
        (strOr link.tags (some "")),
      { st.2 with addedCount := st.2.addedCount + 1 })

/-- What the merge `UPDATE links SET title = ?, description = ?, icon = ? WHERE id = ?` of the
link loop does to one row, for the imported `link` and the row `existing` found by url. -/
def mergeRow (link : LinkDoc) (existing : Link) (l : Link) : Link :=
  if l.id = existing.id then
    { l with title := strOr link.title existing.title,
             description := strOr link.description existing.description,
             icon := strOr link.icon existing.icon }
  else l

/-- The query `SELECT id FROM menu_links WHERE title = ? AND url = ?`. -/
def findMenuLink (d : Data) (title url : Option String) : Option MenuLink :=
  match title, url with
  | some t, some u => d.menu_links.find? fun m => m.title == some t && m.url == some u
  | _, _ => none

/-- Body of the menu link loop for one `m`. -/
def importMenuLink (d : Data) (m : MenuLinkDoc) : Data :=
  match findMenuLink d m.title m.url with
  | some _ => d
  | none =>
    let id := nextId d.menuSeq (d.menu_links.map (·.id))
    { d with
      menu_links := d.menu_links ++
        [⟨id, m.title, m.url, m.icon, strOr m.position (some "left"), m.sort_order.getD 0⟩],
      menuSeq := id }

/-- State of the link loop in which `L` is the row that `SELECT * FROM links WHERE url = u`
finds, in a table with distinct ids. -/
def FirstMatch (u : String) (L : Link) (d : Data) : Prop :=
  (d.links.map (·.id)).Nodup ∧ d.links.find? (fun l => l.url == some u) = some L

/-- The state of the link loop after the merge of `x` into `L`. -/
def mergedState (x : LinkDoc) (L : Link) (st : Data × LinkCounts) : Data × LinkCounts :=
  ({ st.1 with links := st.1.links.map (mergeRow x L) },
    { st.2 with mergedCount := st.2.mergedCount + 1 })

/-- The row that step 1 of the import inserts for `cat` into the table of `d`. -/
def newCategoryRow (d : Data) (cat : CategoryDoc) : Category :=
  ⟨nextId d.catSeq (d.categories.map (·.id)), cat.name, strOr cat.icon (some ""),
    cat.sort_order.getD 0, none⟩

/-- What holds of the state `st` of step 1 of the import after the categories `pre` of the
document have been processed, starting from the store `d` and an empty `categoryMap`. -/
structure PassOne (d : Data) (pre : List CategoryDoc) (st : Data × CategoryMap) : Prop where
  /-- The rows from before are in place; the rows after them were inserted for a category of
  the document whose name the store did not hold, with a null `parent_id`. -/
  appended : ∃ new, st.1.categories = d.categories ++ new ∧
    ∀ r ∈ new, r.parent_id = none ∧ r.id ≠ 0 ∧
      ∃ cat ∈ pre, r.name = cat.name ∧ findCategoryByName d cat.name = none
  /-- Ids stay distinct. -/
  ids : (d.categories.map (·.id)).Nodup → (st.1.categories.map (·.id)).Nodup
  /-- Names stay distinct. -/
  names : (d.categories.filterMap (·.name)).Nodup →
    (st.1.categories.filterMap (·.name)).Nodup
  /-- The keys of `categoryMap` are the ids of the processed categories, last first. -/
  keys : st.2.map Prod.fst = (pre.map (·.id)).reverse
  /-- Every entry of `categoryMap` maps the id of a processed category to the id of a row with
  the name of that category. -/
  entries : ∀ k v, (k, v) ∈ st.2 →
    ∃ cat ∈ pre, cat.id = k ∧ ∃ r ∈ st.1.categories, r.id = v ∧ r.name = cat.name
  /-- Every processed category has an entry. -/
  mapped : ∀ cat ∈ pre, ∃ r ∈ st.1.categories, r.name = cat.name ∧ (cat.id, r.id) ∈ st.2

/-- What the `UPDATE` of step 2 for `cat` does to one row of `categories`. -/
def setParent (categoryMap : CategoryMap) (cat : CategoryDoc) (r : Category) : Category :=
  match parentUpdate categoryMap cat with
  | some (mappedParentId, mappedCatId) =>
    if r.id = mappedCatId then { r with parent_id := some mappedParentId } else r
  | none => r

/-- What step 2 of the import, run over `cats`, does to one row of `categories`. -/
def applyParents (categoryMap : CategoryMap) : List CategoryDoc → Category → Category
  | [], r => r
  | cat :: rest, r => applyParents categoryMap rest (setParent categoryMap cat r)

/-- The expression `categoryMap[link.category_id] || 1` of the link loop. -/
def resolveCategory (categoryMap : CategoryMap) (category_id : Option Nat) : Nat :=
  if category_id.isSome && truthyNat (categoryMap.lookup (category_id.getD 0)) then
    (categoryMap.lookup (category_id.getD 0)).getD 1
  else 1

/-- The row that the link loop inserts for `link` into the table of `d`. -/
def newLinkRow (now : String) (categoryMap : CategoryMap) (d : Data) (link : LinkDoc) : Link :=
  ⟨nextId d.linkSeq (d.links.map (·.id)), link.url, link.title, link.description, link.icon,
    some (resolveCategory categoryMap link.category_id), strOr link.tags (some ""), now, 0⟩

/-- The columns of a link that the import never writes. -/
def linkPlacement (l : Link) : Nat × Option String × Option Nat × Int × Option String × String :=
  (l.id, l.url, l.category_id, l.sort_order, l.tags, l.created_at)

/-- What holds of the state `st` of the link loop of the import, run over the links `ys` of
the document with the map `m`, starting from the links `old`. -/
structure LinkLoop (m : CategoryMap) (old : List Link) (ys : List LinkDoc)
    (st : Data × LinkCounts) : Prop where
  /-- The links from before are in place, with their placement; the rows after them were
  inserted for a link of the document, under its resolved category. -/
  appended : ∃ kept inserted, st.1.links = kept ++ inserted ∧
    kept.map linkPlacement = old.map linkPlacement ∧
    st.2.addedCount = inserted.length ∧
    ∀ l ∈ inserted, ∃ x ∈ ys, l.url = x.url ∧
      l.category_id = some (resolveCategory m x.category_id)

/-- Number of links whose url is `u`. -/
def linkUrlCount (u : String) (d : Data) : Nat :=
  (d.links.filter fun l => l.url == some u).length

/-- Number of menu links whose title is `t` and whose url is `u`. -/
def menuPairCount (t u : String) (d : Data) : Nat :=
  (d.menu_links.filter fun r => r.title == some t && r.url == some u).length

/-- Field `stats` of the success response. -/
structure ImportStats where
  categoriesImported : Nat
  linksAdded : Nat
  linksMerged : Nat
deriving DecidableEq, Repr

/-- The statements between `BEGIN TRANSACTION` and `COMMIT` when none of them throws. -/
def importBody (now : String) (d : Data) (categories : List CategoryDoc) (links : List LinkDoc)
    (menu_links : List MenuLinkDoc) : Data × ImportStats :=
  let s1 := categories.foldl importCategory (d, [])
  let d2 := categories.foldl (importParent s1.2) s1.1
  let s3 := links.foldl (importLink now s1.2) (d2, ⟨0, 0⟩)
  let d4 := menu_links.foldl importMenuLink s3.1
  (d4, ⟨categories.length, s3.2.addedCount, s3.2.mergedCount⟩)

/-- The urls of the links of a document that no link of the store carries, each url once. -/
def absentUrls (d : Data) (links : List LinkDoc) : List String :=
  ((links.filterMap (·.url)).filter fun u => decide (linkUrlCount u d = 0)).dedup

/-- The links of a document that have no url. -/
def urllessLinks (links : List LinkDoc) : List LinkDoc :=
  links.filter fun y => y.url.isNone

/-- The id of the row that `SELECT id FROM categories WHERE name = ?` finds, 0 when it finds
none. -/
def nameId (d : Data) (name : Option String) : Nat :=
  ((findCategoryByName d name).map (·.id)).getD 0

/-- What the merge `UPDATE` of the link loop does to the row that the imported `y` finds. -/
def selfMerge (y : LinkDoc) (l : Link) : Link := mergeRow y l l

/-- The merges of the links `ys` of a document, in order, into a row: each link of the url of
the row is merged into it. -/
def remerge : List LinkDoc → Link → Link
  | [], l => l
  | y :: ys, l => remerge ys (if y.url = l.url then selfMerge y l else l)

/-- A function on a column that either keeps every value or overwrites it with one value. -/
def KeepOrSet (f : Option String → Option String) : Prop :=
  (∀ t, f t = t) ∨ ∃ c, ∀ t, f t = c

/-- What holds of the table `links` after the links `pre` of a document have gone through the
link loop: ids are distinct, the url of every processed link is held, and the row found for a
url is left as it is by merging the processed links into it once more. -/
structure ReLink (pre : List LinkDoc) (links : List Link) : Prop where
  /-- Ids stay distinct. -/
  nodup : (links.map (·.id)).Nodup
  /-- The url of every processed link is the url of a link. -/
  present : ∀ y ∈ pre, ∃ e, links.find? (fun l => l.url == y.url) = some e
  /-- Merging the processed links again changes no row that a query by url finds. -/
  fixed : ∀ r ∈ links, links.find? (fun l => l.url == r.url) = some r → remerge pre r = r

/-! ## Export (`index.js`, `GET /api/backup/export`) and the initial store (`db.js`) -/

/-- The document that `GET /api/backup/export` answers with: `_mynav_version` and the rows of
`SELECT * FROM categories`, `SELECT * FROM links` and `SELECT * FROM menu_links`. -/
def exportData (d : Data) : ImportDoc :=
  ⟨some "1.0", none,
    some (d.categories.map fun c => ⟨c.id, c.name, c.icon, c.parent_id, some c.sort_order⟩),
    some (d.links.map fun l =>
      ⟨some l.id, l.url, l.title, l.description, l.icon, l.category_id, l.tags,
        some l.sort_order, some l.created_at⟩),
    some (d.menu_links.map fun r =>
      ⟨some r.id, r.title, r.url, r.icon, r.position, some r.sort_order⟩)⟩

/-- The store that `setupDb` creates when there is no database file: the default category
`常用` and no links or menu links. -/
def setupDb : Data :=
  ⟨[⟨1, some "常用", some "⭐", 0, none⟩], [], [], 1, 0, 0⟩

/-- The columns of a link that an export followed by the merge carries over, with the
category the link is filed under. -/
def linkContent (l : Link) :
    Option String × Option String × Option String × Option String × Option String ×
      Option Nat :=
  (l.url, l.title, l.description, l.icon, l.tags, l.category_id)

/-- The columns that the link loop gives to the row it inserts for `y`. -/
def docLinkContent (m : CategoryMap) (y : LinkDoc) :
    Option String × Option String × Option String × Option String × Option String ×
      Option Nat :=
  (y.url, y.title, y.description, y.icon, strOr y.tags (some ""),
    some (resolveCategory m y.category_id))

/-! ## The transaction around the import -/

/-- The database connection: the current contents and, while a transaction is open, the
contents to which `ROLLBACK` returns. -/
structure Db where
  data : Data
  txn : Option Data
deriving DecidableEq, Repr

/-- `BEGIN TRANSACTION`; SQLite refuses to nest transactions. -/
def Db.begin (db : Db) : Option Db :=
  match db.txn with
  | some _ => none
  | none => some { db with txn := some db.data }

/-- `COMMIT`; an error when no transaction is active. -/
def Db.commit (db : Db) : Option Db :=
  match db.txn with
  | some _ => some { db with txn := none }
  | none => none

/-- `ROLLBACK`; an error when no transaction is active. -/
def Db.rollback (db : Db) : Option Db :=
  match db.txn with
  | some saved => some { data := saved, txn := none }
  | none => none

/-- Responses of `POST /api/backup/import`. -/
inductive ImportResult where
  /-- 200 with `stats`. -/
  | success (stats : ImportStats)
  /-- 400 `无法识别的导入格式`, sent before the transaction begins. -/
  | formatError
  /-- 500 `导入失败`, sent after `ROLLBACK`. -/
  | failed
  /-- The `ROLLBACK` of the `catch` block threw; no response is sent. -/
  | rollbackFailed
deriving DecidableEq, Repr

/-- A loop of the import under a storage that throws at one database call.  `budget = some k`
means that `k` more calls succeed and the next one throws; `calls s a` is the number of calls
issued for element `a` in state `s`, of which only the last one writes, so a throw leaves the
state as it was before the element.  The result is the remaining budget, the state reached and
whether the loop ran to its end. -/
def runLoop {σ α : Type} (calls : σ → α → Nat) (step : σ → α → σ) :
    Option Nat → σ → List α → Option Nat × σ × Bool
  | budget, s, [] => (budget, s, true)
  | none, s, a :: rest => runLoop calls step none (step s a) rest
  | some k, s, a :: rest =>
    if k < calls s a then (none, s, false)
    else runLoop calls step (some (k - calls s a)) (step s a) rest

/-- Database calls of step 1 for one `cat`: the `SELECT`, and the `INSERT` when nothing is
found. -/
def importCategoryCalls (st : Data × CategoryMap) (cat : CategoryDoc) : Nat :=
  if (findCategoryByName st.1 cat.name).isSome then 1 else 2

/-- Database calls of step 2 for one `cat`. -/
def importParentCalls (categoryMap : CategoryMap) (_d : Data) (cat : CategoryDoc) : Nat :=
  if (parentUpdate categoryMap cat).isSome then 1 else 0

/-- Database calls of the link loop for one `link`: the `SELECT`, then `UPDATE` or `INSERT`. -/
def importLinkCalls (_st : Data × LinkCounts) (_link : LinkDoc) : Nat := 2

/-- Database calls of the menu link loop for one `m`. -/
def importMenuLinkCalls (d : Data) (m : MenuLinkDoc) : Nat :=
  if (findMenuLink d m.title m.url).isSome then 1 else 2

/-- The `catch` block of the import route: `ROLLBACK`, then the 500 response. -/
def importCatch (db : Db) : Db × ImportResult :=
  match db.rollback with
  | some db' => (db', .failed)
  | none => (db, .rollbackFailed)

/-- The statements of the `try` block after `BEGIN TRANSACTION`, under a storage that throws
at the call given by `budget`: the contents reached, and the `stats` when `COMMIT` was reached
and did not throw. -/
def importSteps (now : String) (budget : Option Nat) (d : Data) (categories : List CategoryDoc)
    (links : List LinkDoc) (menu_links : List MenuLinkDoc) : Data × Option ImportStats :=
  match runLoop importCategoryCalls importCategory budget (d, []) categories with
  | (_, s1, false) => (s1.1, none)
  | (b1, s1, true) =>
    match runLoop (importParentCalls s1.2) (importParent s1.2) b1 s1.1 categories with
    | (_, d2, false) => (d2, none)
    | (b2, d2, true) =>
      match runLoop importLinkCalls (importLink now s1.2) b2 (d2, ⟨0, 0⟩) links with
      | (_, s3, false) => (s3.1, none)
      | (b3, s3, true) =>
        match runLoop importMenuLinkCalls importMenuLink b3 s3.1 menu_links with
        | (_, d4, false) => (d4, none)
        | (b4, d4, true) =>
          if b4 = some 0 then (d4, none)
          else (d4, some ⟨categories.length, s3.2.addedCount, s3.2.mergedCount⟩)

/-- Number of database calls that a loop of the import issues when none of them throws. -/
def loopCalls {σ α : Type} (calls : σ → α → Nat) (step : σ → α → σ) : σ → List α → Nat
  | _, [] => 0
  | s, a :: rest => calls s a + loopCalls calls step (step s a) rest

/-- Number of database calls that the `try` block issues between `BEGIN TRANSACTION` and
`COMMIT` when none of them throws: the calls of step 1, of step 2, of the link loop and of the
menu link loop. With `BEGIN TRANSACTION` as call 0 these are the calls 1 to `importStepCalls`,
and `COMMIT` is call `importStepCalls + 1`. -/
def importStepCalls (now : String) (d : Data) (categories : List CategoryDoc)
    (links : List LinkDoc) (menu_links : List MenuLinkDoc) : Nat :=
  let s1 := categories.foldl importCategory (d, [])
  let d2 := categories.foldl (importParent s1.2) s1.1
  let s3 := links.foldl (importLink now s1.2) (d2, ⟨0, 0⟩)
  loopCalls importCategoryCalls importCategory (d, []) categories +
    loopCalls (importParentCalls s1.2) (importParent s1.2) s1.1 categories +
    loopCalls importLinkCalls (importLink now s1.2) (d2, ⟨0, 0⟩) links +
    loopCalls importMenuLinkCalls importMenuLink s3.1 menu_links

/-- Handler of `POST /api/backup/import`.  `failAt = some k` makes the database call number `k`
of the request throw (`BEGIN TRANSACTION` is call `0`); `failAt = none` is a storage that does
not fail.  `now` is the timestamp given to inserted links. -/
def importData (parseUrl : String → Option ParsedUrl) (now : String) (failAt : Option Nat)
    (db : Db) (data : ImportDoc) : Db × ImportResult :=
  match detectFormat parseUrl data with
  | none => (db, .formatError)
  | some (categories, links, menu_links) =>
    if failAt = some 0 then importCatch db
    else
      match db.begin with
      | none => importCatch db
      | some db1 =>
        match importSteps now (failAt.map (· - 1)) db1.data categories links menu_links with
        | (d, none) => importCatch { db1 with data := d }
        | (d, some stats) =>
          match Db.commit { db1 with data := d } with
          | some db2 => (db2, .success stats)
          | none => importCatch { db1 with data := d }

end MyNav

/-! ## Example stores and documents -/

namespace MyNav

/-- Store of the end-to-end example of the specification, with a second link. -/
def exampleStore : Data :=
  ⟨[⟨1, some "Tools", none, 0, none⟩],
   [⟨5, some "https://a.com", some "Old", none, none, some 1, none, "t0", 0⟩], [], 1, 5, 0⟩

/-- Native document with a matched category, a new subcategory, a link to merge, a link to
insert (twice) and a menu link. -/
def exampleDoc : ImportDoc :=
  ⟨none, none,
   some [⟨1, some "Tools", none, none, some 0⟩, ⟨7, some "Sub", none, some 1, none⟩],
   some [⟨some 1, some "https://a.com", some "New", none, none, some 1, none, none, none⟩,
         ⟨some 2, some "https://b.com", some "B", none, none, some 7, none, none, none⟩,
         ⟨some 3, some "https://b.com", some "B2", none, none, some 7, none, none, none⟩],
   some [⟨none, some "m", some "u", none, none, none⟩]⟩

/-- The document `{foo: 1}`: none of the fields read by the import is present. -/
def fooDoc : ImportDoc := ⟨none, none, none, none, none⟩

/-- Store with an orphan (category 2, whose parent 99 does not exist) that has a child
(category 3) and owns a link. -/
def orphanStore : Data :=
  ⟨[⟨1, some "常用", some "⭐", 0, none⟩, ⟨2, some "a", none, 0, some 99⟩,
    ⟨3, some "b", none, 0, some 2⟩],
   [⟨1, some "u", none, none, none, some 2, none, "t0", 0⟩,
    ⟨2, some "v", none, none, none, some 1, none, "t0", 0⟩], [], 3, 2, 0⟩

/-- Links `A`, `B`, `C` of one category with `sort_order` 0, 1, 2. -/
def linkA : Link := ⟨1, some "https://a.com", some "A", none, none, some 1, none, "t0", 0⟩

/-- See `linkA`. -/
def linkB : Link := ⟨2, some "https://b.com", some "B", none, none, some 1, none, "t0", 1⟩

/-- See `linkA`. -/
def linkC : Link := ⟨3, some "https://c.com", some "C", none, none, some 1, none, "t0", 2⟩

/-- A link of another category. -/
def linkD : Link := ⟨4, some "https://d.com", some "D", none, none, some 2, none, "t0", 0⟩

/-- Store holding `A`, `B`, `C` in category 1 and `D` in category 2. -/
def abcStore : Data :=
  ⟨[⟨1, some "常用", some "⭐", 0, none⟩, ⟨2, some "Work", none, 1, none⟩],
   [linkA, linkB, linkC, linkD], [], 2, 4, 0⟩

/-- Store in which every sibling group has contiguous `sort_order` values: three top-level
categories, one subcategory, two links in category 1 and one in category 2. -/
def denseStore : Data :=
  ⟨[⟨1, some "常用", some "⭐", 0, none⟩, ⟨2, some "Work", none, 1, none⟩,
    ⟨3, some "Sub", none, 0, some 1⟩, ⟨4, some "Play", none, 2, none⟩],
   [linkA, linkB, linkD], [], 4, 4, 0⟩

/-- Store with two links of the same url, which the link routes permit. -/
def twinStore : Data :=
  ⟨[⟨1, some "常用", some "⭐", 0, none⟩],
   [⟨1, some "https://a.com", some "First", none, none, some 1, none, "t0", 0⟩,
    ⟨2, some "https://a.com", some "Second", none, none, some 1, none, "t0", 1⟩], [], 1, 2, 0⟩

/-- Native document with one link, of url `https://a.com` and title `New`. -/
def oneLinkDoc : ImportDoc :=
  ⟨some "1.0", none, some [],
   some [⟨some 1, some "https://a.com", some "New", none, none, some 1, none, none, none⟩],
   some []⟩

/-- Store in which category 2 is its own parent, as `PUT /api/categories/2` can make it. -/
def selfParentStore : Data :=
  ⟨[⟨1, some "常用", some "⭐", 0, none⟩, ⟨2, some "a", none, 1, some 2⟩], [], [], 2, 0, 0⟩

/-- Two-level store in which the default category (id 1) is a subcategory of category 2. -/
def defaultChildStore : Data :=
  ⟨[⟨1, some "常用", some "⭐", 0, some 2⟩, ⟨2, some "a", none, 0, none⟩],
   [⟨1, some "u", none, none, none, some 1, none, "t0", 0⟩], [], 2, 1, 0⟩

/-- Two-level store: categories 1 and 2 at the top level, category 3 under 2. -/
def twoLevelStore : Data :=
  ⟨[⟨1, some "常用", some "⭐", 0, none⟩, ⟨2, some "Work", none, 1, none⟩,
    ⟨3, some "Sub", none, 0, some 2⟩], [], [], 3, 0, 0⟩

/-- Store with one menu link. -/
def menuStore : Data :=
  ⟨[⟨1, some "常用", some "⭐", 0, none⟩], [],
   [⟨1, some "Home", some "/", none, some "left", 0⟩], 1, 0, 1⟩

/-- Native document whose menu links repeat the pair (`Blog`, `/blog`) and include the pair
that `menuStore` already holds. -/
def menuDoc : ImportDoc :=
  ⟨some "1.0", none, some [], some [],
   some [⟨none, some "Blog", some "/blog", none, none, none⟩,
         ⟨none, some "Home", some "/", some "x", some "right", some 5⟩,
         ⟨none, some "Blog", some "/blog", none, some "right", none⟩]⟩

/-- Native document whose categories repeat the name `Sub` and include the name `Tools` that
`exampleStore` holds; the child `Leaf` comes before its parent `Sub`. -/
def namesDoc : ImportDoc :=
  ⟨some "1.0", none,
   some [⟨10, some "Leaf", none, some 11, none⟩, ⟨11, some "Sub", none, some 12, none⟩,
         ⟨12, some "Tools", none, none, none⟩, ⟨13, some "Sub", some "x", none, some 4⟩],
   some [], some []⟩

/-- Categories with distinct ids and names: the child `Leaf` comes before its parent `Sub`,
which comes before its parent `Tools`. -/
def remapCats : List CategoryDoc :=
  [⟨10, some "Leaf", none, some 11, none⟩, ⟨11, some "Sub", none, some 12, none⟩,
   ⟨12, some "Tools", none, none, none⟩]

/-- Native document with the categories `remapCats`. -/
def remapDoc : ImportDoc := ⟨some "1.0", none, some remapCats, some [], some []⟩

/-- Native document with the category `Sub` (id 7) and three new links: one of category 7,
one of the unmapped category 99 and one without category; the url of the first is repeated. -/
def linksDoc : ImportDoc :=
  ⟨some "1.0", none, some [⟨7, some "Sub", none, none, none⟩],
   some [⟨some 1, some "https://s.com", some "S", none, none, some 7, none, none, none⟩,
         ⟨some 2, some "https://x.com", some "X", none, none, some 99, none, none, none⟩,
         ⟨some 3, some "https://s.com", some "S2", none, none, some 99, none, none, none⟩,
         ⟨some 4, some "https://y.com", some "Y", none, none, none, none, none, none⟩],
   some []⟩

/-- Bookmark bar with a folder `F` holding a bookmark and a folder `G`, which holds a
bookmark; a bookmark outside any folder; a node of another type; a bookmark without url. -/
def exampleTree : List BookmarkNode :=
  [.mk (some "folder") (some "F") none (some
      [.mk (some "url") (some "one") (some "https://one.com") none,
       .mk (some "folder") (some "G") none (some
          [.mk (some "url") none (some "https://two.com") none])]),
   .mk (some "url") (some "top") (some "https://top.com") none,
   .mk (some "separator") none none none,
   .mk (some "url") (some "empty") (some "") none]

/-- Native document in which the child (id 1) and the parent it declares (id 2) carry the same
name `X`, which the store does not hold. -/
def sameNameDoc : ImportDoc :=
  ⟨some "1.0", none,
   some [⟨1, some "X", none, some 2, none⟩, ⟨2, some "X", none, none, none⟩], some [], some []⟩

/-- Native document in which the child (id 1) and the parent it declares (id 2) carry the name
`Tools`, which `exampleStore` holds. -/
def storeNameDoc : ImportDoc :=
  ⟨some "1.0", none,
   some [⟨1, some "Tools", none, some 2, none⟩, ⟨2, some "Tools", none, none, none⟩],
   some [], some []⟩

/-- Native document with two links that have no url. -/
def urllessDoc : ImportDoc :=
  ⟨some "1.0", none, some [],
   some [⟨some 1, none, some "a", none, none, some 1, none, none, none⟩,
         ⟨some 2, none, some "b", none, none, some 1, none, none, none⟩], some []⟩

/-- Native document with one category that has no name, no links and no menu links. -/
def namelessDoc : ImportDoc :=
  ⟨some "1.0", none, some [⟨5, none, none, none, none⟩], some [], some []⟩

/-- A `URL` constructor that throws on every input. -/
def noUrl : String → Option ParsedUrl := fun _ => none

end MyNav

/-! ## Theorems -/

namespace MyNav

/-! ### Cascade delete -/

theorem contains_iff_mem {l : List Nat} {a : Nat} : l.contains a = true ↔ a ∈ l := by
  simp

theorem eq_of_mem_of_id_eq {cats : List Category} (hnd : (cats.map (·.id)).Nodup)
    {a b : Category} (ha : a ∈ cats) (hb : b ∈ cats) (h : a.id = b.id) : a = b :=
  List.inj_on_of_nodup_map hnd ha hb h

theorem mem_deleteCategory_categories (d : Data) (id : Nat) (c : Category) :
    c ∈ (deleteCategory d id).1.categories ↔
      c ∈ d.categories ∧ c.id ∉ (deleteCategory d id).2 := by
  unfold deleteCategory
  by_cases h : ((id :: (d.categories.filter fun c => c.parent_id == some id).map (·.id)).filter
      fun i => i != 1).length > 0
  · simp only [h, if_true, List.mem_filter]
    simp
  · simp only [h, if_false]
    have h0 : ((id :: (d.categories.filter fun c => c.parent_id == some id).map (·.id)).filter
        fun i => i != 1) = [] := List.length_eq_zero.mp (by omega)
    rw [h0]
    simp

theorem one_not_mem_deletedIds (d : Data) (id : Nat) : 1 ∉ (deleteCategory d id).2 := by
  simp [deleteCategory, List.mem_filter]

/-- C3: if a category with id 1 (the default category) exists before `DELETE
/api/categories/:id`, that row is still in the table afterwards, whatever the target id, and
id 1 is not among the returned `deletedIds`. -/
theorem deleteCategory_keeps_default (d : Data) (id : Nat) (c : Category)
    (hc : c ∈ d.categories) (h1 : c.id = 1) :
    c ∈ (deleteCategory d id).1.categories ∧ 1 ∉ (deleteCategory d id).2 := by
  refine ⟨?_, one_not_mem_deletedIds d id⟩
  rw [mem_deleteCategory_categories]
  exact ⟨hc, h1 ▸ one_not_mem_deletedIds d id⟩

/-- Witness for C3: the default category is a subcategory of category 2 and category 2 is
deleted. -/
theorem deleteCategory_keeps_default_witness :
    (⟨1, some "常用", some "⭐", 0, some 2⟩ : Category) ∈
        (deleteCategory ⟨[⟨1, some "常用", some "⭐", 0, some 2⟩, ⟨2, some "a", none, 0, none⟩],
          [], [], 2, 0, 0⟩ 2).1.categories ∧
      1 ∉ (deleteCategory ⟨[⟨1, some "常用", some "⭐", 0, some 2⟩, ⟨2, some "a", none, 0, none⟩],
          [], [], 2, 0, 0⟩ 2).2 :=
  deleteCategory_keeps_default _ 2 _ (by decide) rfl

theorem countP_key_nodup {α : Type} (f : α → Nat) (k : Nat) (q : α → Bool) :
    ∀ (l : List α), (l.map f).Nodup →
      l.countP (fun c => f c == k && q c) = if ∃ c ∈ l, f c = k ∧ q c = true then 1 else 0
  | [], _ => by simp
  | a :: l, hnd => by
    rw [List.map_cons, List.nodup_cons] at hnd
    have ih := countP_key_nodup f k q l hnd.2
    rw [List.countP_cons, ih]
    by_cases hk : f a = k
    · have hno : ¬ ∃ c ∈ l, f c = k ∧ q c = true := by
        rintro ⟨c, hc, hck, _⟩
        exact hnd.1 (List.mem_map.2 ⟨c, hc, hck.trans hk.symm⟩)
      by_cases hq : q a = true
      · simp [hk, hq, hno]
      · simp [hk, hq, hno]
    · simp [hk]

theorem countP_or_disjoint {α : Type} (p q : α → Bool) :
    ∀ (l : List α), (∀ c ∈ l, p c = true → q c = false) →
      l.countP (fun c => p c || q c) = l.countP p + l.countP q
  | [], _ => by simp
  | a :: l, h => by
    have ih := countP_or_disjoint p q l fun c hc => h c (List.mem_cons_of_mem a hc)
    have ha := h a (List.mem_cons_self a l)
    rw [List.countP_cons, List.countP_cons, List.countP_cons, ih]
    cases hp : p a <;> cases hq : q a <;> simp_all <;> omega

theorem countP_split {α : Type} (p q : α → Bool) :
    ∀ (l : List α),
      l.countP p = l.countP (fun c => p c && !q c) + l.countP (fun c => q c && p c)
  | [] => by simp
  | a :: l => by
    rw [List.countP_cons, List.countP_cons, List.countP_cons, countP_split p q l]
    cases hp : p a <;> cases hq : q a <;> simp <;> omega

theorem deleteCategory_categories_eq (d : Data) (id : Nat) :
    (deleteCategory d id).1.categories =
      d.categories.filter fun c => !((deleteCategory d id).2.contains c.id) := by
  unfold deleteCategory
  by_cases h : ((id :: (d.categories.filter fun c => c.parent_id == some id).map (·.id)).filter
      fun i => i != 1).length > 0
  · simp only [h, if_true]
  · simp only [h, if_false]
    have h0 : ((id :: (d.categories.filter fun c => c.parent_id == some id).map (·.id)).filter
        fun i => i != 1) = [] := List.length_eq_zero.mp (by omega)
    rw [h0, eq_comm, List.filter_eq_self]
    intro c _
    simp

theorem deleteCategory_links_eq (d : Data) (id : Nat) :
    (deleteCategory d id).1.links =
      d.links.filter fun l =>
        !(l.category_id == some id ||
          (directSubcategories d id).any fun c => l.category_id == some c.id) := by
  unfold deleteCategory directSubcategories
  simp only
  apply List.filter_congr
  intro l _
  cases hl : l.category_id with
  | none => simp
  | some k =>
    simp only
    congr 1
    rw [Bool.eq_iff_iff]
    simp only [contains_iff_mem, List.mem_cons, List.mem_map, List.mem_filter, beq_iff_eq,
      Bool.or_eq_true, List.any_eq_true, Option.some.injEq]
    constructor
    · rintro (h | ⟨c, hc, hid⟩)
      · exact Or.inl h
      · exact Or.inr ⟨c, hc, hid.symm⟩
    · rintro (h | ⟨c, hc, hid⟩)
      · exact Or.inl h
      · exact Or.inr ⟨c, hc, hid.symm⟩

/-- Counterexample for C2: the target is the default category, which has no subcategory and
owns one link; the link is removed and no category is, where the claim counts `N + 1 = 1`.
Likewise a category that is its own parent is its own single subcategory (`N = 1`), and one
row is removed, not two. -/
theorem deleteCategory_default_count :
    (¬ ∀ (d : Data) (id : Nat), (∃ c ∈ d.categories, c.id = id) →
      (deleteCategory d id).1.categories.length + ((directSubcategories d id).length + 1) =
          d.categories.length ∧
        (deleteCategory d id).1.links.length + (ownedLinks d id).length = d.links.length) ∧
      (deleteCategory exampleStore 1).1.categories = exampleStore.categories ∧
      (deleteCategory exampleStore 1).1.links = [] ∧
      (deleteCategory selfParentStore 2).1.categories.length +
          ((directSubcategories selfParentStore 2).length + 1) ≠
        selfParentStore.categories.length := by
  refine ⟨?_, by decide, by decide, by decide⟩
  intro h
  have h1 := (h exampleStore 1 ⟨⟨1, some "Tools", none, 0, none⟩, by decide, rfl⟩).1
  revert h1
  decide

/-- C2, amended: in a table whose ids are distinct, for an existing category `id` that is not
its own parent, with `N` direct subcategories and `M` links owned by it or by them, the delete
removes exactly the `M` links and removes the `N + 1` categories except the default category
(id 1): `N + 1` rows when neither `id` nor a subcategory is the default, `N` rows otherwise.
The rows kept are unchanged and in their order. -/
theorem deleteCategory_counts (d : Data) (id : Nat)
    (hnd : (d.categories.map (·.id)).Nodup) (hex : ∃ c ∈ d.categories, c.id = id)
    (hself : ∀ c ∈ d.categories, c.id = id → c.parent_id ≠ some id) :
    (deleteCategory d id).1.categories.length + ((directSubcategories d id).length + 1) =
        d.categories.length +
          (if id = 1 ∨ ∃ c ∈ directSubcategories d id, c.id = 1 then 1 else 0) ∧
      (deleteCategory d id).1.links.length + (ownedLinks d id).length = d.links.length ∧
      (deleteCategory d id).1.categories.Sublist d.categories ∧
      (deleteCategory d id).1.links.Sublist d.links := by
  have hsafe : ∀ c ∈ d.categories,
      (!((deleteCategory d id).2.contains c.id)) =
        !((c.id == id || c.parent_id == some id) && !(c.id == 1)) := by
    intro c hc
    congr 1
    rw [Bool.eq_iff_iff]
    simp only [deleteCategory, contains_iff_mem, List.mem_filter, List.mem_cons, List.mem_map,
      bne_iff_ne, ne_eq, Bool.and_eq_true, Bool.or_eq_true, beq_iff_eq, Bool.not_eq_true',
      beq_eq_false_iff_ne]
    constructor
    · rintro ⟨h | ⟨s, ⟨hs, hsp⟩, hid⟩, h1⟩
      · exact ⟨Or.inl h, h1⟩
      · have hsc := eq_of_mem_of_id_eq hnd hs hc hid
        subst hsc
        exact ⟨Or.inr hsp, h1⟩
    · rintro ⟨h | h, h1⟩
      · exact ⟨Or.inl h, h1⟩
      · exact ⟨Or.inr ⟨c, ⟨hc, h⟩, rfl⟩, h1⟩
  have hcats : (deleteCategory d id).1.categories =
      d.categories.filter fun c => !((c.id == id || c.parent_id == some id) && !(c.id == 1)) := by
    rw [deleteCategory_categories_eq]
    exact List.filter_congr hsafe
  refine ⟨?_, ?_, ?_, ?_⟩
  · rw [hcats]
    have hlen := @List.length_eq_length_filter_add _ d.categories
      (fun c => (c.id == id || c.parent_id == some id) && !(c.id == 1))
    have hsplit := countP_split (fun c : Category => c.id == id || c.parent_id == some id)
      (fun c => c.id == 1) d.categories
    have hor := countP_or_disjoint (fun c : Category => c.id == id)
      (fun c => c.parent_id == some id) d.categories (by
        intro c hc h
        simp only [beq_iff_eq] at h
        simpa using hself c hc h)
    have hid := countP_key_nodup (fun c : Category => c.id) id (fun _ => true) d.categories hnd
    have hone := countP_key_nodup (fun c : Category => c.id) 1
      (fun c => c.id == id || c.parent_id == some id) d.categories hnd
    have hid' : d.categories.countP (fun c => c.id == id) = 1 := by
      have : (∃ c ∈ d.categories, c.id = id ∧ true = true) := by
        obtain ⟨c, hc, h⟩ := hex
        exact ⟨c, hc, h, rfl⟩
      rw [if_pos this] at hid
      simpa using hid
    have hcond : (∃ c ∈ d.categories, c.id = 1 ∧
          (c.id == id || c.parent_id == some id) = true) ↔
        (id = 1 ∨ ∃ c ∈ directSubcategories d id, c.id = 1) := by
      simp only [directSubcategories, List.mem_filter, Bool.or_eq_true, beq_iff_eq]
      constructor
      · rintro ⟨c, hc, h1, h | h⟩
        · exact Or.inl (h ▸ h1)
        · exact Or.inr ⟨c, ⟨hc, h⟩, h1⟩
      · rintro (h | ⟨c, ⟨hc, h⟩, h1⟩)
        · obtain ⟨c, hc, hcid⟩ := hex
          exact ⟨c, hc, hcid.trans h, Or.inl hcid⟩
        · exact ⟨c, hc, h1, Or.inr h⟩
    simp only [hcond] at hone
    simp only [List.countP_eq_length_filter] at hsplit hor hid' hone
    simp only [directSubcategories] at hone ⊢
    rw [← hone]
    omega
  · rw [deleteCategory_links_eq]
    have hlen := @List.length_eq_length_filter_add _ d.links
      (fun l => l.category_id == some id ||
        (directSubcategories d id).any fun c => l.category_id == some c.id)
    simp only [ownedLinks]
    omega
  · rw [deleteCategory_categories_eq]
    exact List.filter_sublist _
  · rw [deleteCategory_links_eq]
    exact List.filter_sublist _

/-- Witness for C2 as amended: category 2 has one subcategory and they own two links. -/
theorem deleteCategory_counts_witness :
    (deleteCategory
      ⟨[⟨1, some "常用", none, 0, none⟩, ⟨2, some "a", none, 0, none⟩, ⟨3, some "b", none, 0, some 2⟩],
       [⟨1, some "u", none, none, none, some 2, none, "t0", 0⟩,
        ⟨2, some "v", none, none, none, some 3, none, "t0", 0⟩,
        ⟨3, some "w", none, none, none, some 1, none, "t0", 0⟩], [], 3, 3, 0⟩ 2).1.categories.length
        + (1 + 1) = 3 + 0 :=
  (deleteCategory_counts
    ⟨[⟨1, some "常用", none, 0, none⟩, ⟨2, some "a", none, 0, none⟩, ⟨3, some "b", none, 0, some 2⟩],
     [⟨1, some "u", none, none, none, some 2, none, "t0", 0⟩,
      ⟨2, some "v", none, none, none, some 3, none, "t0", 0⟩,
      ⟨3, some "w", none, none, none, some 1, none, "t0", 0⟩], [], 3, 3, 0⟩ 2
    (by decide) ⟨⟨2, some "a", none, 0, none⟩, by decide, rfl⟩ (by decide)).1

/-! ### Import: format detection and atomicity -/

/-- C7: a document without `roots`, without `_mynav_version` and without both `categories`
and `links` gets the format error response, and the database (hence the numbers of categories
and links) is what it was. -/
theorem importData_unrecognized (parseUrl : String → Option ParsedUrl) (now : String)
    (failAt : Option Nat) (db : Db) (data : ImportDoc)
    (hroots : data.roots = none) (hver : data.mynav_version = none)
    (hshape : ¬ (data.categories.isSome ∧ data.links.isSome)) :
    importData parseUrl now failAt db data = (db, .formatError) := by
  have hdet : detectFormat parseUrl data = none := by
    unfold detectFormat
    rw [hroots, hver]
    cases hc : data.categories <;> cases hl : data.links <;> simp_all
  simp [importData, hdet]

/-- Witness for C7: the document `{foo: 1}`. -/
theorem importData_unrecognized_witness :
    importData noUrl "now" none ⟨exampleStore, none⟩ fooDoc =
      (⟨exampleStore, none⟩, .formatError) :=
  importData_unrecognized noUrl "now" none ⟨exampleStore, none⟩ fooDoc rfl rfl (by decide)

theorem importCatch_of_txn (d saved : Data) :
    importCatch ⟨d, some saved⟩ = (⟨saved, none⟩, .failed) := rfl

theorem importCatch_of_idle (db : Db) (h : db.txn = none) :
    importCatch db = (db, .rollbackFailed) := by
  simp [importCatch, Db.rollback, h]

/-! ### Orphan cleanup -/

theorem mem_findOrphans (d : Data) (c : Category) :
    c ∈ findOrphans d ↔ c ∈ d.categories ∧ isOrphan d c = true := by
  simp [findOrphans, List.mem_filter]

theorem cleanupOrphans_eq (d : Data) :
    cleanupOrphans d =
      ({ d with
          links := d.links.filter fun l =>
            match l.category_id with
            | none => true
            | some c => !(((findOrphans d).map (·.id)).contains c),
          categories := d.categories.filter fun c =>
            !(((findOrphans d).map (·.id)).contains c.id) },
        (findOrphans d).length) := by
  unfold cleanupOrphans
  by_cases h : (findOrphans d).length > 0
  · simp [h]
  · have h0 : findOrphans d = [] := List.length_eq_zero.mp (by omega)
    simp only [h0, List.length_nil, gt_iff_lt, lt_self_iff_false, if_false, List.map_nil]
    have hl : (d.links.filter fun l =>
        match l.category_id with
        | none => true
        | some c => !(([] : List Nat).contains c)) = d.links := by
      rw [List.filter_eq_self]
      intro l _
      cases l.category_id <;> simp
    have hc : (d.categories.filter fun c => !(([] : List Nat).contains c.id)) = d.categories := by
      rw [List.filter_eq_self]
      intro c _
      simp
    rw [hl, hc]

/-- C9: in a table whose ids are distinct (the primary key), the cleanup deletes exactly the
categories whose `parent_id` is non-null and is the id of no category, and exactly the links
whose `category_id` is the id of one of them; the rows kept are unchanged and in place, the
menu links and the id counters are untouched, and the reported `count` is the number of
categories deleted. -/
theorem cleanupOrphans_exact (d : Data) (hnd : (d.categories.map (·.id)).Nodup) :
    (cleanupOrphans d).1.categories = d.categories.filter (fun c => !(isOrphan d c)) ∧
      (cleanupOrphans d).1.links =
        d.links.filter (fun l => !(d.categories.any fun c =>
          isOrphan d c && l.category_id == some c.id)) ∧
      (cleanupOrphans d).1.menu_links = d.menu_links ∧
      (cleanupOrphans d).1.catSeq = d.catSeq ∧
      (cleanupOrphans d).1.linkSeq = d.linkSeq ∧
      (cleanupOrphans d).1.menuSeq = d.menuSeq ∧
      (cleanupOrphans d).1.categories.length + (cleanupOrphans d).2 = d.categories.length ∧
      (cleanupOrphans d).2 = (d.categories.filter (isOrphan d)).length := by
  rw [cleanupOrphans_eq]
  have hcat : (d.categories.filter fun c => !(((findOrphans d).map (·.id)).contains c.id)) =
      d.categories.filter (fun c => !(isOrphan d c)) := by
    apply List.filter_congr
    intro c hc
    congr 1
    rw [Bool.eq_iff_iff]
    simp only [contains_iff_mem, List.mem_map, mem_findOrphans]
    constructor
    · rintro ⟨o, ⟨ho, hoo⟩, hid⟩
      rw [← eq_of_mem_of_id_eq hnd ho hc hid]
      exact hoo
    · intro h
      exact ⟨c, ⟨hc, h⟩, rfl⟩
  refine ⟨hcat, ?_, rfl, rfl, rfl, rfl, ?_, rfl⟩
  · apply List.filter_congr
    intro l _
    cases hl : l.category_id with
    | none => simp
    | some k =>
      simp only
      congr 1
      rw [Bool.eq_iff_iff]
      simp only [contains_iff_mem, List.mem_map, mem_findOrphans, List.any_eq_true,
        Bool.and_eq_true, beq_iff_eq, Option.some.injEq]
      constructor
      · rintro ⟨o, ⟨ho, hoo⟩, hid⟩
        exact ⟨o, ho, hoo, hid.symm⟩
      · rintro ⟨o, ho, hoo, hid⟩
        exact ⟨o, ⟨ho, hoo⟩, hid.symm⟩
  · simp only
    rw [hcat]
    have := @List.length_eq_length_filter_add _ d.categories (isOrphan d)
    simp only [findOrphans]
    omega

/-- Witness for C9: the orphan and its link go, the other rows stay. -/
theorem cleanupOrphans_exact_witness :
    (cleanupOrphans orphanStore).1.categories =
        [⟨1, some "常用", some "⭐", 0, none⟩, ⟨3, some "b", none, 0, some 2⟩] ∧
      (cleanupOrphans orphanStore).1.links =
        [⟨2, some "v", none, none, none, some 1, none, "t0", 0⟩] ∧
      (cleanupOrphans orphanStore).2 = 1 := by
  have h := cleanupOrphans_exact orphanStore (by decide)
  refine ⟨h.1.trans (by decide), h.2.1.trans (by decide), h.2.2.2.2.2.2.2.trans (by decide)⟩

/-- Counterexample for C8: the orphan 2 has the child 3; the first run deletes 2, and the
second run finds 3 orphaned and reports the count 1. -/
theorem cleanupOrphans_second_run_nonempty :
    findOrphans (cleanupOrphans orphanStore).1 = [⟨3, some "b", none, 0, some 2⟩] ∧
      (cleanupOrphans (cleanupOrphans orphanStore).1).2 = 1 := by
  decide

/-- C8, amended: when no category is a child of an orphan, a second cleanup run finds no
orphan, reports the count 0 and changes nothing. -/
theorem cleanupOrphans_idempotent (d : Data)
    (hleaf : ∀ o ∈ findOrphans d, ∀ c ∈ d.categories, c.parent_id ≠ some o.id) :
    findOrphans (cleanupOrphans d).1 = [] ∧
      (cleanupOrphans (cleanupOrphans d).1).2 = 0 ∧
      (cleanupOrphans (cleanupOrphans d).1).1 = (cleanupOrphans d).1 := by
  have hno : findOrphans (cleanupOrphans d).1 = [] := by
    rw [List.eq_nil_iff_forall_not_mem]
    intro c hc
    rw [mem_findOrphans, cleanupOrphans_eq] at hc
    obtain ⟨hmem, horph⟩ := hc
    simp only [List.mem_filter, Bool.not_eq_true', List.contains_eq_any_beq,
      List.any_eq_false, beq_iff_eq, List.mem_map] at hmem
    obtain ⟨hcd, hcid⟩ := hmem
    -- `c` was not an orphan before the first run
    have hnot : isOrphan d c = false := by
      by_contra hcon
      simp only [Bool.not_eq_false] at hcon
      exact hcid c.id ⟨c, (mem_findOrphans d c).2 ⟨hcd, hcon⟩, rfl⟩ rfl
    unfold isOrphan at horph hnot
    cases hp : c.parent_id with
    | none => simp [hp] at horph
    | some p =>
      simp only [hp, Bool.not_eq_true', List.any_eq_false, beq_iff_eq, List.mem_filter,
        Bool.not_eq_false', List.any_eq_true, List.contains_eq_any_beq, List.mem_map,
        and_imp, Bool.not_eq_false] at horph hnot
      obtain ⟨q, hq, hqp⟩ := hnot
      by_cases hqo : ∃ o ∈ findOrphans d, o.id = q.id
      · obtain ⟨o, ho, hoid⟩ := hqo
        exact hleaf o ho c hcd (by rw [hp, hoid, hqp])
      · refine horph q hq ?_ hqp
        intro x hx
        exact fun hxe => hqo (by
          obtain ⟨o, ho, hoid⟩ := hx
          exact ⟨o, ho, by rw [hoid, hxe]⟩)
  have hrun : cleanupOrphans (cleanupOrphans d).1 = ((cleanupOrphans d).1, 0) := by
    generalize (cleanupOrphans d).1 = e at hno
    unfold cleanupOrphans
    simp [hno]
  exact ⟨hno, by rw [hrun], by rw [hrun]⟩

/-- Witness for C8 as amended: a store whose only orphan has no child. -/
theorem cleanupOrphans_idempotent_witness :
    (cleanupOrphans (cleanupOrphans
      ⟨[⟨1, some "常用", some "⭐", 0, none⟩, ⟨2, some "a", none, 0, some 99⟩], [], [], 2, 0, 0⟩).1).2
        = 0 :=
  (cleanupOrphans_idempotent
    ⟨[⟨1, some "常用", some "⭐", 0, none⟩, ⟨2, some "a", none, 0, some 99⟩], [], [], 2, 0, 0⟩
    (by decide)).2.1

/-! ### Same-category reorder -/

theorem applyRequests_enumFrom (seq : List Link) :
    ∀ (k : Nat) (d : Data),
      applyRequests d ((seq.enumFrom k).map fun p => ⟨p.2.id, ⟨none, some (p.1 : Int)⟩⟩) =
        { d with links := d.links.map (writeOrder seq k) } := by
  induction seq with
  | nil =>
    intro k d
    simp [applyRequests, writeOrder]
  | cons x xs ih =>
    intro k d
    simp only [List.enumFrom_cons, List.map_cons, applyRequests, List.foldl_cons]
    have hstep : (match moveLink d x.id ⟨none, some (k : Int)⟩ with
        | .ok d' => d'
        | .error _ => d) =
        { d with links := d.links.map fun l =>
            if l.id = x.id then { l with sort_order := (k : Int) } else l } := by
      simp [moveLink]
    rw [hstep]
    have := ih (k + 1) { d with links := d.links.map fun l =>
            if l.id = x.id then { l with sort_order := (k : Int) } else l }
    simp only [applyRequests] at this
    rw [this]
    simp only [List.map_map]
    congr 1

theorem applyRequests_reorderRequests (d : Data) (seq : List Link) :
    applyRequests d (reorderRequests seq) = { d with links := d.links.map (writeOrder seq 0) } := by
  simpa [reorderRequests, List.enum] using applyRequests_enumFrom seq 0 d

theorem writeOrder_of_not_mem (seq : List Link) :
    ∀ (k : Nat) (l : Link), l.id ∉ seq.map (·.id) → writeOrder seq k l = l := by
  induction seq with
  | nil => intro k l _; rfl
  | cons x xs ih =>
    intro k l h
    simp only [List.map_cons, List.mem_cons, not_or] at h
    simp only [writeOrder, h.1, if_false]
    exact ih (k + 1) l h.2

theorem writeOrder_of_getElem (seq : List Link) :
    ∀ (k : Nat) (l : Link) (i : Nat) (hi : i < seq.length), (seq.map (·.id)).Nodup →
      seq[i].id = l.id → writeOrder seq k l = { l with sort_order := ((k + i : Nat) : Int) } := by
  induction seq with
  | nil => intro k l i hi; simp at hi
  | cons x xs ih =>
    intro k l i hi hnd hid
    rw [List.map_cons, List.nodup_cons] at hnd
    cases i with
    | zero =>
      simp only [List.getElem_cons_zero] at hid
      simp only [writeOrder, hid, if_true, Nat.add_zero]
      apply writeOrder_of_not_mem
      simpa [← hid] using hnd.1
    | succ j =>
      simp only [List.getElem_cons_succ] at hid
      have hj : j < xs.length := by simpa using hi
      have hne : ¬ l.id = x.id := by
        intro h
        apply hnd.1
        rw [← h, ← hid]
        exact List.mem_map.2 ⟨xs[j], List.getElem_mem hj, rfl⟩
      simp only [writeOrder, hne, if_false]
      rw [ih (k + 1) l j hj hnd.2 hid]
      congr 2
      omega

theorem writeOrder_category_id (seq : List Link) :
    ∀ (k : Nat) (l : Link), (writeOrder seq k l).category_id = l.category_id := by
  induction seq with
  | nil => intro k l; rfl
  | cons x xs ih =>
    intro k l
    simp only [writeOrder]
    rw [ih]
    split <;> rfl

theorem map_writeOrder_self (seq : List Link) (hnd : (seq.map (·.id)).Nodup) :
    seq.map (writeOrder seq 0) = seq.enum.map fun p => { p.2 with sort_order := (p.1 : Int) } := by
  apply List.ext_getElem
  · simp
  · intro i h1 h2
    have hi : i < seq.length := by simpa using h1
    simp only [List.getElem_map, List.getElem_enum]
    rw [writeOrder_of_getElem seq 0 seq[i] i hi hnd rfl]
    simp

theorem linkGroup_map_writeOrder (d : Data) (seq : List Link) (c : Option Nat) :
    linkGroup { d with links := d.links.map (writeOrder seq 0) } c =
      (linkGroup d c).map (writeOrder seq 0) := by
  simp only [linkGroup, List.filter_map]
  congr 1
  apply List.filter_congr
  intro l _
  simp [writeOrder_category_id]

theorem nodup_ids_of_perm_group (d : Data) (c : Option Nat) (seq : List Link)
    (hnd : (d.links.map (·.id)).Nodup) (hperm : seq.Perm (linkGroup d c)) :
    (seq.map (·.id)).Nodup := by
  rw [(hperm.map _).nodup_iff]
  exact hnd.sublist ((List.filter_sublist _).map _)

theorem eq_of_mem_links_of_id_eq {links : List Link} (hnd : (links.map (·.id)).Nodup)
    {a b : Link} (ha : a ∈ links) (hb : b ∈ links) (h : a.id = b.id) : a = b :=
  List.inj_on_of_nodup_map hnd ha hb h

theorem writeOrder_other_group (d : Data) (c : Option Nat) (seq : List Link)
    (hnd : (d.links.map (·.id)).Nodup) (hperm : seq.Perm (linkGroup d c))
    (l : Link) (hl : l ∈ d.links) (hc : l.category_id ≠ c) : writeOrder seq 0 l = l := by
  apply writeOrder_of_not_mem
  intro hmem
  obtain ⟨x, hx, hid⟩ := List.mem_map.1 hmem
  have hxg : x ∈ linkGroup d c := hperm.subset hx
  simp only [linkGroup, List.mem_filter, beq_iff_eq] at hxg
  have := eq_of_mem_links_of_id_eq hnd hxg.1 hl hid
  exact hc (this ▸ hxg.2)

theorem contiguous_enum_orders (seq : List Link) :
    Contiguous ((seq.enum.map fun p => ({ p.2 with sort_order := (p.1 : Int) } : Link)).map
      (·.sort_order)) := by
  unfold Contiguous
  have h : ((seq.enum.map fun p => ({ p.2 with sort_order := (p.1 : Int) } : Link)).map
      (·.sort_order)) = (List.range seq.length).map Int.ofNat := by
    rw [List.map_map, ← List.enum_map_fst, List.map_map]
    rfl
  rw [h]
  simp

/-- C10: in a table whose ids are distinct, let `seq` be any new sequence of the links of
category `c`.  After the server has handled the requests that the reorder sends for `seq`,
the row of `seq[i]` is `seq[i]` with `sort_order = i`; the group of `c` is `seq` renumbered, so
its `sort_order` values are exactly `0 .. n-1`; the groups of the other categories are as before
and no request addresses a link outside `c`.  In particular dropping `C` on `A` in `[A, B, C]`
(0, 1, 2) sends `C = 0, A = 1, B = 2`. -/
theorem reorder_assigns_positions (d : Data) (c : Option Nat) (seq : List Link)
    (hnd : (d.links.map (·.id)).Nodup) (hperm : seq.Perm (linkGroup d c)) :
    (∀ (i : Nat) (hi : i < seq.length),
        ({ seq[i] with sort_order := (i : Int) } : Link) ∈
          (applyRequests d (reorderRequests seq)).links) ∧
      (linkGroup (applyRequests d (reorderRequests seq)) c).Perm
        (seq.enum.map fun p => { p.2 with sort_order := (p.1 : Int) }) ∧
      Contiguous ((linkGroup (applyRequests d (reorderRequests seq)) c).map (·.sort_order)) ∧
      (∀ c', c' ≠ c → linkGroup (applyRequests d (reorderRequests seq)) c' = linkGroup d c') ∧
      (∀ r ∈ reorderRequests seq, ∃ l ∈ linkGroup d c, r.linkId = l.id) ∧
      handleDrop [linkA, linkB, linkC, linkD] linkC 3 linkA =
        [⟨3, ⟨none, some 0⟩⟩, ⟨1, ⟨none, some 1⟩⟩, ⟨2, ⟨none, some 2⟩⟩] ∧
      (applyRequests abcStore (handleDrop abcStore.links linkC 3 linkA)).links =
        [{ linkA with sort_order := 1 }, { linkB with sort_order := 2 },
          { linkC with sort_order := 0 }, linkD] := by
  have hseq := nodup_ids_of_perm_group d c seq hnd hperm
  have hgroup : (linkGroup (applyRequests d (reorderRequests seq)) c).Perm
      (seq.enum.map fun p => { p.2 with sort_order := (p.1 : Int) }) := by
    rw [applyRequests_reorderRequests, linkGroup_map_writeOrder, ← map_writeOrder_self seq hseq]
    exact (hperm.symm).map _
  refine ⟨?_, hgroup, ?_, ?_, ?_, by decide, by decide⟩
  · intro i hi
    rw [applyRequests_reorderRequests]
    have hmem : seq[i] ∈ d.links :=
      (List.mem_filter.1 (hperm.subset (List.getElem_mem hi))).1
    have := List.mem_map_of_mem (writeOrder seq 0) hmem
    rw [writeOrder_of_getElem seq 0 seq[i] i hi hseq rfl] at this
    simpa using this
  · unfold Contiguous
    have h1 := hgroup.map (·.sort_order)
    have h2 := contiguous_enum_orders seq
    unfold Contiguous at h2
    rw [h1.length_eq]
    exact h1.trans h2
  · intro c' hc'
    rw [applyRequests_reorderRequests, linkGroup_map_writeOrder]
    conv_rhs => rw [← List.map_id (linkGroup d c')]
    apply List.map_congr_left
    intro l hl
    simp only [linkGroup, List.mem_filter, beq_iff_eq] at hl
    exact writeOrder_other_group d c seq hnd hperm l hl.1 (fun h => hc' (hl.2 ▸ h))
  · intro r hr
    simp only [reorderRequests, List.mem_map] at hr
    obtain ⟨p, hp, rfl⟩ := hr
    have hp2 : p.2 ∈ seq := by
      have := List.mem_map_of_mem Prod.snd hp
      rwa [List.enum_map_snd] at this
    exact ⟨p.2, hperm.subset hp2, rfl⟩

/-- Witness for C10: the links of category 1 of `abcStore` in the order `[C, A, B]`. -/
theorem reorder_assigns_positions_witness :
    ({ linkC with sort_order := 0 } : Link) ∈
        (applyRequests abcStore (reorderRequests [linkC, linkA, linkB])).links ∧
      linkGroup (applyRequests abcStore (reorderRequests [linkC, linkA, linkB])) (some 2) =
        [linkD] :=
  have h := reorder_assigns_positions abcStore (some 1) [linkC, linkA, linkB]
    (by decide) (by decide)
  ⟨h.1 0 (by decide), (h.2.2.2.1 (some 2) (by decide)).trans (by decide)⟩

/-! ### Density of `sort_order` -/

theorem contiguous_nil : Contiguous [] := by
  unfold Contiguous
  simp

theorem sortOrdersDense_of_keys (d : Data)
    (hl : ∀ c ∈ d.links.map (·.category_id), Contiguous ((linkGroup d c).map (·.sort_order)))
    (hc : ∀ p ∈ d.categories.map (·.parent_id),
      Contiguous ((categoryGroup d p).map (·.sort_order))) :
    SortOrdersDense d := by
  constructor
  · intro c
    by_cases h : c ∈ d.links.map (·.category_id)
    · exact hl c h
    · have : linkGroup d c = [] := by
        rw [linkGroup, List.filter_eq_nil_iff]
        intro l hl' hcl
        exact h (List.mem_map.2 ⟨l, hl', by simpa using hcl⟩)
      rw [this]
      exact contiguous_nil
  · intro p
    by_cases h : p ∈ d.categories.map (·.parent_id)
    · exact hc p h
    · have : categoryGroup d p = [] := by
        rw [categoryGroup, List.filter_eq_nil_iff]
        intro c hc' hcp
        exact h (List.mem_map.2 ⟨c, hc', by simpa using hcp⟩)
      rw [this]
      exact contiguous_nil

/-- Counterexample for C1: every sibling group of `denseStore` is contiguous, and after each
of these successful mutations one group is not: adding a link to category 1 (the new link
takes the column default 0, as does `A`), deleting link `A` (leaves `B = 1` alone), dropping
`D` on `A` (cross-category move: `D` takes `A`'s 0), creating a top-level category (takes 0),
re-parenting subcategory 3 to the top level (keeps its 0), deleting category 2 (leaves 0, 2),
and importing one new link into category 1 (takes 0). -/
theorem mutations_break_density :
    SortOrdersDense denseStore ∧
      (∃ d', addLink "now" denseStore ⟨some "https://n.com", none, none, none, some 1, none⟩ =
            .ok d' ∧
          ¬ Contiguous ((linkGroup d' (some 1)).map (·.sort_order))) ∧
      ¬ Contiguous ((linkGroup (deleteLink denseStore 1) (some 1)).map (·.sort_order)) ∧
      ¬ Contiguous ((linkGroup (applyRequests denseStore
          (handleDrop denseStore.links linkD 4 linkA)) (some 1)).map (·.sort_order)) ∧
      (∃ r, createCategory denseStore ⟨some "New", none, none, none⟩ = .ok r ∧
          ¬ Contiguous ((categoryGroup r.1 none).map (·.sort_order))) ∧
      (∃ d', updateCategory denseStore 3 ⟨some "Sub", none, none, some 0⟩ = .ok d' ∧
          ¬ Contiguous ((categoryGroup d' none).map (·.sort_order))) ∧
      ¬ Contiguous ((categoryGroup (deleteCategory denseStore 2).1 none).map (·.sort_order)) ∧
      (∃ db' stats, importData noUrl "now" none ⟨denseStore, none⟩
            ⟨none, none, some [],
              some [⟨none, some "https://n.com", none, none, none, some 1, none, none, none⟩],
              none⟩ = (db', .success stats) ∧
          ¬ Contiguous ((linkGroup db'.data (some 1)).map (·.sort_order))) := by
  refine ⟨sortOrdersDense_of_keys denseStore (by decide) (by decide), ⟨_, rfl, by decide⟩,
    by decide, by decide, ⟨_, rfl, by decide⟩, ⟨_, rfl, by decide⟩, by decide,
    ⟨_, _, rfl, by decide⟩⟩

/-- C1, amended: the same-category reorder is the mutation that renumbers.  In a table whose
ids are distinct, after the requests sent for a new sequence `seq` of the links of category
`c`, the `sort_order` values of that group are exactly `0 .. n-1`, every other link group and
every category is as before, and hence a store whose sibling groups were all contiguous still
has all of them contiguous.  (Adding, deleting or moving a link across categories, creating,
updating or deleting a category, and importing do not renumber.) -/
theorem reorder_keeps_density (d : Data) (c : Option Nat) (seq : List Link)
    (hnd : (d.links.map (·.id)).Nodup) (hperm : seq.Perm (linkGroup d c)) :
    Contiguous ((linkGroup (applyRequests d (reorderRequests seq)) c).map (·.sort_order)) ∧
      (∀ c', c' ≠ c → linkGroup (applyRequests d (reorderRequests seq)) c' = linkGroup d c') ∧
      (applyRequests d (reorderRequests seq)).categories = d.categories ∧
      (SortOrdersDense d → SortOrdersDense (applyRequests d (reorderRequests seq))) := by
  have hseq := nodup_ids_of_perm_group d c seq hnd hperm
  have hc : Contiguous
      ((linkGroup (applyRequests d (reorderRequests seq)) c).map (·.sort_order)) := by
    have hgroup : (linkGroup (applyRequests d (reorderRequests seq)) c).Perm
        (seq.enum.map fun p => { p.2 with sort_order := (p.1 : Int) }) := by
      rw [applyRequests_reorderRequests, linkGroup_map_writeOrder,
        ← map_writeOrder_self seq hseq]
      exact (hperm.symm).map _
    unfold Contiguous
    have h1 := hgroup.map (·.sort_order)
    have h2 := contiguous_enum_orders seq
    unfold Contiguous at h2
    rw [h1.length_eq]
    exact h1.trans h2
  have hother : ∀ c', c' ≠ c →
      linkGroup (applyRequests d (reorderRequests seq)) c' = linkGroup d c' := by
    intro c' hc'
    rw [applyRequests_reorderRequests, linkGroup_map_writeOrder]
    conv_rhs => rw [← List.map_id (linkGroup d c')]
    apply List.map_congr_left
    intro l hl
    simp only [linkGroup, List.mem_filter, beq_iff_eq] at hl
    exact writeOrder_other_group d c seq hnd hperm l hl.1 (fun h => hc' (hl.2 ▸ h))
  have hcats : (applyRequests d (reorderRequests seq)).categories = d.categories := by
    rw [applyRequests_reorderRequests]
  refine ⟨hc, hother, hcats, ?_⟩
  rintro ⟨hl, hcg⟩
  constructor
  · intro c'
    by_cases h : c' = c
    · rw [h]
      exact hc
    · rw [hother c' h]
      exact hl c'
  · intro p
    have : categoryGroup (applyRequests d (reorderRequests seq)) p = categoryGroup d p := by
      simp only [categoryGroup, hcats]
    rw [this]
    exact hcg p

/-- Witness for C1 as amended: reordering the two links of category 1 of `denseStore`. -/
theorem reorder_keeps_density_witness :
    SortOrdersDense (applyRequests denseStore (reorderRequests [linkB, linkA])) :=
  (reorder_keeps_density denseStore (some 1) [linkB, linkA] (by decide) (by decide)).2.2.2
    (sortOrdersDense_of_keys denseStore (by decide) (by decide))

/-! ### Import: the steps of a successful run -/

theorem runLoop_none {σ α : Type} (calls : σ → α → Nat) (step : σ → α → σ) :
    ∀ (l : List α) (s : σ), runLoop calls step none s l = (none, l.foldl step s, true)
  | [], s => rfl
  | a :: l, s => by
    rw [runLoop, runLoop_none calls step l (step s a)]
    rfl

theorem runLoop_complete {σ α : Type} (calls : σ → α → Nat) (step : σ → α → σ) :
    ∀ (l : List α) (b : Option Nat) (s : σ) (b' : Option Nat) (s' : σ),
      runLoop calls step b s l = (b', s', true) → s' = l.foldl step s
  | [], b, s, b', s', h => by
    cases b <;> simp [runLoop] at h <;> exact h.2.symm
  | a :: l, none, s, b', s', h => by
    rw [runLoop] at h
    exact runLoop_complete calls step l none (step s a) b' s' h
  | a :: l, some k, s, b', s', h => by
    rw [runLoop] at h
    by_cases hk : k < calls s a
    · simp [hk] at h
    · simp only [hk, if_false] at h
      exact runLoop_complete calls step l _ (step s a) b' s' h

theorem importSteps_of_some (now : String) (b : Option Nat) (d : Data)
    (categories : List CategoryDoc) (links : List LinkDoc) (menu_links : List MenuLinkDoc)
    (d' : Data) (stats : ImportStats)
    (h : importSteps now b d categories links menu_links = (d', some stats)) :
    (d', stats) = importBody now d categories links menu_links := by
  unfold importSteps at h
  rcases h1 : runLoop importCategoryCalls importCategory b (d, []) categories with ⟨b1, s1, ok1⟩
  rw [h1] at h
  cases ok1 with
  | false => simp at h
  | true =>
    have e1 := runLoop_complete _ _ _ _ _ _ _ h1
    simp only at h
    rcases h2 : runLoop (importParentCalls s1.2) (importParent s1.2) b1 s1.1 categories with
      ⟨b2, d2, ok2⟩
    rw [h2] at h
    cases ok2 with
    | false => simp at h
    | true =>
      have e2 := runLoop_complete _ _ _ _ _ _ _ h2
      simp only at h
      rcases h3 : runLoop importLinkCalls (importLink now s1.2) b2 (d2, ⟨0, 0⟩) links with
        ⟨b3, s3, ok3⟩
      rw [h3] at h
      cases ok3 with
      | false => simp at h
      | true =>
        have e3 := runLoop_complete _ _ _ _ _ _ _ h3
        simp only at h
        rcases h4 : runLoop importMenuLinkCalls importMenuLink b3 s3.1 menu_links with
          ⟨b4, d4, ok4⟩
        rw [h4] at h
        cases ok4 with
        | false => simp at h
        | true =>
          have e4 := runLoop_complete _ _ _ _ _ _ _ h4
          simp only at h
          by_cases hb : b4 = some 0
          · simp [hb] at h
          · simp only [hb, if_false, Prod.mk.injEq, Option.some.injEq] at h
            subst e1 e2 e3 e4
            rw [← h.1, ← h.2]
            rfl

theorem importSteps_none (now : String) (d : Data)
    (categories : List CategoryDoc) (links : List LinkDoc) (menu_links : List MenuLinkDoc) :
    importSteps now none d categories links menu_links =
      ((importBody now d categories links menu_links).1,
        some (importBody now d categories links menu_links).2) := by
  unfold importSteps
  simp only [runLoop_none]
  rfl

/-- A successful import is the run of `importBody` on the detected lists. -/
theorem importData_of_success (parseUrl : String → Option ParsedUrl) (now : String)
    (failAt : Option Nat) (db db' : Db) (data : ImportDoc) (stats : ImportStats)
    (h : importData parseUrl now failAt db data = (db', .success stats)) :
    ∃ categories links menu_links,
      detectFormat parseUrl data = some (categories, links, menu_links) ∧
        db' = ⟨(importBody now db.data categories links menu_links).1, none⟩ ∧
        stats = (importBody now db.data categories links menu_links).2 := by
  unfold importData at h
  cases hdet : detectFormat parseUrl data with
  | none => simp [hdet] at h
  | some fmt =>
    obtain ⟨categories, links, menu_links⟩ := fmt
    refine ⟨categories, links, menu_links, rfl, ?_⟩
    obtain ⟨d0, t⟩ := db
    simp only [hdet] at h
    cases t with
    | some saved =>
      by_cases h0 : failAt = some 0
      · simp [h0, importCatch_of_txn] at h
      · simp [h0, Db.begin, importCatch_of_txn] at h
    | none =>
      by_cases h0 : failAt = some 0
      · simp [h0, importCatch_of_idle] at h
      · simp only [h0, if_false, Db.begin] at h
        rcases hs : importSteps now (failAt.map (· - 1)) d0 categories links menu_links with
          ⟨d, r⟩
        rw [hs] at h
        cases r with
        | none => simp [importCatch_of_txn] at h
        | some st =>
          have hb := importSteps_of_some _ _ _ _ _ _ _ _ hs
          simp only [Db.commit, Prod.mk.injEq, ImportResult.success.injEq] at h
          rw [← hb]
          exact ⟨h.1.symm, h.2.symm⟩

/-- With a storage that does not fail and no open transaction, the import of a recognised
document succeeds. -/
theorem importData_of_detect (parseUrl : String → Option ParsedUrl) (now : String)
    (d : Data) (data : ImportDoc) (categories : List CategoryDoc) (links : List LinkDoc)
    (menu_links : List MenuLinkDoc)
    (hdet : detectFormat parseUrl data = some (categories, links, menu_links)) :
    importData parseUrl now none ⟨d, none⟩ data =
      (⟨(importBody now d categories links menu_links).1, none⟩,
        .success (importBody now d categories links menu_links).2) := by
  unfold importData
  simp [hdet, Db.begin, importSteps_none, Db.commit]

/-! ### Import: what the loops do to `links` -/

theorem foldl_invariant {σ α : Type} (P : σ → Prop) (step : σ → α → σ) :
    ∀ (l : List α) (s : σ), P s → (∀ s, ∀ a ∈ l, P s → P (step s a)) → P (l.foldl step s)
  | [], s, hs, _ => hs
  | a :: l, s, hs, h => by
    rw [List.foldl_cons]
    exact foldl_invariant P step l (step s a) (h s a (List.mem_cons_self a l) hs)
      fun s b hb => h s b (List.mem_cons_of_mem a hb)

theorem importCategory_links (st : Data × CategoryMap) (cat : CategoryDoc) :
    (importCategory st cat).1.links = st.1.links ∧
      (importCategory st cat).1.linkSeq = st.1.linkSeq := by
  unfold importCategory
  split <;> simp

theorem importParent_links (m : CategoryMap) (d : Data) (cat : CategoryDoc) :
    (importParent m d cat).links = d.links ∧ (importParent m d cat).linkSeq = d.linkSeq := by
  unfold importParent
  split <;> simp

theorem importMenuLink_links (d : Data) (m : MenuLinkDoc) :
    (importMenuLink d m).links = d.links := by
  unfold importMenuLink
  split <;> simp

theorem foldl_importCategory_links (cats : List CategoryDoc) (st : Data × CategoryMap) :
    (cats.foldl importCategory st).1.links = st.1.links ∧
      (cats.foldl importCategory st).1.linkSeq = st.1.linkSeq :=
  foldl_invariant (fun s => s.1.links = st.1.links ∧ s.1.linkSeq = st.1.linkSeq) importCategory
    cats st ⟨rfl, rfl⟩ fun s a _ hs =>
      ⟨(importCategory_links s a).1.trans hs.1, (importCategory_links s a).2.trans hs.2⟩

theorem foldl_importParent_links (m : CategoryMap) (cats : List CategoryDoc) (d : Data) :
    (cats.foldl (importParent m) d).links = d.links ∧
      (cats.foldl (importParent m) d).linkSeq = d.linkSeq :=
  foldl_invariant (fun s => s.links = d.links ∧ s.linkSeq = d.linkSeq) (importParent m)
    cats d ⟨rfl, rfl⟩ fun s a _ hs =>
      ⟨(importParent_links m s a).1.trans hs.1, (importParent_links m s a).2.trans hs.2⟩

theorem foldl_importMenuLink_links (ms : List MenuLinkDoc) (d : Data) :
    (ms.foldl importMenuLink d).links = d.links :=
  foldl_invariant (fun s => s.links = d.links) importMenuLink ms d rfl fun s a _ hs =>
    (importMenuLink_links s a).trans hs

/-- The links after the import are the links after its link loop, which starts from the
links from before the import. -/
theorem importBody_links (now : String) (d : Data) (cats : List CategoryDoc)
    (links : List LinkDoc) (ms : List MenuLinkDoc) :
    ∃ (m : CategoryMap) (d2 : Data), d2.links = d.links ∧ d2.linkSeq = d.linkSeq ∧
      (importBody now d cats links ms).1.links =
        (links.foldl (importLink now m) (d2, ⟨0, 0⟩)).1.links ∧
      (importBody now d cats links ms).2.linksAdded =
        (links.foldl (importLink now m) (d2, ⟨0, 0⟩)).2.addedCount ∧
      (importBody now d cats links ms).2.linksMerged =
        (links.foldl (importLink now m) (d2, ⟨0, 0⟩)).2.mergedCount := by
  refine ⟨(cats.foldl importCategory (d, [])).2,
    cats.foldl (importParent (cats.foldl importCategory (d, [])).2)
      (cats.foldl importCategory (d, [])).1, ?_, ?_, ?_, rfl, rfl⟩
  · rw [(foldl_importParent_links _ _ _).1, (foldl_importCategory_links _ _).1]
  · rw [(foldl_importParent_links _ _ _).2, (foldl_importCategory_links _ _).2]
  · simp only [importBody]
    rw [foldl_importMenuLink_links]

theorem filterMap_url_map_same (f : Link → Link) (hf : ∀ l, (f l).url = l.url)
    (links : List Link) : (links.map f).filterMap (·.url) = links.filterMap (·.url) := by
  rw [List.filterMap_map]
  congr 1
  funext l
  exact hf l

theorem importLink_urls_nodup (now : String) (m : CategoryMap) (st : Data × LinkCounts)
    (link : LinkDoc) (h : (st.1.links.filterMap (·.url)).Nodup) :
    ((importLink now m st link).1.links.filterMap (·.url)).Nodup := by
  unfold importLink
  simp only
  cases hf : findLinkByUrl st.1 link.url with
  | some existing =>
    simp only
    rw [filterMap_url_map_same]
    · exact h
    · intro l
      split <;> rfl
  | none =>
    simp only [insertLink, List.filterMap_append]
    cases hu : link.url with
    | none => simpa using h
    | some u =>
      simp only [List.filterMap_cons, List.filterMap_nil]
      rw [List.nodup_append]
      refine ⟨h, List.nodup_singleton u, ?_⟩
      simp only [findLinkByUrl, hu, List.find?_eq_none, beq_iff_eq] at hf
      intro a ha hb
      rw [List.mem_singleton] at hb
      subst hb
      obtain ⟨l, hl, hla⟩ := List.mem_filterMap.1 ha
      exact hf l hl hla

/-- C5: whenever the import answers with success (native or browser-bookmark document, with
or without repeated urls), the urls present in `links` are pairwise distinct afterwards if
they were before.  Rows without a url (`NULL`) have no url to repeat: the query `WHERE url = ?`
of the import itself never equates them. -/
theorem importData_urls_distinct (parseUrl : String → Option ParsedUrl) (now : String)
    (failAt : Option Nat) (db db' : Db) (data : ImportDoc) (stats : ImportStats)
    (hnd : (db.data.links.filterMap (·.url)).Nodup)
    (h : importData parseUrl now failAt db data = (db', .success stats)) :
    (db'.data.links.filterMap (·.url)).Nodup := by
  obtain ⟨cats, links, ms, _, hdb, _⟩ := importData_of_success _ _ _ _ _ _ _ h
  obtain ⟨m, d2, hd2, _, hl, _⟩ := importBody_links now db.data cats links ms
  rw [hdb]
  simp only
  rw [hl]
  exact foldl_invariant (fun s => (s.1.links.filterMap (·.url)).Nodup) (importLink now m) links
    (d2, ⟨0, 0⟩) (by simpa [hd2] using hnd)
    fun s a _ hs => importLink_urls_nodup now m s a hs

/-- Witness for C5: `exampleDoc` lists `https://b.com` twice; one link is created for it. -/
theorem importData_urls_distinct_witness :
    ((importData noUrl "now" none ⟨exampleStore, none⟩ exampleDoc).1.data.links.filterMap
      (·.url)).Nodup ∧
      (importData noUrl "now" none ⟨exampleStore, none⟩ exampleDoc).1.data.links.map (·.url) =
        [some "https://a.com", some "https://b.com"] :=
  ⟨importData_urls_distinct noUrl "now" none ⟨exampleStore, none⟩ _ exampleDoc
    ⟨2, 1, 2⟩ (by decide) (by decide), by decide⟩

/-! ### Import: merging into an existing link -/

theorem le_foldl_max (ids : List Nat) :
    ∀ (seq : Nat), seq ≤ ids.foldl max seq ∧ ∀ i ∈ ids, i ≤ ids.foldl max seq := by
  induction ids with
  | nil => intro seq; simp
  | cons a as ih =>
    intro seq
    rw [List.foldl_cons]
    obtain ⟨h1, h2⟩ := ih (max seq a)
    refine ⟨le_trans (le_max_left seq a) h1, ?_⟩
    intro i hi
    rcases List.mem_cons.1 hi with rfl | hi
    · exact le_trans (le_max_right seq i) h1
    · exact h2 i hi

theorem lt_nextId (seq : Nat) (ids : List Nat) (i : Nat) (hi : i ∈ ids) : i < nextId seq ids :=
  Nat.lt_succ_of_le ((le_foldl_max ids seq).2 i hi)

theorem importLink_merge_eq (now : String) (m : CategoryMap) (st : Data × LinkCounts)
    (link : LinkDoc) (existing : Link) (h : findLinkByUrl st.1 link.url = some existing) :
    importLink now m st link =
      ({ st.1 with links := st.1.links.map (mergeRow link existing) },
        { st.2 with mergedCount := st.2.mergedCount + 1 }) := by
  unfold importLink
  simp only [h]
  rfl

theorem importLink_insert_eq (now : String) (m : CategoryMap) (st : Data × LinkCounts)
    (link : LinkDoc) (h : findLinkByUrl st.1 link.url = none) :
    importLink now m st link =
      (insertLink now st.1 link.url link.title link.description link.icon
          (if link.category_id.isSome && truthyNat (m.lookup (link.category_id.getD 0)) then
            (m.lookup (link.category_id.getD 0)).getD 1 else 1)
          (strOr link.tags (some "")),
        { st.2 with addedCount := st.2.addedCount + 1 }) := by
  unfold importLink
  simp only [h]

theorem FirstMatch.mem {u : String} {L : Link} {d : Data} (h : FirstMatch u L d) :
    L ∈ d.links ∧ L.url = some u := by
  have h1 := List.mem_of_find?_eq_some h.2
  have h2 := List.find?_some h.2
  exact ⟨h1, by simpa using h2⟩

theorem find?_map_same {p : Link → Bool} (f : Link → Link) (hf : ∀ l, p (f l) = p l) :
    ∀ (links : List Link), (links.map f).find? p = (links.find? p).map f
  | [] => rfl
  | a :: l => by
    rw [List.map_cons, List.find?_cons, List.find?_cons, hf a]
    cases p a
    · simpa using find?_map_same f hf l
    · rfl

theorem mergeRow_url (link : LinkDoc) (e l : Link) : (mergeRow link e l).url = l.url := by
  unfold mergeRow
  split <;> rfl

theorem mergeRow_id (link : LinkDoc) (e l : Link) : (mergeRow link e l).id = l.id := by
  unfold mergeRow
  split <;> rfl

theorem mergeRow_of_ne (link : LinkDoc) (e l : Link) (h : l.id ≠ e.id) :
    mergeRow link e l = l := by
  simp [mergeRow, h]

theorem map_mergeRow_ids (link : LinkDoc) (e : Link) (links : List Link) :
    (links.map (mergeRow link e)).map (·.id) = links.map (·.id) := by
  rw [List.map_map]
  apply List.map_congr_left
  intro l _
  exact mergeRow_id link e l

/-- A row found for another url is not the row `L`. -/
theorem FirstMatch.ne_id {u : String} {L : Link} {d : Data} (h : FirstMatch u L d)
    {e : Link} (he : e ∈ d.links) (hu : e.url ≠ some u) : e.id ≠ L.id := by
  intro hid
  have := eq_of_mem_links_of_id_eq h.1 he h.mem.1 hid
  exact hu (this ▸ h.mem.2)

theorem mem_of_findLinkByUrl {d : Data} {url : Option String} {e : Link}
    (h : findLinkByUrl d url = some e) : e ∈ d.links ∧ e.url = url := by
  unfold findLinkByUrl at h
  cases url with
  | none => simp at h
  | some v =>
    simp only at h
    exact ⟨List.mem_of_find?_eq_some h, by simpa using List.find?_some h⟩

/-- A step of the link loop for another url keeps `L` the first match of `u`. -/
theorem importLink_firstMatch (now : String) (m : CategoryMap) (u : String) (L : Link)
    (st : Data × LinkCounts) (y : LinkDoc) (hy : y.url ≠ some u) (h : FirstMatch u L st.1) :
    FirstMatch u L (importLink now m st y).1 := by
  cases hf : findLinkByUrl st.1 y.url with
  | some e =>
    rw [importLink_merge_eq now m st y e hf]
    obtain ⟨hemem, heurl⟩ := mem_of_findLinkByUrl hf
    have hne : L.id ≠ e.id := fun hid => (h.ne_id hemem (heurl ▸ hy)) hid.symm
    refine ⟨?_, ?_⟩
    · simp only
      rw [map_mergeRow_ids]
      exact h.1
    · simp only
      rw [find?_map_same (mergeRow y e) (fun l => by rw [mergeRow_url]), h.2]
      simp [mergeRow_of_ne y e L hne]
  | none =>
    unfold importLink
    simp only [hf, insertLink]
    refine ⟨?_, ?_⟩
    · rw [List.map_append, List.nodup_append]
      refine ⟨h.1, by simp, ?_⟩
      intro a ha hb
      simp only [List.map_cons, List.map_nil, List.mem_singleton] at hb
      have := lt_nextId st.1.linkSeq _ a ha
      omega
    · rw [List.find?_append, h.2]
      rfl

theorem count_url_mergeRow (u : String) (link : LinkDoc) (e : Link) (links : List Link) :
    ((links.map (mergeRow link e)).filter fun l => l.url == some u).length =
      (links.filter fun l => l.url == some u).length := by
  rw [List.filter_map, List.length_map]
  congr 2
  funext l
  simp [mergeRow_url]

/-- A step of the link loop for another url creates no link of url `u`. -/
theorem importLink_count_url (now : String) (m : CategoryMap) (u : String)
    (st : Data × LinkCounts) (y : LinkDoc) (hy : y.url ≠ some u) :
    ((importLink now m st y).1.links.filter fun l => l.url == some u).length =
      (st.1.links.filter fun l => l.url == some u).length := by
  cases hf : findLinkByUrl st.1 y.url with
  | some e =>
    rw [importLink_merge_eq now m st y e hf]
    exact count_url_mergeRow u y e st.1.links
  | none =>
    unfold importLink
    simp only [hf, insertLink]
    rw [List.filter_append]
    simp [hy]

theorem mergeRow_comm (x y : LinkDoc) (L e : Link) (hne : e.id ≠ L.id) (l : Link) :
    mergeRow y e (mergeRow x L l) = mergeRow x L (mergeRow y e l) := by
  by_cases h1 : l.id = L.id <;> by_cases h2 : l.id = e.id
  · exact absurd (h2.symm.trans h1) hne
  · rw [mergeRow_of_ne y e l h2, mergeRow_of_ne y e _ (by rw [mergeRow_id]; exact h2)]
  · rw [mergeRow_of_ne x L l h1, mergeRow_of_ne x L _ (by rw [mergeRow_id]; exact h1)]
  · rw [mergeRow_of_ne x L l h1, mergeRow_of_ne y e l h2, mergeRow_of_ne x L l h1]

/-- A step of the link loop for another url commutes with the merge of `x` into `L`. -/
theorem importLink_mergedState (now : String) (m : CategoryMap) (u : String) (L : Link)
    (x : LinkDoc) (st : Data × LinkCounts) (y : LinkDoc) (hy : y.url ≠ some u)
    (h : FirstMatch u L st.1) :
    importLink now m (mergedState x L st) y = mergedState x L (importLink now m st y) := by
  have hfind : findLinkByUrl (mergedState x L st).1 y.url =
      (findLinkByUrl st.1 y.url).map (mergeRow x L) := by
    unfold findLinkByUrl mergedState
    cases y.url with
    | none => rfl
    | some v =>
      simp only
      exact find?_map_same (mergeRow x L) (fun l => by rw [mergeRow_url]) st.1.links
  cases hf : findLinkByUrl st.1 y.url with
  | some e =>
    obtain ⟨hemem, heurl⟩ := mem_of_findLinkByUrl hf
    have hne : e.id ≠ L.id := h.ne_id hemem (heurl ▸ hy)
    rw [hf, Option.map_some', mergeRow_of_ne x L e hne] at hfind
    rw [importLink_merge_eq now m _ y e hfind, importLink_merge_eq now m st y e hf]
    simp only [mergedState, List.map_map]
    congr 2
    apply List.map_congr_left
    intro l _
    exact mergeRow_comm x y L e hne l
  | none =>
    rw [hf, Option.map_none'] at hfind
    rw [importLink_insert_eq now m _ y hfind, importLink_insert_eq now m st y hf]
    have hlt := lt_nextId st.1.linkSeq (st.1.links.map (·.id)) L.id
      (List.mem_map.2 ⟨L, h.mem.1, rfl⟩)
    simp only [insertLink, mergedState, map_mergeRow_ids, List.map_append,
      List.map_cons, List.map_nil]
    rw [mergeRow_of_ne x L _ (by simp only; omega)]

theorem foldl_importLink_firstMatch (now : String) (m : CategoryMap) (u : String) (L : Link)
    (ys : List LinkDoc) (hys : ∀ y ∈ ys, y.url ≠ some u) (st : Data × LinkCounts)
    (h : FirstMatch u L st.1) : FirstMatch u L (ys.foldl (importLink now m) st).1 :=
  foldl_invariant (fun s => FirstMatch u L s.1) (importLink now m) ys st h
    fun s a ha hs => importLink_firstMatch now m u L s a (hys a ha) hs

theorem foldl_importLink_count_url (now : String) (m : CategoryMap) (u : String)
    (ys : List LinkDoc) (hys : ∀ y ∈ ys, y.url ≠ some u) (st : Data × LinkCounts) :
    ((ys.foldl (importLink now m) st).1.links.filter fun l => l.url == some u).length =
      (st.1.links.filter fun l => l.url == some u).length :=
  foldl_invariant
    (fun s => (s.1.links.filter fun l => l.url == some u).length =
      (st.1.links.filter fun l => l.url == some u).length)
    (importLink now m) ys st rfl
    fun s a ha hs => (importLink_count_url now m u s a (hys a ha)).trans hs

theorem foldl_importLink_mergedState (now : String) (m : CategoryMap) (u : String) (L : Link)
    (x : LinkDoc) :
    ∀ (ys : List LinkDoc), (∀ y ∈ ys, y.url ≠ some u) → ∀ (st : Data × LinkCounts),
      FirstMatch u L st.1 →
      ys.foldl (importLink now m) (mergedState x L st) =
        mergedState x L (ys.foldl (importLink now m) st)
  | [], _, _, _ => rfl
  | y :: ys, hys, st, h => by
    rw [List.foldl_cons, List.foldl_cons,
      importLink_mergedState now m u L x st y (hys y (List.mem_cons_self y ys)) h]
    exact foldl_importLink_mergedState now m u L x ys
      (fun z hz => hys z (List.mem_cons_of_mem y hz)) _
      (importLink_firstMatch now m u L st y (hys y (List.mem_cons_self y ys)) h)

/-- The link loop over a document with exactly one link `x` of url `u` is the loop over the
document without `x`, followed by the merge of `x` into the first match `L`. -/
theorem foldl_importLink_one_match (now : String) (m : CategoryMap) (u : String) (L : Link)
    (pre post : List LinkDoc) (x : LinkDoc) (hx : x.url = some u)
    (hpre : ∀ y ∈ pre, y.url ≠ some u) (hpost : ∀ y ∈ post, y.url ≠ some u)
    (st : Data × LinkCounts) (h : FirstMatch u L st.1) :
    (pre ++ x :: post).foldl (importLink now m) st =
      mergedState x L ((pre ++ post).foldl (importLink now m) st) := by
  rw [List.foldl_append, List.foldl_cons, List.foldl_append]
  have hpreInv := foldl_importLink_firstMatch now m u L pre hpre st h
  have hxstep : importLink now m (pre.foldl (importLink now m) st) x =
      mergedState x L (pre.foldl (importLink now m) st) := by
    apply importLink_merge_eq
    unfold findLinkByUrl
    rw [hx]
    exact hpreInv.2
  rw [hxstep]
  exact foldl_importLink_mergedState now m u L x post hpost _ hpreInv

theorem importMenuLink_with_links (d : Data) (ls : List Link) (m : MenuLinkDoc) :
    importMenuLink { d with links := ls } m = { importMenuLink d m with links := ls } := by
  unfold importMenuLink
  have hfind : findMenuLink { d with links := ls } m.title m.url = findMenuLink d m.title m.url :=
    rfl
  rw [hfind]
  split <;> rfl

theorem foldl_importMenuLink_with_links (ls : List Link) :
    ∀ (ms : List MenuLinkDoc) (d : Data),
      ms.foldl importMenuLink { d with links := ls } =
        { ms.foldl importMenuLink d with links := ls }
  | [], _ => rfl
  | m :: ms, d => by
    rw [List.foldl_cons, List.foldl_cons, importMenuLink_with_links]
    exact foldl_importMenuLink_with_links ls ms (importMenuLink d m)

/-- The import of a document with exactly one link `x` of url `u` is the import of the document
without `x`, followed by the merge of `x` into the first match `L`, counted as merged. -/
theorem importBody_one_match (now : String) (d : Data) (cats : List CategoryDoc)
    (ms : List MenuLinkDoc) (u : String) (L : Link) (pre post : List LinkDoc) (x : LinkDoc)
    (h : FirstMatch u L d) (hx : x.url = some u)
    (hpre : ∀ y ∈ pre, y.url ≠ some u) (hpost : ∀ y ∈ post, y.url ≠ some u) :
    importBody now d cats (pre ++ x :: post) ms =
        ({ (importBody now d cats (pre ++ post) ms).1 with
            links := (importBody now d cats (pre ++ post) ms).1.links.map (mergeRow x L) },
          { (importBody now d cats (pre ++ post) ms).2 with
            linksMerged := (importBody now d cats (pre ++ post) ms).2.linksMerged + 1 }) ∧
      FirstMatch u L (importBody now d cats (pre ++ post) ms).1 ∧
      ((importBody now d cats (pre ++ post) ms).1.links.filter fun l => l.url == some u).length =
        (d.links.filter fun l => l.url == some u).length := by
  have hd2 := foldl_importParent_links (cats.foldl importCategory (d, [])).2 cats
    (cats.foldl importCategory (d, [])).1
  rw [(foldl_importCategory_links cats (d, [])).1] at hd2
  have hall : ∀ y ∈ pre ++ post, y.url ≠ some u := by
    intro y hy
    rcases List.mem_append.1 hy with hy | hy
    · exact hpre y hy
    · exact hpost y hy
  generalize hm : (cats.foldl importCategory (d, [])).2 = m at hd2
  generalize hd2' : cats.foldl (importParent m) (cats.foldl importCategory (d, [])).1 = d2 at hd2
  have hfm2 : FirstMatch u L d2 := by
    unfold FirstMatch at h ⊢
    rw [hd2.1]
    exact h
  have hloop := foldl_importLink_one_match now m u L pre post x hx hpre hpost (d2, ⟨0, 0⟩) hfm2
  have hinv := foldl_importLink_firstMatch now m u L (pre ++ post) hall (d2, ⟨0, 0⟩) hfm2
  have hcnt := foldl_importLink_count_url now m u (pre ++ post) hall (d2, ⟨0, 0⟩)
  have hb1 : importBody now d cats (pre ++ x :: post) ms =
      (ms.foldl importMenuLink ((pre ++ x :: post).foldl (importLink now m) (d2, ⟨0, 0⟩)).1,
        ⟨cats.length, ((pre ++ x :: post).foldl (importLink now m) (d2, ⟨0, 0⟩)).2.addedCount,
          ((pre ++ x :: post).foldl (importLink now m) (d2, ⟨0, 0⟩)).2.mergedCount⟩) := by
    simp only [importBody, hm, hd2']
  have hb0 : importBody now d cats (pre ++ post) ms =
      (ms.foldl importMenuLink ((pre ++ post).foldl (importLink now m) (d2, ⟨0, 0⟩)).1,
        ⟨cats.length, ((pre ++ post).foldl (importLink now m) (d2, ⟨0, 0⟩)).2.addedCount,
          ((pre ++ post).foldl (importLink now m) (d2, ⟨0, 0⟩)).2.mergedCount⟩) := by
    simp only [importBody, hm, hd2']
  rw [hb1, hb0, hloop]
  generalize (pre ++ post).foldl (importLink now m) (d2, ⟨0, 0⟩) = s0 at hinv hcnt
  have hlinks := foldl_importMenuLink_links ms s0.1
  refine ⟨?_, ?_, ?_⟩
  · simp only [mergedState]
    rw [foldl_importMenuLink_with_links, hlinks]
  · unfold FirstMatch at hinv ⊢
    simp only
    rw [hlinks]
    exact hinv
  · simp only
    rw [hlinks, hcnt, hd2.1]

theorem detectFormat_native (parseUrl : String → Option ParsedUrl) (data : ImportDoc)
    (links : List LinkDoc) (hroots : data.roots = none)
    (hnative : data.mynav_version.isSome ∨ data.categories.isSome)
    (hlinks : data.links = some links) :
    detectFormat parseUrl data =
      some (data.categories.getD [], links, data.menu_links.getD []) := by
  unfold detectFormat
  rw [hroots, hlinks]
  rcases hnative with h | h <;> simp [h]

/-- Counterexample for C4: `twinStore` holds two links of url `https://a.com`; the document
holds exactly one link of that url, with title `New`.  The import succeeds and counts one merge,
and the second link `L` keeps its title `Second`: only the first match is updated. -/
theorem import_merge_skips_later_match :
    (⟨2, some "https://a.com", some "Second", none, none, some 1, none, "t0", 1⟩ : Link) ∈
        twinStore.links ∧
      (importData noUrl "now" none ⟨twinStore, none⟩ oneLinkDoc).2 = .success ⟨0, 0, 1⟩ ∧
      (importData noUrl "now" none ⟨twinStore, none⟩ oneLinkDoc).1.data.links =
        [⟨1, some "https://a.com", some "New", none, none, some 1, none, "t0", 0⟩,
          ⟨2, some "https://a.com", some "Second", none, none, some 1, none, "t0", 1⟩] := by
  decide

/-- C4, amended: in a table whose ids are distinct, let `L` be the first link of url `u` (the
row that `SELECT * FROM links WHERE url = ?` finds; the only one when urls are distinct), and
let a native document hold exactly one link `x` of url `u`.  The import succeeds; its result is
that of the import of the document without `x`, which leaves `L` untouched, followed by the
update of `L`: `category_id`, `sort_order` and every other column of `L` are unchanged, and each
of `title`, `description`, `icon` is the imported value when that is non-empty and the existing
one otherwise.  The number of links of url `u` is unchanged, and `x` adds one to `linksMerged`
and nothing to `linksAdded`. -/
theorem importData_merges_first_match (parseUrl : String → Option ParsedUrl) (now : String)
    (d : Data) (data : ImportDoc) (pre post : List LinkDoc) (x : LinkDoc) (u : String)
    (L : Link) (hnd : (d.links.map (·.id)).Nodup)
    (hfirst : findLinkByUrl d (some u) = some L) (hroots : data.roots = none)
    (hnative : data.mynav_version.isSome ∨ data.categories.isSome)
    (hlinks : data.links = some (pre ++ x :: post)) (hx : x.url = some u)
    (hpre : ∀ y ∈ pre, y.url ≠ some u) (hpost : ∀ y ∈ post, y.url ≠ some u) :
    ∃ d' stats d0 stats0,
      importData parseUrl now none ⟨d, none⟩ data = (⟨d', none⟩, .success stats) ∧
        importData parseUrl now none ⟨d, none⟩ { data with links := some (pre ++ post) } =
          (⟨d0, none⟩, .success stats0) ∧
        L ∈ d0.links ∧
        d'.links = d0.links.map (mergeRow x L) ∧
        ({ L with title := strOr x.title L.title,
                  description := strOr x.description L.description,
                  icon := strOr x.icon L.icon } : Link) ∈ d'.links ∧
        (d'.links.filter fun l => l.url == some u).length =
          (d.links.filter fun l => l.url == some u).length ∧
        stats.linksMerged = stats0.linksMerged + 1 ∧
        stats.linksAdded = stats0.linksAdded := by
  have hfm : FirstMatch u L d := ⟨hnd, hfirst⟩
  have hdet := detectFormat_native parseUrl data _ hroots hnative hlinks
  have hdet0 := detectFormat_native parseUrl { data with links := some (pre ++ post) }
    (pre ++ post) hroots hnative rfl
  obtain ⟨hb, hinv, hcnt⟩ := importBody_one_match now d (data.categories.getD [])
    (data.menu_links.getD []) u L pre post x hfm hx hpre hpost
  refine ⟨_, _, _, _, importData_of_detect parseUrl now d data _ _ _ hdet,
    importData_of_detect parseUrl now d _ _ _ _ hdet0, hinv.mem.1, ?_, ?_, ?_, ?_, ?_⟩
  · rw [hb]
  · rw [hb]
    have := List.mem_map_of_mem (mergeRow x L) hinv.mem.1
    simpa [mergeRow] using this
  · rw [hb]
    simp only
    rw [count_url_mergeRow]
    exact hcnt
  · rw [hb]
  · rw [hb]

/-- Witness for C4 as amended: the end-to-end example of the specification (link `https://a.com`
of title `Old` in the store, imported with title `New`), in a document with two more links. -/
theorem importData_merges_first_match_witness :
    ∃ d' stats d0 stats0,
      importData noUrl "now" none ⟨exampleStore, none⟩ exampleDoc =
          (⟨d', none⟩, .success stats) ∧
        importData noUrl "now" none ⟨exampleStore, none⟩
            { exampleDoc with links := some ([] ++
              [⟨some 2, some "https://b.com", some "B", none, none, some 7, none, none, none⟩,
               ⟨some 3, some "https://b.com", some "B2", none, none, some 7, none, none, none⟩]) }
          = (⟨d0, none⟩, .success stats0) ∧
        (⟨5, some "https://a.com", some "Old", none, none, some 1, none, "t0", 0⟩ : Link) ∈
          d0.links ∧
        d'.links = d0.links.map
          (mergeRow ⟨some 1, some "https://a.com", some "New", none, none, some 1, none, none, none⟩
            ⟨5, some "https://a.com", some "Old", none, none, some 1, none, "t0", 0⟩) ∧
        (⟨5, some "https://a.com", some "New", none, none, some 1, none, "t0", 0⟩ : Link) ∈
          d'.links ∧
        (d'.links.filter fun l => l.url == some "https://a.com").length =
          (exampleStore.links.filter fun l => l.url == some "https://a.com").length ∧
        stats.linksMerged = stats0.linksMerged + 1 ∧
        stats.linksAdded = stats0.linksAdded :=
  importData_merges_first_match noUrl "now" exampleStore exampleDoc []
    [⟨some 2, some "https://b.com", some "B", none, none, some 7, none, none, none⟩,
     ⟨some 3, some "https://b.com", some "B2", none, none, some 7, none, none, none⟩]
    ⟨some 1, some "https://a.com", some "New", none, none, some 1, none, none, none⟩
    "https://a.com" ⟨5, some "https://a.com", some "Old", none, none, some 1, none, "t0", 0⟩
    (by decide) (by decide) rfl (by decide) rfl rfl (by decide) (by decide)

/-! ### Cascade delete: references -/

theorem mem_deletedIds (d : Data) (id i : Nat) :
    i ∈ (deleteCategory d id).2 ↔
      (i = id ∨ ∃ c ∈ d.categories, c.parent_id = some id ∧ c.id = i) ∧ i ≠ 1 := by
  simp [deleteCategory, List.mem_filter, and_assoc]

theorem mem_deleteCategory_links (d : Data) (id : Nat) (l : Link) :
    l ∈ (deleteCategory d id).1.links ↔
      l ∈ d.links ∧ l.category_id ≠ some id ∧
        ∀ c ∈ d.categories, c.parent_id = some id → l.category_id ≠ some c.id := by
  rw [deleteCategory_links_eq]
  simp only [directSubcategories, List.mem_filter, Bool.not_eq_true', Bool.or_eq_false_iff,
    beq_eq_false_iff_ne, ne_eq, List.any_eq_false, beq_iff_eq, and_imp]

/-- C18: if every link references an existing category before `DELETE /api/categories/:id`,
every link that remains references a category that remains, whatever the target id. -/
theorem deleteCategory_links_resolved (d : Data) (id : Nat) (h : LinksResolved d) :
    LinksResolved (deleteCategory d id).1 := by
  intro l hl
  rw [mem_deleteCategory_links] at hl
  obtain ⟨hld, hne, hsub⟩ := hl
  obtain ⟨c, hc, hlc⟩ := h l hld
  refine ⟨c, ?_, hlc⟩
  rw [mem_deleteCategory_categories, mem_deletedIds]
  refine ⟨hc, ?_⟩
  rintro ⟨hid | ⟨s, hs, hsp, hsid⟩, _⟩
  · exact hne (by rw [hlc, hid])
  · exact hsub s hs hsp (by rw [hlc, hsid])

/-- Witness for C18: category 2 of `abcStore` is deleted together with its link `D`; the
links of category 1 remain and category 1 remains. -/
theorem deleteCategory_links_resolved_witness :
    LinksResolved (deleteCategory abcStore 2).1 :=
  deleteCategory_links_resolved abcStore 2 (by unfold LinksResolved; decide)

/-- Counterexample for C19: `defaultChildStore` satisfies the two-level invariant; deleting
category 2 spares its subcategory 1 (the default category), which is left with the dangling
`parent_id = 2`. -/
theorem deleteCategory_orphans_default :
    TwoLevel defaultChildStore ∧
      (deleteCategory defaultChildStore 2).1.categories = [⟨1, some "常用", some "⭐", 0, some 2⟩] ∧
      findOrphans (deleteCategory defaultChildStore 2).1 =
        [⟨1, some "常用", some "⭐", 0, some 2⟩] := by
  decide

/-- C19, amended: in a table whose ids are distinct and that satisfies the two-level
invariant, if the default category (id 1) is not a direct subcategory of `id`, then after
`DELETE /api/categories/:id` no remaining category is an orphan. -/
theorem deleteCategory_no_orphan (d : Data) (id : Nat)
    (hnd : (d.categories.map (·.id)).Nodup) (h2 : TwoLevel d)
    (hdef : ∀ c ∈ d.categories, c.id = 1 → c.parent_id ≠ some id) :
    findOrphans (deleteCategory d id).1 = [] := by
  rw [List.eq_nil_iff_forall_not_mem]
  intro c hc
  rw [mem_findOrphans, mem_deleteCategory_categories, mem_deletedIds] at hc
  obtain ⟨⟨hcd, hcid⟩, horph⟩ := hc
  have htop := h2 c hcd
  unfold isOrphan at horph
  unfold parentIsTopLevel at htop
  cases hp : c.parent_id with
  | none => simp [hp] at horph
  | some p =>
    simp only [hp, List.any_eq_true, Bool.and_eq_true, beq_iff_eq, Option.isNone_iff_eq_none]
      at htop
    simp only [hp, Bool.not_eq_true', List.any_eq_false, beq_iff_eq] at horph
    obtain ⟨q, hq, hqp, hqtop⟩ := htop
    refine horph q ?_ hqp
    rw [mem_deleteCategory_categories, mem_deletedIds]
    refine ⟨hq, ?_⟩
    rintro ⟨hqid | ⟨s, hs, hsp, hsid⟩, _⟩
    · -- the parent is the target: `c` is a direct subcategory that was spared, so `c` is 1
      have hcp : c.parent_id = some id := by rw [hp, ← hqp, hqid]
      by_cases h1 : c.id = 1
      · exact hdef c hcd h1 hcp
      · exact hcid ⟨Or.inr ⟨c, hcd, hcp, rfl⟩, h1⟩
    · -- the parent is a subcategory of the target: it would have a parent itself
      have := eq_of_mem_of_id_eq hnd hs hq hsid
      rw [this, hqtop] at hsp
      exact absurd hsp (by simp)

/-- Witness for C19 as amended: deleting category 2 of `twoLevelStore` with its subcategory. -/
theorem deleteCategory_no_orphan_witness :
    findOrphans (deleteCategory twoLevelStore 2).1 = [] :=
  deleteCategory_no_orphan twoLevelStore 2 (by decide) (by decide) (by decide)

/-! ### Create and update of categories -/

theorem parentIsTopLevel_iff (d : Data) (c : Category) :
    parentIsTopLevel d c = true ↔
      ∀ p, c.parent_id = some p → ∃ q ∈ d.categories, q.id = p ∧ q.parent_id = none := by
  unfold parentIsTopLevel
  cases hp : c.parent_id with
  | none => simp
  | some p =>
    simp only [List.any_eq_true, Bool.and_eq_true, beq_iff_eq, Option.isNone_iff_eq_none,
      Option.some.injEq, forall_eq']

/-- Counterexample for C20: on the two-level `twoLevelStore`, creating a category under the
subcategory 3 succeeds, and so does giving the parent 1 to category 2, which has the child 3;
neither result satisfies the two-level invariant. -/
theorem create_update_break_two_level :
    TwoLevel twoLevelStore ∧
      (∃ r, createCategory twoLevelStore ⟨some "Deep", none, some 3, none⟩ = .ok r ∧
        ¬ TwoLevel r.1) ∧
      (∃ d', updateCategory twoLevelStore 2 ⟨some "Work", none, some 1, some 1⟩ = .ok d' ∧
        ¬ TwoLevel d') := by
  refine ⟨by decide, ⟨_, rfl, by decide⟩, ⟨_, rfl, by decide⟩⟩

/-- C20, amended: the routes store the `parent_id` they are given and validate nothing about
it.  From a store that satisfies the two-level invariant, a successful create keeps the
invariant when the request's `parent_id` is null or the id of a top-level category, and a
successful update of `id` keeps it when the request's `parent_id` is null, or is the id of a
top-level category other than `id` while no category has `id` as its parent. -/
theorem create_update_two_level (d : Data) (b : CategoryBody) (h2 : TwoLevel d) :
    (∀ r, createCategory d b = .ok r →
        (b.parent_id = none ∨ ∃ q ∈ d.categories, b.parent_id = some q.id ∧ q.parent_id = none) →
        TwoLevel r.1) ∧
      (∀ id d', updateCategory d id b = .ok d' →
        (b.parent_id = none ∨
          ((∃ q ∈ d.categories, b.parent_id = some q.id ∧ q.parent_id = none ∧ q.id ≠ id) ∧
            ∀ c ∈ d.categories, c.parent_id ≠ some id)) →
        TwoLevel d') := by
  constructor
  · intro r hr hb
    unfold createCategory at hr
    split at hr
    · cases hr
    · simp only [Except.ok.injEq] at hr
      subst hr
      intro c hc
      rw [parentIsTopLevel_iff]
      intro p hp
      simp only [List.mem_append, List.mem_singleton] at hc ⊢
      rcases hc with hc | rfl
      · obtain ⟨q, hq, hqp⟩ := (parentIsTopLevel_iff d c).1 (h2 c hc) p hp
        exact ⟨q, Or.inl hq, hqp⟩
      · simp only at hp
        rcases hb with hb | ⟨q, hq, hbq, hqtop⟩
        · rw [hb] at hp
          cases hp
        · rw [hbq, Option.some.injEq] at hp
          exact ⟨q, Or.inl hq, hp, hqtop⟩
  · intro id d' hd' hb
    unfold updateCategory at hd'
    split at hd'
    · cases hd'
    · simp only [Except.ok.injEq] at hd'
      subst hd'
      intro c hc
      rw [parentIsTopLevel_iff]
      intro p hp
      simp only [List.mem_map] at hc ⊢
      obtain ⟨c0, hc0, rfl⟩ := hc
      by_cases hid : c0.id = id
      · -- the updated row
        simp only [hid, if_true] at hp
        rcases hb with hb | ⟨⟨q, hq, hbq, hqtop, hqid⟩, _⟩
        · rw [hb] at hp
          cases hp
        · rw [hbq, Option.some.injEq] at hp
          exact ⟨q, ⟨q, hq, by simp [hqid]⟩, hp, hqtop⟩
      · -- another row: its parent is top-level and stays so
        simp only [hid, if_false] at hp
        obtain ⟨q, hq, hqp, hqtop⟩ := (parentIsTopLevel_iff d c0).1 (h2 c0 hc0) p hp
        by_cases hqid : q.id = id
        · rcases hb with hb | ⟨_, hno⟩
          · exact ⟨_, ⟨q, hq, rfl⟩, by simp [hqid, ← hqp], by simp [hqid, hb]⟩
          · exact absurd (by rw [hp, ← hqp, hqid]) (hno c0 hc0)
        · exact ⟨q, ⟨q, hq, by simp [hqid]⟩, hqp, hqtop⟩

/-- Witness for C20 as amended: a subcategory created under the top-level category 1, and
subcategory 3 moved from category 2 to category 1. -/
theorem create_update_two_level_witness :
    (∀ r, createCategory twoLevelStore ⟨some "New", none, some 1, none⟩ = .ok r → TwoLevel r.1) ∧
      (∀ d', updateCategory twoLevelStore 3 ⟨some "New", none, some 1, none⟩ = .ok d' →
        TwoLevel d') :=
  have h := create_update_two_level twoLevelStore ⟨some "New", none, some 1, none⟩ (by decide)
  ⟨fun r hr => h.1 r hr (Or.inr ⟨⟨1, some "常用", some "⭐", 0, none⟩, by decide, rfl, rfl⟩),
    fun d' hd' => h.2 3 d' hd' (Or.inr ⟨⟨⟨1, some "常用", some "⭐", 0, none⟩, by decide, rfl, rfl,
      by decide⟩, by decide⟩)⟩

/-! ### The sequence reconstructed by a same-category drag -/

theorem perm_getElem_cons_eraseIdx {α : Type} :
    ∀ (l : List α) (i : Nat) (h : i < l.length), l.Perm (l[i] :: l.eraseIdx i)
  | a :: l, 0, _ => by simp
  | a :: l, i + 1, h => by
    have hi : i < l.length := by simpa using h
    simp only [List.getElem_cons_succ, List.eraseIdx_cons_succ]
    exact ((perm_getElem_cons_eraseIdx l i hi).cons a).trans (List.Perm.swap _ _ _)

theorem sortedGroup_perm (links : List Link) (c : Option Nat) :
    (sortedGroup links c).Perm (links.filter fun l => l.category_id == c) :=
  List.perm_insertionSort _ _

theorem sortedGroup_sorted (links : List Link) (c : Option Nat) :
    (sortedGroup links c).Sorted fun a b => a.sort_order ≤ b.sort_order := by
  haveI : IsTotal Link (fun a b => a.sort_order ≤ b.sort_order) :=
    ⟨fun a b => le_total a.sort_order b.sort_order⟩
  haveI : IsTrans Link (fun a b => a.sort_order ≤ b.sort_order) :=
    ⟨fun _ _ _ h1 h2 => le_trans h1 h2⟩
  exact List.sorted_insertionSort _ _

theorem sortedGroup_nodup (links : List Link) (c : Option Nat)
    (hnd : (links.map (·.id)).Nodup) : ((sortedGroup links c).map (·.id)).Nodup := by
  rw [((sortedGroup_perm links c).map _).nodup_iff]
  exact hnd.sublist ((List.filter_sublist _).map _)

/-- In a list with distinct ids, `findIndex` by the id of a member finds that member. -/
theorem findIndex_of_mem (ls : List Link) (hnd : (ls.map (·.id)).Nodup) (D : Link)
    (hD : D ∈ ls) :
    ∃ o, ∃ h : o < ls.length, ls[o] = D ∧ findIndex (fun l => l.id == D.id) ls = (o : Int) := by
  have hex : ∃ x, x ∈ ls ∧ (fun l : Link => l.id == D.id) x = true := ⟨D, hD, by simp⟩
  have hlt : ls.findIdx (fun l => l.id == D.id) < ls.length :=
    List.findIdx_lt_length_of_exists (by simpa using hex)
  refine ⟨ls.findIdx (fun l => l.id == D.id), hlt, ?_, ?_⟩
  · have hp := @List.findIdx_getElem _ (fun l : Link => l.id == D.id) ls hlt
    simp only [beq_iff_eq] at hp
    exact eq_of_mem_links_of_id_eq hnd (List.getElem_mem hlt) hD hp
  · unfold findIndex
    rw [List.findIdx?_eq_some_of_exists hex]

theorem find?_id_of_mem (ls : List Link) (hnd : (ls.map (·.id)).Nodup) (D : Link)
    (hD : D ∈ ls) : ls.find? (fun l => l.id == D.id) = some D := by
  cases h : ls.find? (fun l => l.id == D.id) with
  | none =>
    rw [List.find?_eq_none] at h
    exact absurd (by simp) (h D hD)
  | some x =>
    have hx := List.find?_some h
    simp only [beq_iff_eq] at hx
    rw [eq_of_mem_links_of_id_eq hnd (List.mem_of_find?_eq_some h) hD hx]

theorem relocate_of_lt (cl : List Link) (o n : Nat) (ho : o < cl.length) (hn : n < cl.length) :
    relocate cl (o : Int) (n : Int) = (cl.eraseIdx o).insertIdx n cl[o] := by
  have hlen : (cl.eraseIdx o).length = cl.length - 1 := List.length_eraseIdx_of_lt ho
  have h1 : spliceStart cl.length (o : Int) = o := by
    unfold spliceStart
    have : ¬ ((o : Int) < 0) := by omega
    simp only [this, if_false, Int.toNat_ofNat]
    omega
  have h2 : spliceStart (cl.eraseIdx o).length (n : Int) = n := by
    unfold spliceStart
    have : ¬ ((n : Int) < 0) := by omega
    simp only [this, if_false, Int.toNat_ofNat]
    omega
  unfold relocate
  simp only [h1, h2, List.getElem?_eq_getElem ho]

/-- C11: the client holds `links`, with distinct ids; `D` and `T` are two of them, of the same
category and with different ids, and `group` is that category's links sorted by `sort_order`.
Then `D` stands at some index `o` of `group` and `T` at some index `n`, and dragging `D` onto
`T` makes both `handleDrop` and `handleDragEnd` send the reorder requests of one sequence `seq`,
which is `group` with `D` removed and reinserted at index `n`: `seq` is a permutation of
`group`, `D` stands at index `n` of `seq`, and removing it leaves the other links in the order
they have in `group`. -/
theorem drag_sequence (links : List Link) (D T : Link) (hnd : (links.map (·.id)).Nodup)
    (hD : D ∈ links) (hT : T ∈ links) (hcat : T.category_id = D.category_id)
    (hne : D.id ≠ T.id) :
    ∃ (o n : Nat) (seq : List Link),
      (sortedGroup links D.category_id).Perm
          (links.filter fun l => l.category_id == D.category_id) ∧
        (sortedGroup links D.category_id).Sorted (fun a b => a.sort_order ≤ b.sort_order) ∧
        (sortedGroup links D.category_id)[o]? = some D ∧
        (sortedGroup links D.category_id)[n]? = some T ∧
        handleDropSequence links D T = some seq ∧
        handleDragEndSequence links D T = some seq ∧
        handleDrop links D D.id T = reorderRequests seq ∧
        handleDragEnd links D.id T.id = reorderRequests seq ∧
        seq = ((sortedGroup links D.category_id).eraseIdx o).insertIdx n D ∧
        seq.Perm (sortedGroup links D.category_id) ∧
        seq[n]? = some D ∧
        seq.eraseIdx n = (sortedGroup links D.category_id).eraseIdx o := by
  have hgnd := sortedGroup_nodup links D.category_id hnd
  have hDg : D ∈ sortedGroup links D.category_id :=
    (sortedGroup_perm links D.category_id).mem_iff.2 (List.mem_filter.2 ⟨hD, by simp⟩)
  have hTg : T ∈ sortedGroup links D.category_id :=
    (sortedGroup_perm links D.category_id).mem_iff.2 (List.mem_filter.2 ⟨hT, by simp [hcat]⟩)
  obtain ⟨o, ho, hoD, hoi⟩ := findIndex_of_mem _ hgnd D hDg
  obtain ⟨n, hn, hnT, hni⟩ := findIndex_of_mem _ hgnd T hTg
  have hon : o ≠ n := by
    intro h
    subst h
    exact hne (by rw [← hoD, hnT])
  have hlen : ((sortedGroup links D.category_id).eraseIdx o).length =
      (sortedGroup links D.category_id).length - 1 := List.length_eraseIdx_of_lt ho
  have hnle : n ≤ ((sortedGroup links D.category_id).eraseIdx o).length := by omega
  have hrel := relocate_of_lt (sortedGroup links D.category_id) o n ho hn
  rw [hoD] at hrel
  have hdrop : handleDropSequence links D T =
      some (((sortedGroup links D.category_id).eraseIdx o).insertIdx n D) := by
    unfold handleDropSequence
    simp only
    change (if (findIndex (fun l => l.id == D.id) (sortedGroup links D.category_id) == -1 ||
        findIndex (fun l => l.id == T.id) (sortedGroup links D.category_id) == -1 ||
        findIndex (fun l => l.id == D.id) (sortedGroup links D.category_id) ==
          findIndex (fun l => l.id == T.id) (sortedGroup links D.category_id)) = true then none
      else some (relocate (sortedGroup links D.category_id)
        (findIndex (fun l => l.id == D.id) (sortedGroup links D.category_id))
        (findIndex (fun l => l.id == T.id) (sortedGroup links D.category_id)))) = _
    rw [hoi, hni, hrel]
    have h1 : ((o : Int) == -1) = false := by
      rw [beq_eq_false_iff_ne]; omega
    have h2 : ((n : Int) == -1) = false := by
      rw [beq_eq_false_iff_ne]; omega
    have h3 : ((o : Int) == (n : Int)) = false := by
      rw [beq_eq_false_iff_ne]; omega
    simp [h1, h2, h3]
  have hend : handleDragEndSequence links D T =
      some (((sortedGroup links D.category_id).eraseIdx o).insertIdx n D) := by
    unfold handleDragEndSequence
    simp only
    change (if (findIndex (fun l => l.id == D.id) (sortedGroup links D.category_id) ==
          findIndex (fun l => l.id == T.id) (sortedGroup links D.category_id)) = true then none
      else some (relocate (sortedGroup links D.category_id)
        (findIndex (fun l => l.id == D.id) (sortedGroup links D.category_id))
        (findIndex (fun l => l.id == T.id) (sortedGroup links D.category_id)))) = _
    rw [hoi, hni, hrel]
    have h3 : ((o : Int) == (n : Int)) = false := by
      rw [beq_eq_false_iff_ne]; omega
    simp [h3]
  refine ⟨o, n, _, sortedGroup_perm links D.category_id, sortedGroup_sorted links D.category_id,
    ?_, ?_, hdrop, hend, ?_, ?_, rfl, ?_, ?_, ?_⟩
  · rw [List.getElem?_eq_getElem ho, hoD]
  · rw [List.getElem?_eq_getElem hn, hnT]
  · unfold handleDrop
    have h1 : (D.id == T.id) = false := by rw [beq_eq_false_iff_ne]; exact hne
    have h2 : (D.category_id != T.category_id) = false := by simp [hcat]
    simp only [h1, h2, hdrop]
    simp
  · unfold handleDragEnd
    rw [find?_id_of_mem links hnd D hD, find?_id_of_mem links hnd T hT]
    have h1 : (D.id == T.id) = false := by rw [beq_eq_false_iff_ne]; exact hne
    have h2 : (D.category_id != T.category_id) = false := by simp [hcat]
    simp only [h1, h2, hend]
    simp
  · have h1 := List.perm_insertIdx D ((sortedGroup links D.category_id).eraseIdx o) hnle
    have h2 := perm_getElem_cons_eraseIdx (sortedGroup links D.category_id) o ho
    rw [hoD] at h2
    exact h1.trans h2.symm
  · have hlt : n < (((sortedGroup links D.category_id).eraseIdx o).insertIdx n D).length := by
      rw [List.length_insertIdx _ _ hnle]
      omega
    rw [List.getElem?_eq_getElem hlt, List.getElem_insertIdx_self _ _ _ hnle]
  · exact List.eraseIdx_insertIdx n _

/-- Witness for C11: dragging `C` onto `A` in `[A, B, C, D]`, where `D` is of another
category. -/
theorem drag_sequence_witness :
    ∃ (o n : Nat) (seq : List Link),
      (sortedGroup abcStore.links linkC.category_id).Perm
          (abcStore.links.filter fun l => l.category_id == linkC.category_id) ∧
        (sortedGroup abcStore.links linkC.category_id).Sorted
          (fun a b => a.sort_order ≤ b.sort_order) ∧
        (sortedGroup abcStore.links linkC.category_id)[o]? = some linkC ∧
        (sortedGroup abcStore.links linkC.category_id)[n]? = some linkA ∧
        handleDropSequence abcStore.links linkC linkA = some seq ∧
        handleDragEndSequence abcStore.links linkC linkA = some seq ∧
        handleDrop abcStore.links linkC linkC.id linkA = reorderRequests seq ∧
        handleDragEnd abcStore.links linkC.id linkA.id = reorderRequests seq ∧
        seq = ((sortedGroup abcStore.links linkC.category_id).eraseIdx o).insertIdx n linkC ∧
        seq.Perm (sortedGroup abcStore.links linkC.category_id) ∧
        seq[n]? = some linkC ∧
        seq.eraseIdx n = (sortedGroup abcStore.links linkC.category_id).eraseIdx o :=
  drag_sequence abcStore.links linkC linkA (by decide) (by decide) (by decide) rfl (by decide)

/-! ### Import: menu links -/

theorem importCategory_menu_links (st : Data × CategoryMap) (cat : CategoryDoc) :
    (importCategory st cat).1.menu_links = st.1.menu_links := by
  unfold importCategory
  split <;> rfl

theorem importParent_menu_links (m : CategoryMap) (d : Data) (cat : CategoryDoc) :
    (importParent m d cat).menu_links = d.menu_links := by
  unfold importParent
  split <;> rfl

theorem importLink_menu_links (now : String) (m : CategoryMap) (st : Data × LinkCounts)
    (link : LinkDoc) : (importLink now m st link).1.menu_links = st.1.menu_links := by
  unfold importLink
  simp only
  split <;> rfl

/-- The menu link loop of the import starts from the menu links from before the import. -/
theorem importBody_menu_links (now : String) (d : Data) (cats : List CategoryDoc)
    (links : List LinkDoc) (ms : List MenuLinkDoc) :
    ∃ d3 : Data, d3.menu_links = d.menu_links ∧
      (importBody now d cats links ms).1.menu_links = (ms.foldl importMenuLink d3).menu_links := by
  refine ⟨(links.foldl (importLink now (cats.foldl importCategory (d, [])).2)
    (cats.foldl (importParent (cats.foldl importCategory (d, [])).2)
      (cats.foldl importCategory (d, [])).1, ⟨0, 0⟩)).1, ?_, rfl⟩
  have h1 : (cats.foldl importCategory (d, [])).1.menu_links = d.menu_links :=
    foldl_invariant (fun s => s.1.menu_links = d.menu_links) importCategory cats (d, []) rfl
      fun s a _ hs => (importCategory_menu_links s a).trans hs
  have h2 : ∀ m, (cats.foldl (importParent m) (cats.foldl importCategory (d, [])).1).menu_links =
      d.menu_links := fun m =>
    foldl_invariant (fun s => s.menu_links = d.menu_links) (importParent m) cats _ h1
      fun s a _ hs => (importParent_menu_links m s a).trans hs
  exact foldl_invariant (fun s : Data × LinkCounts => s.1.menu_links = d.menu_links)
    (importLink now _) links (_, ⟨0, 0⟩) (h2 _)
    fun s a _ hs => (importLink_menu_links now _ s a).trans hs

theorem findMenuLink_eq_none_iff (d : Data) (t u : String) :
    findMenuLink d (some t) (some u) = none ↔ menuPairCount t u d = 0 := by
  unfold findMenuLink menuPairCount
  simp only [List.find?_eq_none, List.length_eq_zero, List.filter_eq_nil_iff]

/-- One step of the menu link loop: the row is appended exactly when the query finds none. -/
theorem importMenuLink_cases (d : Data) (m : MenuLinkDoc) :
    ((findMenuLink d m.title m.url).isSome ∧ importMenuLink d m = d) ∨
      (findMenuLink d m.title m.url = none ∧
        (importMenuLink d m).menu_links = d.menu_links ++
          [⟨nextId d.menuSeq (d.menu_links.map (·.id)), m.title, m.url, m.icon,
            strOr m.position (some "left"), m.sort_order.getD 0⟩]) := by
  unfold importMenuLink
  cases h : findMenuLink d m.title m.url with
  | some r => exact Or.inl ⟨rfl, rfl⟩
  | none => exact Or.inr ⟨rfl, rfl⟩

theorem findMenuLink_isSome_pair (d : Data) (m : MenuLinkDoc)
    (h : (findMenuLink d m.title m.url).isSome) :
    ∃ t u, m.title = some t ∧ m.url = some u ∧ menuPairCount t u d ≠ 0 := by
  cases ht : m.title with
  | none => simp [findMenuLink, ht] at h
  | some t =>
    cases hu : m.url with
    | none => simp [findMenuLink, ht, hu] at h
    | some u =>
      refine ⟨t, u, rfl, rfl, ?_⟩
      rw [ht, hu] at h
      intro h0
      rw [(findMenuLink_eq_none_iff d t u).2 h0] at h
      simp at h

theorem importMenuLink_pairCount (t u : String) (d : Data) (m : MenuLinkDoc) :
    menuPairCount t u (importMenuLink d m) =
      menuPairCount t u d +
        if menuPairCount t u d = 0 ∧ m.title = some t ∧ m.url = some u then 1 else 0 := by
  rcases importMenuLink_cases d m with ⟨hsome, heq⟩ | ⟨hnone, heq⟩
  · rw [heq]
    obtain ⟨t', u', ht', hu', hcnt⟩ := findMenuLink_isSome_pair d m hsome
    have : ¬ (menuPairCount t u d = 0 ∧ m.title = some t ∧ m.url = some u) := by
      rintro ⟨h0, ht, hu⟩
      rw [ht'] at ht
      rw [hu'] at hu
      cases ht
      cases hu
      exact hcnt h0
    rw [if_neg this, Nat.add_zero]
  · unfold menuPairCount
    rw [heq, List.filter_append, List.length_append]
    congr 1
    by_cases hp : m.title = some t ∧ m.url = some u
    · have h0 : menuPairCount t u d = 0 := by
        rw [← findMenuLink_eq_none_iff, ← hp.1, ← hp.2]
        exact hnone
      unfold menuPairCount at h0
      simp [hp.1, hp.2, h0]
    · have hf : (m.title == some t && m.url == some u) = false := by
        rw [Bool.and_eq_false_iff]
        by_cases ht : m.title = some t
        · exact Or.inr (by simpa using fun hu => hp ⟨ht, hu⟩)
        · exact Or.inl (by simpa using ht)
      have : ¬ ((d.menu_links.filter fun r => r.title == some t && r.url == some u).length = 0 ∧
          m.title = some t ∧ m.url = some u) := fun h => hp h.2
      rw [if_neg this]
      rw [List.filter_cons_of_neg (by simpa using hf)]
      rfl

theorem foldl_importMenuLink_pairCount (t u : String) :
    ∀ (ms : List MenuLinkDoc) (d : Data),
      menuPairCount t u (ms.foldl importMenuLink d) =
        menuPairCount t u d +
          if menuPairCount t u d = 0 ∧ ∃ m ∈ ms, m.title = some t ∧ m.url = some u then 1 else 0
  | [], d => by simp
  | m :: ms, d => by
    rw [List.foldl_cons, foldl_importMenuLink_pairCount t u ms (importMenuLink d m),
      importMenuLink_pairCount t u d m]
    by_cases h0 : menuPairCount t u d = 0
    · by_cases hm : m.title = some t ∧ m.url = some u
      · have : ∃ m' ∈ m :: ms, m'.title = some t ∧ m'.url = some u :=
          ⟨m, List.mem_cons_self m ms, hm⟩
        simp [h0, hm]
      · by_cases hms : ∃ m' ∈ ms, m'.title = some t ∧ m'.url = some u
        · have : ∃ m' ∈ m :: ms, m'.title = some t ∧ m'.url = some u := by
            obtain ⟨m', hm', hp⟩ := hms
            exact ⟨m', List.mem_cons_of_mem m hm', hp⟩
          rw [if_neg (fun h => hm h.2), if_pos ⟨by simpa using h0, hms⟩, if_pos ⟨h0, this⟩]
        · have : ¬ ∃ m' ∈ m :: ms, m'.title = some t ∧ m'.url = some u := by
            rintro ⟨m', hm', hp⟩
            rcases List.mem_cons.1 hm' with rfl | hm'
            · exact hm hp
            · exact hms ⟨m', hm', hp⟩
          rw [if_neg (fun h => hm h.2), if_neg (fun h => hms h.2), if_neg (fun h => this h.2)]
    · simp [h0]

theorem foldl_importMenuLink_append :
    ∀ (ms : List MenuLinkDoc) (d : Data),
      ∃ new, (ms.foldl importMenuLink d).menu_links = d.menu_links ++ new
  | [], d => ⟨[], by simp⟩
  | m :: ms, d => by
    obtain ⟨new, hnew⟩ := foldl_importMenuLink_append ms (importMenuLink d m)
    rw [List.foldl_cons, hnew]
    rcases importMenuLink_cases d m with ⟨_, heq⟩ | ⟨_, heq⟩
    · exact ⟨new, by rw [heq]⟩
    · exact ⟨_ :: new, by rw [heq, List.append_assoc]; rfl⟩

theorem detectFormat_of_no_roots (parseUrl : String → Option ParsedUrl) (data : ImportDoc)
    (hroots : data.roots = none) (cats : List CategoryDoc) (links : List LinkDoc)
    (ms : List MenuLinkDoc) (hdet : detectFormat parseUrl data = some (cats, links, ms)) :
    cats = data.categories.getD [] ∧ links = data.links.getD [] ∧
      ms = data.menu_links.getD [] := by
  unfold detectFormat at hdet
  rw [hroots] at hdet
  simp only at hdet
  split at hdet
  · simp only [Option.some.injEq, Prod.mk.injEq] at hdet
    exact ⟨hdet.1.symm, hdet.2.1.symm, hdet.2.2.symm⟩
  · cases hdet

/-- C15: after a successful import of a native document, the menu links from before are all
there, unchanged and in place, followed by the inserted ones.  A step of the menu link loop
leaves the table as it is exactly when a row with the imported title and url exists at that
moment, and otherwise appends one row with the imported title, url and icon.  Hence for every
pair of a title `t` and a url `u`, the number of menu links with that pair grows by one when
it was zero and the document contains the pair (once or several times), and is unchanged
otherwise. -/
theorem importData_menu_links (parseUrl : String → Option ParsedUrl) (now : String)
    (failAt : Option Nat) (db db' : Db) (data : ImportDoc) (stats : ImportStats)
    (hroots : data.roots = none)
    (h : importData parseUrl now failAt db data = (db', .success stats)) :
    (∃ new, db'.data.menu_links = db.data.menu_links ++ new) ∧
      (∀ t u, menuPairCount t u db'.data =
        menuPairCount t u db.data +
          if menuPairCount t u db.data = 0 ∧
              ∃ m ∈ data.menu_links.getD [], m.title = some t ∧ m.url = some u then 1
          else 0) ∧
      ∀ (d : Data) (m : MenuLinkDoc),
        ((importMenuLink d m).menu_links = d.menu_links ↔
          ∃ t u, m.title = some t ∧ m.url = some u ∧ menuPairCount t u d ≠ 0) ∧
        ((importMenuLink d m).menu_links = d.menu_links ∨
          ∃ row : MenuLink, row.title = m.title ∧ row.url = m.url ∧ row.icon = m.icon ∧
            (importMenuLink d m).menu_links = d.menu_links ++ [row]) := by
  obtain ⟨cats, links, ms, hdet, hdb, _⟩ := importData_of_success _ _ _ _ _ _ _ h
  obtain ⟨_, _, hms⟩ := detectFormat_of_no_roots parseUrl data hroots cats links ms hdet
  obtain ⟨d3, hd3, hfinal⟩ := importBody_menu_links now db.data cats links ms
  have hdata : db'.data.menu_links = (ms.foldl importMenuLink d3).menu_links := by
    rw [hdb]
    exact hfinal
  refine ⟨?_, ?_, ?_⟩
  · obtain ⟨new, hnew⟩ := foldl_importMenuLink_append ms d3
    exact ⟨new, by rw [hdata, hnew, hd3]⟩
  · intro t u
    have h1 : menuPairCount t u db'.data = menuPairCount t u (ms.foldl importMenuLink d3) := by
      unfold menuPairCount
      rw [hdata]
    have h2 : menuPairCount t u d3 = menuPairCount t u db.data := by
      unfold menuPairCount
      rw [hd3]
    rw [h1, foldl_importMenuLink_pairCount t u ms d3, h2, hms]
  · intro d m
    rcases importMenuLink_cases d m with ⟨hsome, heq⟩ | ⟨hnone, heq⟩
    · refine ⟨⟨fun _ => findMenuLink_isSome_pair d m hsome, fun _ => by rw [heq]⟩, Or.inl ?_⟩
      rw [heq]
    · refine ⟨⟨fun hsame => ?_, fun hpair => ?_⟩, Or.inr ⟨_, rfl, rfl, rfl, heq⟩⟩
      · rw [heq] at hsame
        have := congrArg List.length hsame
        simp at this
      · obtain ⟨t, u, ht, hu, hcnt⟩ := hpair
        rw [ht, hu, findMenuLink_eq_none_iff] at hnone
        exact absurd hnone hcnt

/-- Witness for C15: `menuDoc` repeats the pair (`Blog`, `/blog`) and contains the pair
(`Home`, `/`) that `menuStore` holds; one row is inserted. -/
theorem importData_menu_links_witness :
    (importData noUrl "now" none ⟨menuStore, none⟩ menuDoc).1.data.menu_links =
        menuStore.menu_links ++ [⟨2, some "Blog", some "/blog", none, some "left", 0⟩] ∧
      menuPairCount "Blog" "/blog" (importData noUrl "now" none ⟨menuStore, none⟩ menuDoc).1.data =
        menuPairCount "Blog" "/blog" menuStore +
          if menuPairCount "Blog" "/blog" menuStore = 0 ∧
              ∃ m ∈ menuDoc.menu_links.getD [], m.title = some "Blog" ∧ m.url = some "/blog"
            then 1
          else 0 :=
  ⟨by decide,
    (importData_menu_links noUrl "now" none ⟨menuStore, none⟩ _ menuDoc ⟨0, 0, 0⟩ rfl
      (by decide)).2.1 "Blog" "/blog"⟩

/-! ### Import: step 1, categories by name -/

theorem foldl_prefix_invariant {σ α : Type} (P : List α → σ → Prop) (step : σ → α → σ)
    (l : List α)
    (hstep : ∀ pre a post s, l = pre ++ a :: post → P pre s → P (pre ++ [a]) (step s a)) :
    ∀ (post pre : List α) (s : σ), l = pre ++ post → P pre s → P l (post.foldl step s)
  | [], pre, s, hl, hs => by
    rw [hl, List.append_nil]
    exact hs
  | a :: post, pre, s, hl, hs => by
    rw [List.foldl_cons]
    exact foldl_prefix_invariant P step l hstep post (pre ++ [a]) (step s a)
      (by rw [hl, List.append_assoc]; rfl) (hstep pre a post s hl hs)

/-- One step of step 1: either a row with the name exists and the id is mapped to it, or none
exists and the id is mapped to a new row. -/
theorem importCategory_cases (st : Data × CategoryMap) (cat : CategoryDoc) :
    (∃ e, findCategoryByName st.1 cat.name = some e ∧ e ∈ st.1.categories ∧
        e.name = cat.name ∧ importCategory st cat = (st.1, (cat.id, e.id) :: st.2)) ∨
      (findCategoryByName st.1 cat.name = none ∧
        importCategory st cat =
          ({ st.1 with categories := st.1.categories ++ [newCategoryRow st.1 cat],
                       catSeq := (newCategoryRow st.1 cat).id },
            (cat.id, (newCategoryRow st.1 cat).id) :: st.2)) := by
  cases h : findCategoryByName st.1 cat.name with
  | some e =>
    refine Or.inl ⟨e, rfl, ?_, ?_, ?_⟩
    · unfold findCategoryByName at h
      cases hn : cat.name with
      | none => simp [hn] at h
      | some n =>
        rw [hn] at h
        exact List.mem_of_find?_eq_some h
    · unfold findCategoryByName at h
      cases hn : cat.name with
      | none => simp [hn] at h
      | some n =>
        rw [hn] at h
        simpa using List.find?_some h
    · unfold importCategory
      simp only [h]
  | none =>
    refine Or.inr ⟨rfl, ?_⟩
    unfold importCategory
    simp only [h]
    rfl

theorem findCategoryByName_eq_none (d : Data) (name : Option String)
    (h : findCategoryByName d name = none) :
    ∀ n, name = some n → n ∉ d.categories.filterMap (·.name) := by
  intro n hn hmem
  rw [hn] at h
  unfold findCategoryByName at h
  simp only [List.find?_eq_none, beq_iff_eq] at h
  obtain ⟨r, hr, hrn⟩ := List.mem_filterMap.1 hmem
  exact h r hr hrn

theorem findCategoryByName_append_none (d : Data) (new : List Category) (name : Option String)
    (cs : List Category) (hcs : cs = d.categories ++ new)
    (h : findCategoryByName { d with categories := cs } name = none) :
    findCategoryByName d name = none := by
  unfold findCategoryByName at h ⊢
  cases name with
  | none => rfl
  | some n =>
    simp only [hcs, List.find?_eq_none, List.mem_append] at h ⊢
    exact fun x hx => h x (Or.inl hx)

theorem passOne_step (d : Data) (pre : List CategoryDoc) (cat : CategoryDoc)
    (st : Data × CategoryMap) (h : PassOne d pre st) :
    PassOne d (pre ++ [cat]) (importCategory st cat) := by
  obtain ⟨new, hnew, hrows⟩ := h.appended
  rcases importCategory_cases st cat with ⟨e, _, he, hen, heq⟩ | ⟨hnone, heq⟩
  · rw [heq]
    refine ⟨⟨new, hnew, ?_⟩, h.ids, h.names, ?_, ?_, ?_⟩
    · intro r hr
      obtain ⟨h1, h2, c, hc, h3⟩ := hrows r hr
      exact ⟨h1, h2, c, List.mem_append_left _ hc, h3⟩
    · simp [h.keys]
    · intro k v hkv
      rcases List.mem_cons.1 hkv with hkv | hkv
      · cases hkv
        exact ⟨cat, by simp, rfl, e, he, rfl, hen⟩
      · obtain ⟨c, hc, h1, h2⟩ := h.entries k v hkv
        exact ⟨c, List.mem_append_left _ hc, h1, h2⟩
    · intro c hc
      rcases List.mem_append.1 hc with hc | hc
      · obtain ⟨r, hr, h1, h2⟩ := h.mapped c hc
        exact ⟨r, hr, h1, List.mem_cons_of_mem _ h2⟩
      · rw [List.mem_singleton] at hc
        subst hc
        exact ⟨e, he, hen, List.mem_cons_self _ _⟩
  · rw [heq]
    have hfresh : ∀ i ∈ st.1.categories.map (·.id), i < (newCategoryRow st.1 cat).id :=
      fun i hi => lt_nextId st.1.catSeq _ i hi
    have hd_none : findCategoryByName d cat.name = none :=
      findCategoryByName_append_none d new cat.name st.1.categories hnew hnone
    refine ⟨⟨new ++ [newCategoryRow st.1 cat], ?_, ?_⟩, ?_, ?_, ?_, ?_, ?_⟩
    · simp only [hnew, List.append_assoc]
    · intro r hr
      rcases List.mem_append.1 hr with hr | hr
      · obtain ⟨h1, h2, c, hc, h3⟩ := hrows r hr
        exact ⟨h1, h2, c, List.mem_append_left _ hc, h3⟩
      · rw [List.mem_singleton] at hr
        subst hr
        exact ⟨rfl, Nat.succ_ne_zero _, cat, by simp, rfl, hd_none⟩
    · intro hd
      simp only [List.map_append, List.map_cons, List.map_nil]
      rw [List.nodup_append]
      refine ⟨h.ids hd, List.nodup_singleton _, ?_⟩
      intro a ha hb
      rw [List.mem_singleton] at hb
      have := hfresh a ha
      omega
    · intro hd
      simp only [List.filterMap_append, List.filterMap_cons, List.filterMap_nil]
      cases hn : cat.name with
      | none =>
        have : (newCategoryRow st.1 cat).name = none := hn
        simp only [this, List.append_nil]
        exact h.names hd
      | some n =>
        have : (newCategoryRow st.1 cat).name = some n := hn
        simp only [this]
        rw [List.nodup_append]
        refine ⟨h.names hd, List.nodup_singleton _, ?_⟩
        intro a ha hb
        rw [List.mem_singleton] at hb
        subst hb
        exact findCategoryByName_eq_none st.1 cat.name hnone a hn ha
    · simp [h.keys]
    · intro k v hkv
      rcases List.mem_cons.1 hkv with hkv | hkv
      · cases hkv
        exact ⟨cat, by simp, rfl, newCategoryRow st.1 cat, by simp, rfl, rfl⟩
      · obtain ⟨c, hc, h1, r, hr, h2⟩ := h.entries k v hkv
        exact ⟨c, List.mem_append_left _ hc, h1, r, List.mem_append_left _ hr, h2⟩
    · intro c hc
      rcases List.mem_append.1 hc with hc | hc
      · obtain ⟨r, hr, h1, h2⟩ := h.mapped c hc
        exact ⟨r, List.mem_append_left _ hr, h1, List.mem_cons_of_mem _ h2⟩
      · rw [List.mem_singleton] at hc
        subst hc
        exact ⟨newCategoryRow st.1 c, by simp, rfl, List.mem_cons_self _ _⟩

theorem passOne_init (d : Data) : PassOne d [] (d, []) :=
  ⟨⟨[], by simp, by simp⟩, id, id, rfl, by simp, by simp⟩

/-- Step 1 of the import, run over the categories `cats` of the document. -/
theorem passOne_foldl (d : Data) (cats : List CategoryDoc) :
    PassOne d cats (cats.foldl importCategory (d, [])) :=
  foldl_prefix_invariant (PassOne d) importCategory cats
    (fun pre a _ s _ hs => passOne_step d pre a s hs) cats [] (d, []) rfl (passOne_init d)

theorem eq_of_mem_of_name_eq :
    ∀ (l : List Category), (l.filterMap (·.name)).Nodup → ∀ (a b : Category) (n : String),
      a ∈ l → b ∈ l → a.name = some n → b.name = some n → a = b
  | [], _, _, _, _, ha, _, _, _ => absurd ha (List.not_mem_nil _)
  | x :: l, hnd, a, b, n, ha, hb, han, hbn => by
    have htail : (l.filterMap (·.name)).Nodup := by
      cases hx : x.name with
      | none => simpa [List.filterMap_cons, hx] using hnd
      | some m =>
        have : (m :: l.filterMap (·.name)).Nodup := by
          simpa [List.filterMap_cons, hx] using hnd
        exact (List.nodup_cons.1 this).2
    have hhead : ∀ c ∈ l, c.name = some n → x.name ≠ some n := by
      intro c hc hcn hxn
      have : (n :: l.filterMap (·.name)).Nodup := by
        simpa [List.filterMap_cons, hxn] using hnd
      exact (List.nodup_cons.1 this).1 (List.mem_filterMap.2 ⟨c, hc, hcn⟩)
    rcases List.mem_cons.1 ha with hax | hal <;> rcases List.mem_cons.1 hb with hbx | hbl
    · rw [hax, hbx]
    · exact absurd (hax ▸ han) (hhead b hbl hbn)
    · exact absurd (hbx ▸ hbn) (hhead a hal han)
    · exact eq_of_mem_of_name_eq l htail a b n hal hbl han hbn

theorem importParent_categories (m : CategoryMap) (d : Data) (cat : CategoryDoc) :
    (importParent m d cat).categories.map (·.id) = d.categories.map (·.id) ∧
      (importParent m d cat).categories.map (·.name) = d.categories.map (·.name) := by
  unfold importParent
  split
  · simp only [List.map_map]
    constructor <;>
    · apply List.map_congr_left
      intro c _
      simp only [Function.comp]
      split <;> rfl
  · exact ⟨rfl, rfl⟩

theorem foldl_importParent_categories (m : CategoryMap) (cats : List CategoryDoc) (d : Data) :
    (cats.foldl (importParent m) d).categories.map (·.id) = d.categories.map (·.id) ∧
      (cats.foldl (importParent m) d).categories.map (·.name) = d.categories.map (·.name) :=
  foldl_invariant
    (fun s => s.categories.map (·.id) = d.categories.map (·.id) ∧
      s.categories.map (·.name) = d.categories.map (·.name))
    (importParent m) cats d ⟨rfl, rfl⟩ fun s a _ hs =>
      ⟨(importParent_categories m s a).1.trans hs.1, (importParent_categories m s a).2.trans hs.2⟩

theorem importLink_categories (now : String) (m : CategoryMap) (st : Data × LinkCounts)
    (link : LinkDoc) : (importLink now m st link).1.categories = st.1.categories := by
  unfold importLink
  simp only
  split <;> rfl

theorem importMenuLink_categories (d : Data) (m : MenuLinkDoc) :
    (importMenuLink d m).categories = d.categories := by
  unfold importMenuLink
  split <;> rfl

/-- The categories after the import are those after its step 2. -/
theorem importBody_categories (now : String) (d : Data) (cats : List CategoryDoc)
    (links : List LinkDoc) (ms : List MenuLinkDoc) :
    (importBody now d cats links ms).1.categories =
      (cats.foldl (importParent (cats.foldl importCategory (d, [])).2)
        (cats.foldl importCategory (d, [])).1).categories := by
  simp only [importBody]
  have h3 : ∀ (s0 : Data × LinkCounts),
      (links.foldl (importLink now (cats.foldl importCategory (d, [])).2) s0).1.categories =
        s0.1.categories := fun s0 =>
    foldl_invariant (fun s : Data × LinkCounts => s.1.categories = s0.1.categories)
      (importLink now _) links s0 rfl fun s a _ hs => (importLink_categories now _ s a).trans hs
  have h4 : ∀ (d0 : Data), (ms.foldl importMenuLink d0).categories = d0.categories := fun d0 =>
    foldl_invariant (fun s => s.categories = d0.categories) importMenuLink ms d0 rfl
      fun s a _ hs => (importMenuLink_categories s a).trans hs
  rw [h4, h3]

theorem filterMap_name_of_map_name {l₁ l₂ : List Category}
    (h : l₁.map (·.name) = l₂.map (·.name)) :
    l₁.filterMap (·.name) = l₂.filterMap (·.name) := by
  have e : ∀ l : List Category, l.filterMap (·.name) = (l.map (·.name)).filterMap id := by
    intro l
    rw [List.filterMap_map]
    rfl
  rw [e, e, h]

/-- C12: whenever the import answers with success, step 1 leaves the categories from before
in place and appends rows with a null `parent_id`; the names of the appended rows are
pairwise distinct and are exactly the names of the document that the store did not hold, so
a name that the store holds gets no row and an absent name gets one row however often the
document repeats it; the id of a category of the document whose name the store holds is
mapped to the id of the row of that name; no other step inserts or renames a category, and
the names of the categories are pairwise distinct after the import if they were before. -/
theorem importData_category_names (parseUrl : String → Option ParsedUrl) (now : String)
    (failAt : Option Nat) (db db' : Db) (data : ImportDoc) (stats : ImportStats)
    (cats : List CategoryDoc) (links : List LinkDoc) (ms : List MenuLinkDoc)
    (hdet : detectFormat parseUrl data = some (cats, links, ms))
    (hnames : (db.data.categories.filterMap (·.name)).Nodup)
    (h : importData parseUrl now failAt db data = (db', .success stats)) :
    ∃ new,
      (cats.foldl importCategory (db.data, [])).1.categories = db.data.categories ++ new ∧
        (∀ r ∈ new, r.parent_id = none) ∧
        (new.filterMap (·.name)).Nodup ∧
        (∀ n, n ∈ new.filterMap (·.name) ↔
          (∃ cat ∈ cats, cat.name = some n) ∧ ∀ e ∈ db.data.categories, e.name ≠ some n) ∧
        (∀ cat ∈ cats, ∀ e ∈ db.data.categories, ∀ n, cat.name = some n → e.name = some n →
          (cat.id, e.id) ∈ (cats.foldl importCategory (db.data, [])).2) ∧
        db'.data.categories.map (·.name) = (db.data.categories ++ new).map (·.name) ∧
        (db'.data.categories.filterMap (·.name)).Nodup := by
  obtain ⟨cats', links', ms', hdet', hdb, _⟩ := importData_of_success _ _ _ _ _ _ _ h
  rw [hdet] at hdet'
  simp only [Option.some.injEq, Prod.mk.injEq] at hdet'
  obtain ⟨rfl, rfl, rfl⟩ := hdet'
  have P := passOne_foldl db.data cats
  obtain ⟨new, hnew, hrows⟩ := P.appended
  have hnd := P.names hnames
  have hfinal : db'.data.categories.map (·.name) = (db.data.categories ++ new).map (·.name) := by
    rw [hdb]
    simp only
    rw [importBody_categories, (foldl_importParent_categories _ _ _).2, hnew]
  refine ⟨new, hnew, fun r hr => (hrows r hr).1, ?_, ?_, ?_, hfinal, ?_⟩
  · rw [hnew, List.filterMap_append, List.nodup_append] at hnd
    exact hnd.2.1
  · intro n
    constructor
    · intro hn
      obtain ⟨r, hr, hrn⟩ := List.mem_filterMap.1 hn
      obtain ⟨_, _, cat, hcat, hname, hnone⟩ := hrows r hr
      have hcn : cat.name = some n := by rw [← hname]; exact hrn
      refine ⟨⟨cat, hcat, hcn⟩, ?_⟩
      intro e he hen
      exact findCategoryByName_eq_none db.data cat.name hnone n hcn
        (List.mem_filterMap.2 ⟨e, he, hen⟩)
    · rintro ⟨⟨cat, hcat, hcn⟩, habs⟩
      obtain ⟨r, hr, hrn, _⟩ := P.mapped cat hcat
      rw [hnew, List.mem_append] at hr
      rcases hr with hr | hr
      · exact absurd (hrn.trans hcn) (habs r hr)
      · exact List.mem_filterMap.2 ⟨r, hr, hrn.trans hcn⟩
  · intro cat hcat e he n hcn hen
    obtain ⟨r, hr, hrn, hmap⟩ := P.mapped cat hcat
    have hemem : e ∈ (cats.foldl importCategory (db.data, [])).1.categories := by
      rw [hnew]
      exact List.mem_append_left _ he
    rw [eq_of_mem_of_name_eq _ hnd e r n hemem hr hen (hrn.trans hcn)]
    exact hmap
  · rw [filterMap_name_of_map_name hfinal, ← hnew]
    exact hnd

/-- Witness for C12: `namesDoc` names `Leaf`, `Sub`, `Tools`, `Sub`; `exampleStore` holds
`Tools`; two rows are inserted. -/
theorem importData_category_names_witness :
    (importData noUrl "now" none ⟨exampleStore, none⟩ namesDoc).1.data.categories.map (·.name) =
        [some "Tools", some "Leaf", some "Sub"] ∧
      ((importData noUrl "now" none ⟨exampleStore, none⟩ namesDoc).1.data.categories.filterMap
        (·.name)).Nodup :=
  ⟨by decide,
    (importData_category_names noUrl "now" none ⟨exampleStore, none⟩ _ namesDoc ⟨4, 0, 0⟩
      (namesDoc.categories.getD []) [] [] rfl (by decide) (by decide)).choose_spec.2.2.2.2.2.2⟩

/-! ### Import: step 2, parents -/

theorem importParent_eq_map (m : CategoryMap) (d : Data) (cat : CategoryDoc) :
    importParent m d cat = { d with categories := d.categories.map (setParent m cat) } := by
  unfold importParent
  cases h : parentUpdate m cat with
  | none =>
    have : d.categories.map (setParent m cat) = d.categories := by
      conv_rhs => rw [← List.map_id d.categories]
      apply List.map_congr_left
      intro r _
      simp [setParent, h]
    rw [this]
  | some pr =>
    obtain ⟨mp, mc⟩ := pr
    simp only
    congr 1
    apply List.map_congr_left
    intro r _
    simp [setParent, h]

theorem foldl_importParent_eq_map (m : CategoryMap) :
    ∀ (cats : List CategoryDoc) (d : Data),
      cats.foldl (importParent m) d =
        { d with categories := d.categories.map (applyParents m cats) }
  | [], d => by simp [applyParents]
  | cat :: cats, d => by
    rw [List.foldl_cons, importParent_eq_map, foldl_importParent_eq_map m cats]
    simp only [List.map_map]
    rfl

theorem setParent_id (m : CategoryMap) (cat : CategoryDoc) (r : Category) :
    (setParent m cat r).id = r.id := by
  unfold setParent
  split
  · split <;> rfl
  · rfl

theorem applyParents_id (m : CategoryMap) :
    ∀ (cats : List CategoryDoc) (r : Category), (applyParents m cats r).id = r.id
  | [], _ => rfl
  | cat :: cats, r => by
    rw [applyParents, applyParents_id m cats, setParent_id]

theorem applyParents_append (m : CategoryMap) :
    ∀ (pre post : List CategoryDoc) (r : Category),
      applyParents m (pre ++ post) r = applyParents m post (applyParents m pre r)
  | [], _, _ => rfl
  | cat :: pre, post, r => by
    rw [List.cons_append, applyParents, applyParents, applyParents_append m pre post]

/-- Categories of the document whose `UPDATE` addresses another row leave the row as it is. -/
theorem applyParents_of_no_target (m : CategoryMap) :
    ∀ (cats : List CategoryDoc) (r : Category),
      (∀ cat ∈ cats, ∀ mp mc, parentUpdate m cat = some (mp, mc) → mc ≠ r.id) →
      applyParents m cats r = r
  | [], _, _ => rfl
  | cat :: cats, r, h => by
    have hset : setParent m cat r = r := by
      unfold setParent
      cases hp : parentUpdate m cat with
      | none => rfl
      | some pr =>
        obtain ⟨mp, mc⟩ := pr
        have := h cat (List.mem_cons_self _ _) mp mc hp
        simp [Ne.symm this]
    rw [applyParents, hset]
    exact applyParents_of_no_target m cats r fun c hc => h c (List.mem_cons_of_mem _ hc)

theorem lookup_of_mem_of_nodup_keys :
    ∀ (m : CategoryMap), (m.map Prod.fst).Nodup → ∀ k v, (k, v) ∈ m → m.lookup k = some v
  | [], _, _, _, h => absurd h (List.not_mem_nil _)
  | (k', v') :: m, hnd, k, v, h => by
    rw [List.map_cons, List.nodup_cons] at hnd
    rcases List.mem_cons.1 h with heq | hmem
    · cases heq
      simp [List.lookup]
    · have hne : k ≠ k' := by
        rintro rfl
        exact hnd.1 (List.mem_map.2 ⟨(k, v), hmem, rfl⟩)
      rw [List.lookup_cons, beq_false_of_ne hne]
      exact lookup_of_mem_of_nodup_keys m hnd.2 k v hmem

/-- After step 1 over a document with distinct ids, the lookup of the id of a category of the
document yields the id of a row with the name of that category. -/
theorem passOne_lookup (d : Data) (cats : List CategoryDoc) (st : Data × CategoryMap)
    (P : PassOne d cats st) (hdocids : (cats.map (·.id)).Nodup) (cat : CategoryDoc)
    (hcat : cat ∈ cats) :
    ∃ r ∈ st.1.categories, r.name = cat.name ∧ st.2.lookup cat.id = some r.id := by
  obtain ⟨r, hr, hrn, hmem⟩ := P.mapped cat hcat
  refine ⟨r, hr, hrn, lookup_of_mem_of_nodup_keys st.2 ?_ _ _ hmem⟩
  rw [P.keys]
  exact List.nodup_reverse.2 hdocids

theorem passOne_id_ne_zero (d : Data) (cats : List CategoryDoc) (st : Data × CategoryMap)
    (P : PassOne d cats st) (hnz : ∀ r ∈ d.categories, r.id ≠ 0) :
    ∀ r ∈ st.1.categories, r.id ≠ 0 := by
  obtain ⟨new, hnew, hrows⟩ := P.appended
  intro r hr
  rw [hnew, List.mem_append] at hr
  rcases hr with hr | hr
  · exact hnz r hr
  · exact (hrows r hr).2.1

theorem parentUpdate_target (m : CategoryMap) (cat : CategoryDoc) (mp mc v : Nat)
    (h : parentUpdate m cat = some (mp, mc)) (hv : m.lookup cat.id = some v) : mc = v := by
  unfold parentUpdate at h
  split at h
  · simp only at h
    split at h
    · simp only [Option.some.injEq, Prod.mk.injEq] at h
      rw [← h.2, hv]
      rfl
    · cases h
  · cases h

theorem parentUpdate_of_mapped (m : CategoryMap) (c : CategoryDoc) (pid vp vc : Nat)
    (hp : c.parent_id = some pid) (hpid : pid ≠ 0) (hvp : m.lookup pid = some vp)
    (hvc : m.lookup c.id = some vc) (hvp0 : vp ≠ 0) (hvc0 : vc ≠ 0) :
    parentUpdate m c = some (vp, vc) := by
  unfold parentUpdate
  simp [hp, truthyNat, hpid, hvp, hvc, hvp0, hvc0]

/-- C13: the store has distinct, non-zero category ids (rowids of an `AUTOINCREMENT` table),
the categories of the document have pairwise distinct ids and pairwise distinct names, and
the import answers with success.  Then for every category `c` of the document that declares
the `parent_id` of a category `p` of the document (a non-zero id: step 2 tests
`if (cat.parent_id)`), the ids of `c` and `p` are mapped to store ids `mc` and `mp`, a
category with id `mc` exists after the import, and its `parent_id` is `mp`, wherever `c` and
`p` stand in the document. -/
theorem importData_parent_remap (parseUrl : String → Option ParsedUrl) (now : String)
    (failAt : Option Nat) (db db' : Db) (data : ImportDoc) (stats : ImportStats)
    (cats : List CategoryDoc) (links : List LinkDoc) (ms : List MenuLinkDoc)
    (hdet : detectFormat parseUrl data = some (cats, links, ms))
    (hids : (db.data.categories.map (·.id)).Nodup)
    (hnz : ∀ r ∈ db.data.categories, r.id ≠ 0)
    (hdocids : (cats.map (·.id)).Nodup) (hdocnames : (cats.map (·.name)).Nodup)
    (h : importData parseUrl now failAt db data = (db', .success stats))
    (c p : CategoryDoc) (hc : c ∈ cats) (hp : p ∈ cats) (hcp : c.parent_id = some p.id)
    (hpid : p.id ≠ 0) :
    ∃ mc mp,
      (cats.foldl importCategory (db.data, [])).2.lookup c.id = some mc ∧
        (cats.foldl importCategory (db.data, [])).2.lookup p.id = some mp ∧
        (∃ row ∈ db'.data.categories, row.id = mc) ∧
        ∀ row ∈ db'.data.categories, row.id = mc → row.parent_id = some mp := by
  obtain ⟨cats', links', ms', hdet', hdb, _⟩ := importData_of_success _ _ _ _ _ _ _ h
  rw [hdet] at hdet'
  simp only [Option.some.injEq, Prod.mk.injEq] at hdet'
  obtain ⟨rfl, rfl, rfl⟩ := hdet'
  have P := passOne_foldl db.data cats
  generalize hst : cats.foldl importCategory (db.data, []) = st at P
  have hcats : db'.data.categories = st.1.categories.map (applyParents st.2 cats) := by
    rw [hdb]
    simp only
    rw [importBody_categories, hst, foldl_importParent_eq_map]
  obtain ⟨rc, hrc, hrcn, hlc⟩ := passOne_lookup db.data cats st P hdocids c hc
  obtain ⟨rp, hrp, hrpn, hlp⟩ := passOne_lookup db.data cats st P hdocids p hp
  have hnz' := passOne_id_ne_zero db.data cats st P hnz
  have hids' := P.ids hids
  have hupd : parentUpdate st.2 c = some (rp.id, rc.id) :=
    parentUpdate_of_mapped st.2 c p.id rp.id rc.id hcp hpid hlp hlc (hnz' rp hrp) (hnz' rc hrc)
  -- the categories of the document other than `c` address other rows
  have hother : ∀ cat ∈ cats, cat ≠ c → ∀ mp mc, parentUpdate st.2 cat = some (mp, mc) →
      mc ≠ rc.id := by
    intro cat hcat hne mp mc hu hmc
    obtain ⟨r, hr, hrn, hl⟩ := passOne_lookup db.data cats st P hdocids cat hcat
    have hmcr : mc = r.id := parentUpdate_target st.2 cat mp mc r.id hu hl
    have hrr : r = rc := eq_of_mem_of_id_eq hids' hr hrc (by rw [← hmcr, hmc])
    have hname : cat.name = c.name := by rw [← hrn, ← hrcn, hrr]
    exact hne (List.inj_on_of_nodup_map hdocnames hcat hc hname)
  -- what step 2 does to a row of id `rc.id`
  have hrow : ∀ r ∈ st.1.categories, r.id = rc.id →
      applyParents st.2 cats r = { r with parent_id := some rp.id } := by
    intro r hr hrid
    obtain ⟨pre, post, hsplit⟩ := List.append_of_mem hc
    have hnodup : cats.Nodup := List.Nodup.of_map _ hdocids
    rw [hsplit] at hnodup
    have hcpre : c ∉ pre := fun hmem =>
      (List.nodup_append.1 hnodup).2.2 hmem (List.mem_cons_self _ _)
    have hcpost : c ∉ post := (List.nodup_cons.1 (List.nodup_append.1 hnodup).2.1).1
    rw [hsplit, applyParents_append, applyParents]
    rw [applyParents_of_no_target st.2 pre r (fun cat hcat mp mc hu => by
      rw [hrid]
      exact hother cat (hsplit ▸ List.mem_append_left _ hcat)
        (fun hcc => hcpre (hcc ▸ hcat)) mp mc hu)]
    have hset : setParent st.2 c r = { r with parent_id := some rp.id } := by
      simp [setParent, hupd, hrid]
    rw [hset]
    exact applyParents_of_no_target st.2 post _ (fun cat hcat mp mc hu => by
      show mc ≠ r.id
      rw [hrid]
      exact hother cat (hsplit ▸ List.mem_append_right _ (List.mem_cons_of_mem _ hcat))
        (fun hcc => hcpost (hcc ▸ hcat)) mp mc hu)
  refine ⟨rc.id, rp.id, hlc, hlp, ?_, ?_⟩
  · refine ⟨applyParents st.2 cats rc, ?_, applyParents_id _ _ _⟩
    rw [hcats]
    exact List.mem_map_of_mem _ hrc
  · intro row hrowmem hrowid
    rw [hcats] at hrowmem
    obtain ⟨r, hr, rfl⟩ := List.mem_map.1 hrowmem
    rw [applyParents_id] at hrowid
    rw [hrow r hr hrowid]

/-- Witness for C13: in `remapDoc` the child `Leaf` (id 10) comes before its parent `Sub`
(id 11), whose parent `Tools` (id 12) is held by the store. -/
theorem importData_parent_remap_witness :
    ∃ mc mp,
      (remapCats.foldl importCategory (exampleStore, [])).2.lookup 10 = some mc ∧
        (remapCats.foldl importCategory (exampleStore, [])).2.lookup 11 = some mp ∧
        (∃ row ∈ (importData noUrl "now" none ⟨exampleStore, none⟩ remapDoc).1.data.categories,
          row.id = mc) ∧
        ∀ row ∈ (importData noUrl "now" none ⟨exampleStore, none⟩ remapDoc).1.data.categories,
          row.id = mc → row.parent_id = some mp :=
  importData_parent_remap noUrl "now" none ⟨exampleStore, none⟩ _ remapDoc ⟨3, 0, 0⟩
    remapCats [] [] rfl (by decide) (by decide) (by decide) (by decide) (by decide)
    ⟨10, some "Leaf", none, some 11, none⟩ ⟨11, some "Sub", none, some 12, none⟩
    (by decide) (by decide) rfl (by decide)

/-! ### Import: inserted links -/

theorem importLink_insert_row (now : String) (m : CategoryMap) (st : Data × LinkCounts)
    (link : LinkDoc) (h : findLinkByUrl st.1 link.url = none) :
    (importLink now m st link).1.links = st.1.links ++ [newLinkRow now m st.1 link] ∧
      (importLink now m st link).2 = { st.2 with addedCount := st.2.addedCount + 1 } := by
  rw [importLink_insert_eq now m st link h]
  exact ⟨rfl, rfl⟩

theorem mem_of_lookup_eq_some :
    ∀ (m : CategoryMap) (k v : Nat), m.lookup k = some v → (k, v) ∈ m
  | [], _, _, h => by simp [List.lookup] at h
  | (k', v') :: m, k, v, h => by
    rw [List.lookup_cons] at h
    by_cases hk : k = k'
    · subst hk
      simp only [beq_self_eq_true, Option.some.injEq] at h
      subst h
      exact List.mem_cons_self _ _
    · rw [beq_false_of_ne hk] at h
      exact List.mem_cons_of_mem _ (mem_of_lookup_eq_some m k v h)

/-- The resolved category is 1 or a value of `categoryMap`. -/
theorem resolveCategory_cases (m : CategoryMap) (cid : Option Nat) :
    resolveCategory m cid = 1 ∨
      ∃ k v, cid = some k ∧ m.lookup k = some v ∧ v ≠ 0 ∧ resolveCategory m cid = v := by
  unfold resolveCategory
  cases hc : cid with
  | none => exact Or.inl (by simp)
  | some k =>
    cases hl : m.lookup k with
    | none => exact Or.inl (by simp [hl, truthyNat])
    | some v =>
      by_cases hv : v = 0
      · exact Or.inl (by simp [hl, truthyNat, hv])
      · exact Or.inr ⟨k, v, rfl, hl, hv, by simp [hl, truthyNat, hv]⟩

theorem findLinkByUrl_eq_none_iff (d : Data) (u : String) :
    findLinkByUrl d (some u) = none ↔ linkUrlCount u d = 0 := by
  unfold findLinkByUrl linkUrlCount
  simp only [List.find?_eq_none, List.length_eq_zero, List.filter_eq_nil_iff]

theorem importLink_urlCount (now : String) (m : CategoryMap) (u : String)
    (st : Data × LinkCounts) (y : LinkDoc) :
    linkUrlCount u (importLink now m st y).1 =
      linkUrlCount u st.1 + if linkUrlCount u st.1 = 0 ∧ y.url = some u then 1 else 0 := by
  by_cases hy : y.url = some u
  · cases hf : findLinkByUrl st.1 y.url with
    | some e =>
      rw [importLink_merge_eq now m st y e hf]
      have hcnt : linkUrlCount u st.1 ≠ 0 := by
        intro h0
        rw [hy, (findLinkByUrl_eq_none_iff st.1 u).2 h0] at hf
        cases hf
      rw [if_neg (fun h => hcnt h.1), Nat.add_zero]
      exact count_url_mergeRow u y e st.1.links
    | none =>
      have h0 : linkUrlCount u st.1 = 0 := by
        rw [← findLinkByUrl_eq_none_iff, ← hy]
        exact hf
      rw [if_pos ⟨h0, hy⟩]
      unfold linkUrlCount at h0 ⊢
      rw [(importLink_insert_row now m st y hf).1, List.filter_append, List.length_append, h0]
      simp [newLinkRow, hy]
  · rw [if_neg (fun h => hy h.2), Nat.add_zero]
    exact importLink_count_url now m u st y hy

theorem foldl_importLink_urlCount (now : String) (m : CategoryMap) (u : String) :
    ∀ (ys : List LinkDoc) (st : Data × LinkCounts),
      linkUrlCount u (ys.foldl (importLink now m) st).1 =
        linkUrlCount u st.1 +
          if linkUrlCount u st.1 = 0 ∧ ∃ y ∈ ys, y.url = some u then 1 else 0
  | [], st => by simp
  | y :: ys, st => by
    rw [List.foldl_cons, foldl_importLink_urlCount now m u ys (importLink now m st y),
      importLink_urlCount now m u st y]
    by_cases h0 : linkUrlCount u st.1 = 0
    · by_cases hy : y.url = some u
      · simp [h0, hy]
      · by_cases hys : ∃ y' ∈ ys, y'.url = some u
        · have : ∃ y' ∈ y :: ys, y'.url = some u := by
            obtain ⟨y', hy', hp⟩ := hys
            exact ⟨y', List.mem_cons_of_mem y hy', hp⟩
          rw [if_neg (fun h => hy h.2), if_pos ⟨by simpa using h0, hys⟩, if_pos ⟨h0, this⟩]
        · have : ¬ ∃ y' ∈ y :: ys, y'.url = some u := by
            rintro ⟨y', hy', hp⟩
            rcases List.mem_cons.1 hy' with rfl | hy'
            · exact hy hp
            · exact hys ⟨y', hy', hp⟩
          rw [if_neg (fun h => hy h.2), if_neg (fun h => hys h.2), if_neg (fun h => this h.2)]
    · simp [h0]

theorem mergeRow_placement (link : LinkDoc) (e l : Link) :
    linkPlacement (mergeRow link e l) = linkPlacement l := by
  unfold mergeRow
  split <;> rfl

theorem mergeRow_category_id (link : LinkDoc) (e l : Link) :
    (mergeRow link e l).category_id = l.category_id := by
  unfold mergeRow
  split <;> rfl

theorem linkLoop_step (now : String) (m : CategoryMap) (old : List Link) (ys : List LinkDoc)
    (st : Data × LinkCounts) (y : LinkDoc) (hy : y ∈ ys) (h : LinkLoop m old ys st) :
    LinkLoop m old ys (importLink now m st y) := by
  obtain ⟨kept, inserted, hlinks, hkept, hcount, hins⟩ := h.appended
  cases hf : findLinkByUrl st.1 y.url with
  | some e =>
    rw [importLink_merge_eq now m st y e hf]
    refine ⟨kept.map (mergeRow y e), inserted.map (mergeRow y e), ?_, ?_, ?_, ?_⟩
    · simp only [hlinks, List.map_append]
    · rw [List.map_map, ← hkept]
      apply List.map_congr_left
      intro l _
      exact mergeRow_placement y e l
    · simpa using hcount
    · intro l hl
      obtain ⟨l0, hl0, rfl⟩ := List.mem_map.1 hl
      obtain ⟨x, hx, h1, h2⟩ := hins l0 hl0
      exact ⟨x, hx, by rw [mergeRow_url, h1], by rw [mergeRow_category_id, h2]⟩
  | none =>
    obtain ⟨hrow, hcnt⟩ := importLink_insert_row now m st y hf
    refine ⟨kept, inserted ++ [newLinkRow now m st.1 y], ?_, hkept, ?_, ?_⟩
    · rw [hrow, hlinks, List.append_assoc]
    · rw [hcnt]
      simp [hcount]
    · intro l hl
      rcases List.mem_append.1 hl with hl | hl
      · exact hins l hl
      · rw [List.mem_singleton] at hl
        subst hl
        exact ⟨y, hy, rfl, rfl⟩

theorem linkLoop_foldl (now : String) (m : CategoryMap) (ys : List LinkDoc) (d2 : Data) :
    LinkLoop m d2.links ys (ys.foldl (importLink now m) (d2, ⟨0, 0⟩)) :=
  foldl_invariant (LinkLoop m d2.links ys) (importLink now m) ys (d2, ⟨0, 0⟩)
    ⟨⟨d2.links, [], by simp, rfl, rfl, by simp⟩⟩
    fun s a ha hs => linkLoop_step now m d2.links ys s a ha hs

/-- C14: whenever the import answers with success: a step of the link loop that finds no row
of the link's url appends exactly one row, whose `category_id` is the resolved category; the
resolved category is the store id that `categoryMap` holds for the link's `category_id`, or 1
when there is none; for every url, the number of links of that url grows by one when it was
zero and the document contains the url, and is unchanged otherwise; the links from before keep
their place and placement, and every link after them was inserted for a link of the document
under its resolved category, which, when a category with id 1 existed before the import, is
the id of a category that exists after the import. -/
theorem importData_inserted_links (parseUrl : String → Option ParsedUrl) (now : String)
    (failAt : Option Nat) (db db' : Db) (data : ImportDoc) (stats : ImportStats)
    (cats : List CategoryDoc) (links : List LinkDoc) (ms : List MenuLinkDoc)
    (hdet : detectFormat parseUrl data = some (cats, links, ms))
    (h : importData parseUrl now failAt db data = (db', .success stats)) :
    (∀ (m : CategoryMap) (st : Data × LinkCounts) (link : LinkDoc),
        findLinkByUrl st.1 link.url = none →
        (importLink now m st link).1.links = st.1.links ++ [newLinkRow now m st.1 link]) ∧
      (∀ (m : CategoryMap) (cid : Option Nat), resolveCategory m cid = 1 ∨
        ∃ k v, cid = some k ∧ m.lookup k = some v ∧ v ≠ 0 ∧ resolveCategory m cid = v) ∧
      (∀ u, linkUrlCount u db'.data =
        linkUrlCount u db.data +
          if linkUrlCount u db.data = 0 ∧ ∃ x ∈ links, x.url = some u then 1 else 0) ∧
      ∃ kept inserted, db'.data.links = kept ++ inserted ∧
        kept.map linkPlacement = db.data.links.map linkPlacement ∧
        stats.linksAdded = inserted.length ∧
        (∀ l ∈ inserted, ∃ x ∈ links, l.url = x.url ∧
          l.category_id =
            some (resolveCategory (cats.foldl importCategory (db.data, [])).2 x.category_id)) ∧
        ((∃ c ∈ db.data.categories, c.id = 1) →
          ∀ l ∈ inserted, ∃ c ∈ db'.data.categories, l.category_id = some c.id) := by
  obtain ⟨cats', links', ms', hdet', hdb, hstats⟩ := importData_of_success _ _ _ _ _ _ _ h
  rw [hdet] at hdet'
  simp only [Option.some.injEq, Prod.mk.injEq] at hdet'
  obtain ⟨rfl, rfl, rfl⟩ := hdet'
  have P := passOne_foldl db.data cats
  generalize hst : cats.foldl importCategory (db.data, []) = st at P
  -- the link loop
  have hd2 := foldl_importParent_links st.2 cats st.1
  have hst1 : st.1.links = db.data.links := by
    rw [← hst]
    exact (foldl_importCategory_links cats (db.data, [])).1
  generalize hd2' : cats.foldl (importParent st.2) st.1 = d2 at hd2
  have hlinks : db'.data.links = (links.foldl (importLink now st.2) (d2, ⟨0, 0⟩)).1.links := by
    rw [hdb]
    simp only [importBody, hst, hd2']
    rw [foldl_importMenuLink_links]
  have hadded : stats.linksAdded =
      (links.foldl (importLink now st.2) (d2, ⟨0, 0⟩)).2.addedCount := by
    rw [hstats]
    simp only [importBody, hst, hd2']
  have hids : db'.data.categories.map (·.id) = st.1.categories.map (·.id) := by
    rw [hdb]
    simp only
    rw [importBody_categories, hst]
    exact (foldl_importParent_categories st.2 cats st.1).1
  refine ⟨fun m st' link hf => (importLink_insert_row now m st' link hf).1,
    resolveCategory_cases, ?_, ?_⟩
  · intro u
    have h1 : linkUrlCount u db'.data =
        linkUrlCount u (links.foldl (importLink now st.2) (d2, ⟨0, 0⟩)).1 := by
      unfold linkUrlCount
      rw [hlinks]
    have h2 : linkUrlCount u d2 = linkUrlCount u db.data := by
      unfold linkUrlCount
      rw [hd2.1, hst1]
    rw [h1, foldl_importLink_urlCount now st.2 u links (d2, ⟨0, 0⟩)]
    simp only [h2]
  · obtain ⟨kept, inserted, hk1, hk2, hk3, hk4⟩ := (linkLoop_foldl now st.2 links d2).appended
    refine ⟨kept, inserted, by rw [hlinks, hk1], by rw [hk2, hd2.1, hst1],
      by rw [hadded, hk3], hk4, ?_⟩
    rintro ⟨c1, hc1, hc1id⟩ l hl
    obtain ⟨x, _, _, hcat⟩ := hk4 l hl
    have hexists : ∀ v, (∃ r ∈ st.1.categories, r.id = v) →
        ∃ c ∈ db'.data.categories, some v = some c.id := by
      rintro v ⟨r, hr, hrv⟩
      have : v ∈ db'.data.categories.map (·.id) := by
        rw [hids]
        exact List.mem_map.2 ⟨r, hr, hrv⟩
      obtain ⟨c, hc, hcv⟩ := List.mem_map.1 this
      exact ⟨c, hc, by rw [hcv]⟩
    rw [hcat]
    rcases resolveCategory_cases st.2 x.category_id with h1 | ⟨k, v, _, hl', _, hv⟩
    · rw [h1]
      obtain ⟨new, hnew, _⟩ := P.appended
      exact hexists 1 ⟨c1, by rw [hnew]; exact List.mem_append_left _ hc1, hc1id⟩
    · rw [hv]
      obtain ⟨_, _, _, r, hr, hrv, _⟩ := P.entries k v (mem_of_lookup_eq_some st.2 k v hl')
      exact hexists v ⟨r, hr, hrv⟩

/-- Witness for C14: `linksDoc` on `exampleStore`: the link of the mapped category 7 goes
under the new category 2, the links of the unmapped category 99 and without category go under
category 1, and the repeated url is inserted once. -/
theorem importData_inserted_links_witness :
    (importData noUrl "now" none ⟨exampleStore, none⟩ linksDoc).1.data.links.map
        (fun l => (l.url, l.category_id)) =
      [(some "https://a.com", some 1), (some "https://s.com", some 2),
        (some "https://x.com", some 1), (some "https://y.com", some 1)] ∧
      linkUrlCount "https://s.com"
          (importData noUrl "now" none ⟨exampleStore, none⟩ linksDoc).1.data =
        linkUrlCount "https://s.com" exampleStore +
          if linkUrlCount "https://s.com" exampleStore = 0 ∧
              ∃ x ∈ linksDoc.links.getD [], x.url = some "https://s.com" then 1
          else 0 :=
  ⟨by decide,
    (importData_inserted_links noUrl "now" none ⟨exampleStore, none⟩ _ linksDoc ⟨1, 3, 1⟩
      (linksDoc.categories.getD []) (linksDoc.links.getD []) [] rfl (by decide)).2.2.1
      "https://s.com"⟩

/-! ### The bookmark parser -/

mutual
theorem processBookmarkItem_eq (parseUrl : String → Option ParsedUrl) (unc : Nat) :
    ∀ (n : BookmarkNode) (parent : Option Nat) (s : ParseState),
      processBookmarkItem parseUrl unc parent s n =
        ⟨s.categoryIdCounter + (foldersOfNode parent s.categoryIdCounter n).length,
          s.categories ++
            ((foldersOfNode parent s.categoryIdCounter n).enumFrom s.categories.length).map
              (fun p => folderCategory p.1 p.2),
          s.links ++
            ((bookmarksOfNode parent s.categoryIdCounter n).enumFrom s.links.length).map
              (fun p => bookmarkLink parseUrl unc p.1 p.2)⟩
  | .mk type name url children, parent, s => by
    unfold processBookmarkItem foldersOfNode bookmarksOfNode
    by_cases hf : (type == some "folder") = true
    · simp only [hf, if_true]
      cases children with
      | none =>
        simp [folderCategory]
      | some cs =>
        simp only
        rw [processBookmarkChildren_eq parseUrl unc cs (some s.categoryIdCounter)]
        simp only [List.length_cons, List.enumFrom_cons, List.map_cons, List.length_append,
          List.length_singleton, List.append_assoc, List.singleton_append, folderCategory]
        congr 1
        omega
    · rw [Bool.not_eq_true] at hf
      simp only [hf, Bool.false_eq_true, if_false]
      by_cases hu : (type == some "url" && truthyStr url) = true
      · simp only [hu, if_true]
        have hurl : url = some (url.getD "") := by
          cases url with
          | none => simp [truthyStr] at hu
          | some u => rfl
        simp only [List.length_nil, Nat.add_zero, List.enumFrom_nil, List.map_nil,
          List.append_nil, List.enumFrom_cons, List.map_cons, bookmarkLink]
        rw [← hurl]
      · rw [Bool.not_eq_true] at hu
        simp only [hu, Bool.false_eq_true, if_false]
        simp
theorem processBookmarkChildren_eq (parseUrl : String → Option ParsedUrl) (unc : Nat) :
    ∀ (cs : List BookmarkNode) (parent : Option Nat) (s : ParseState),
      processBookmarkChildren parseUrl unc parent s cs =
        ⟨s.categoryIdCounter + (foldersOfList parent s.categoryIdCounter cs).length,
          s.categories ++
            ((foldersOfList parent s.categoryIdCounter cs).enumFrom s.categories.length).map
              (fun p => folderCategory p.1 p.2),
          s.links ++
            ((bookmarksOfList parent s.categoryIdCounter cs).enumFrom s.links.length).map
              (fun p => bookmarkLink parseUrl unc p.1 p.2)⟩
  | [], parent, s => by
    simp [processBookmarkChildren, foldersOfList, bookmarksOfList]
  | n :: ns, parent, s => by
    unfold processBookmarkChildren foldersOfList bookmarksOfList
    rw [processBookmarkItem_eq parseUrl unc n parent s,
      processBookmarkChildren_eq parseUrl unc ns parent]
    simp only [List.length_append, List.length_map, List.enumFrom_length, List.enumFrom_append,
      List.map_append, List.append_assoc, Nat.add_assoc]
end

mutual
theorem foldersOfNode_ids (parent : Option Nat) :
    ∀ (n : BookmarkNode) (next : Nat),
      (foldersOfNode parent next n).map (·.id) = List.range' next (folderCountNode n)
  | .mk type name url children, next => by
    unfold foldersOfNode folderCountNode
    by_cases hf : (type == some "folder") = true
    · simp only [hf, if_true]
      cases children with
      | none => simp [List.range']
      | some cs =>
        simp only [List.map_cons]
        rw [foldersOfList_ids (some next) cs (next + 1), Nat.add_comm 1, List.range'_succ]
    · rw [Bool.not_eq_true] at hf
      simp [hf]
theorem foldersOfList_ids (parent : Option Nat) :
    ∀ (cs : List BookmarkNode) (next : Nat),
      (foldersOfList parent next cs).map (·.id) = List.range' next (folderCountList cs)
  | [], next => by simp [foldersOfList, folderCountList]
  | n :: ns, next => by
    unfold foldersOfList folderCountList
    have hlen : (foldersOfNode parent next n).length = folderCountNode n := by
      have := congrArg List.length (foldersOfNode_ids parent n next)
      simpa using this
    rw [List.map_append, foldersOfNode_ids parent n next, hlen,
      foldersOfList_ids parent ns (next + folderCountNode n), List.range'_append_1,
      Nat.add_comm (folderCountList ns)]
end

theorem foldersOfList_length (parent : Option Nat) (next : Nat) (cs : List BookmarkNode) :
    (foldersOfList parent next cs).length = folderCountList cs := by
  have := congrArg List.length (foldersOfList_ids parent cs next)
  simpa using this

mutual
theorem bookmarksOfNode_length (parent : Option Nat) :
    ∀ (n : BookmarkNode) (next : Nat),
      (bookmarksOfNode parent next n).length = bookmarkCountNode n
  | .mk type name url children, next => by
    unfold bookmarksOfNode bookmarkCountNode
    by_cases hf : (type == some "folder") = true
    · simp only [hf, if_true]
      cases children with
      | none => rfl
      | some cs => exact bookmarksOfList_length (some next) cs (next + 1)
    · rw [Bool.not_eq_true] at hf
      simp only [hf, Bool.false_eq_true, if_false]
      split <;> rfl
theorem bookmarksOfList_length (parent : Option Nat) :
    ∀ (cs : List BookmarkNode) (next : Nat),
      (bookmarksOfList parent next cs).length = bookmarkCountList cs
  | [], next => by simp [bookmarksOfList, bookmarkCountList]
  | n :: ns, next => by
    unfold bookmarksOfList bookmarkCountList
    rw [List.length_append, bookmarksOfNode_length parent n next,
      bookmarksOfList_length parent ns _]
end

mutual
theorem bookmarksOfNode_parent (parent : Option Nat) :
    ∀ (n : BookmarkNode) (next : Nat), ∀ e ∈ bookmarksOfNode parent next n,
      e.url ≠ "" ∧ (e.parent = parent ∨ ∃ id, next ≤ id ∧ e.parent = some id)
  | .mk type name url children, next => by
    unfold bookmarksOfNode
    intro e he
    by_cases hf : (type == some "folder") = true
    · simp only [hf, if_true] at he
      cases children with
      | none => simp at he
      | some cs =>
        obtain ⟨h1, h2⟩ := bookmarksOfList_parent (some next) cs (next + 1) e he
        refine ⟨h1, Or.inr ?_⟩
        rcases h2 with h2 | ⟨id, hid, h2⟩
        · exact ⟨next, Nat.le_refl _, h2⟩
        · exact ⟨id, by omega, h2⟩
    · rw [Bool.not_eq_true] at hf
      simp only [hf, Bool.false_eq_true, if_false] at he
      by_cases hu : (type == some "url" && truthyStr url) = true
      · simp only [hu, if_true, List.mem_singleton] at he
        subst he
        refine ⟨?_, Or.inl rfl⟩
        cases url with
        | none => simp [truthyStr] at hu
        | some u =>
          simp only [truthyStr, Bool.and_eq_true, bne_iff_ne, ne_eq] at hu
          exact hu.2
      · rw [Bool.not_eq_true] at hu
        simp [hu] at he
theorem bookmarksOfList_parent (parent : Option Nat) :
    ∀ (cs : List BookmarkNode) (next : Nat), ∀ e ∈ bookmarksOfList parent next cs,
      e.url ≠ "" ∧ (e.parent = parent ∨ ∃ id, next ≤ id ∧ e.parent = some id)
  | [], next => by simp [bookmarksOfList]
  | n :: ns, next => by
    unfold bookmarksOfList
    intro e he
    rcases List.mem_append.1 he with he | he
    · exact bookmarksOfNode_parent parent n next e he
    · obtain ⟨h1, h2⟩ := bookmarksOfList_parent parent ns _ e he
      refine ⟨h1, ?_⟩
      rcases h2 with h2 | ⟨id, hid, h2⟩
      · exact Or.inl h2
      · exact Or.inr ⟨id, by omega, h2⟩
end

theorem parseBrowserBookmarks_eq (parseUrl : String → Option ParsedUrl)
    (children : Option (List BookmarkNode)) :
    parseBrowserBookmarks parseUrl children =
      (⟨10000, some "待分类", some "📌", none, some 9999⟩ ::
          ((foldersOfList none 10001 (children.getD [])).enumFrom 1).map
            (fun p => folderCategory p.1 p.2),
        ((bookmarksOfList none 10001 (children.getD [])).enumFrom 0).map
          (fun p => bookmarkLink parseUrl 10000 p.1 p.2)) := by
  unfold parseBrowserBookmarks
  cases children with
  | none => simp [foldersOfList, bookmarksOfList]
  | some cs =>
    simp only [Option.getD_some]
    rw [processBookmarkChildren_eq]
    simp

/-- C16: for every bookmark tree, the categories returned by `parseBrowserBookmarks` are the
synthesized `待分类` category followed by one category per folder found at any depth, in
document order: their number is one plus the number of folders; the category of a folder
carries the folder's name and, as `parent_id`, the id given to the category of the folder that
immediately encloses it, or null directly under the bookmark bar; the ids given to the folders
are 10001, 10002, ... in document order. -/
theorem parseBrowserBookmarks_categories (parseUrl : String → Option ParsedUrl)
    (children : Option (List BookmarkNode)) :
    (parseBrowserBookmarks parseUrl children).1 =
        ⟨10000, some "待分类", some "📌", none, some 9999⟩ ::
          ((foldersOfList none 10001 (children.getD [])).enumFrom 1).map
            (fun p => ⟨p.2.id, p.2.name, some "📁", p.2.parent, some (p.1 : Int)⟩) ∧
      (parseBrowserBookmarks parseUrl children).1.length =
        1 + folderCountList (children.getD []) ∧
      (foldersOfList none 10001 (children.getD [])).map (·.id) =
        List.range' 10001 (folderCountList (children.getD [])) := by
  rw [parseBrowserBookmarks_eq]
  refine ⟨rfl, ?_, foldersOfList_ids none _ 10001⟩
  simp [foldersOfList_length, Nat.add_comm]

/-- C17: for every bookmark tree, the links returned by `parseBrowserBookmarks` are one link
per node of type `url` with a non-empty url, in document order, numbered from 1; their number
is the number of such nodes (nodes of another kind yield none); the link of a bookmark has the
bookmark's url and, as `category_id`, the id given to the category of the folder that
immediately encloses it, or 10000, the id of the `待分类` category, outside any folder. -/
theorem parseBrowserBookmarks_links (parseUrl : String → Option ParsedUrl)
    (children : Option (List BookmarkNode)) :
    (parseBrowserBookmarks parseUrl children).2 =
        ((bookmarksOfList none 10001 (children.getD [])).enumFrom 0).map
          (fun p => bookmarkLink parseUrl 10000 p.1 p.2) ∧
      (parseBrowserBookmarks parseUrl children).2.length =
        bookmarkCountList (children.getD []) ∧
      ∀ e ∈ bookmarksOfList none 10001 (children.getD []), ∀ k,
        e.url ≠ "" ∧
        (bookmarkLink parseUrl 10000 k e).url = some e.url ∧
        (bookmarkLink parseUrl 10000 k e).id = some (k + 1) ∧
        (bookmarkLink parseUrl 10000 k e).category_id =
          some (match e.parent with
            | some id => id
            | none => 10000) := by
  rw [parseBrowserBookmarks_eq]
  refine ⟨rfl, ?_, ?_⟩
  · simp [bookmarksOfList_length]
  · intro e he k
    obtain ⟨h1, h2⟩ := bookmarksOfList_parent none _ 10001 e he
    refine ⟨h1, rfl, rfl, ?_⟩
    rcases h2 with h2 | ⟨id, hid, h2⟩
    · simp [bookmarkLink, h2, truthyNat]
    · have : id ≠ 0 := by omega
      simp [bookmarkLink, h2, truthyNat, this]

/-- Witness for C16: `exampleTree` has the folder `F` and, inside it, the folder `G`. -/
theorem parseBrowserBookmarks_categories_witness :
    (parseBrowserBookmarks noUrl (some exampleTree)).1 =
        [⟨10000, some "待分类", some "📌", none, some 9999⟩,
          ⟨10001, some "F", some "📁", none, some 1⟩,
          ⟨10002, some "G", some "📁", some 10001, some 2⟩] ∧
      (parseBrowserBookmarks noUrl (some exampleTree)).1.length =
        1 + folderCountList ((some exampleTree).getD []) :=
  ⟨(parseBrowserBookmarks_categories noUrl (some exampleTree)).1.trans (by decide),
    (parseBrowserBookmarks_categories noUrl (some exampleTree)).2.1⟩

/-- Witness for C17: `exampleTree` has a bookmark in `F`, one in `G` and one outside any
folder; the separator and the bookmark with an empty url yield no link. -/
theorem parseBrowserBookmarks_links_witness :
    (parseBrowserBookmarks noUrl (some exampleTree)).2.map
        (fun l => (l.id, l.url, l.category_id)) =
      [(some 1, some "https://one.com", some 10001), (some 2, some "https://two.com", some 10002),
        (some 3, some "https://top.com", some 10000)] ∧
      (bookmarkLink noUrl 10000 1 ⟨"https://two.com", none, some 10002⟩).category_id =
        some 10002 :=
  ⟨by decide,
    ((parseBrowserBookmarks_links noUrl (some exampleTree)).2.2
      ⟨"https://two.com", none, some 10002⟩ (by decide) 1).2.2.2⟩

/-! ### Moving a link -/

/-- Counterexample for C21: no category of `abcStore` has id 99, yet moving link 1 to category
99 succeeds, and link 1 then carries `category_id = 99`. -/
theorem moveLink_missing_category :
    (∀ c ∈ abcStore.categories, c.id ≠ 99) ∧
      ∃ d', moveLink abcStore 1 ⟨some (some 99), none⟩ = .ok d' ∧
        d'.links.map (fun l => (l.id, l.category_id)) =
          [(1, some 99), (2, some 1), (3, some 1), (4, some 2)] :=
  ⟨by decide, _, rfl, by decide⟩

/-- C21 (amended): the move route never looks at the categories. For every store, link id,
target category id (existing or not) and optional `sort_order`, the move succeeds, every link
of that id then carries the target as `category_id`, and the categories and all other links
are as before; the only request that is rejected is the one that supplies neither field. -/
theorem moveLink_target_unchecked (d : Data) (linkId : Nat) (c : Option Nat) (s : Option Int) :
    (∃ d', moveLink d linkId ⟨some c, s⟩ = .ok d' ∧
        d'.categories = d.categories ∧
        d'.links = d.links.map (fun l =>
          if l.id = linkId then { l with category_id := c, sort_order := s.getD l.sort_order }
          else l)) ∧
      moveLink d linkId ⟨none, none⟩ = .error .badRequest :=
  ⟨⟨_, rfl, rfl, rfl⟩, rfl⟩

/-- C22: a cross-category move of link `L` to category `c` with `sort_order` `s` succeeds and
changes only `L`. The row of `L` becomes `L` with `category_id = c` and `sort_order = s` (all
its other fields as before), every other link is the same row as before, at the same place,
and categories and menu links are untouched. The request that `handleDrop` sends for a drop on
a link `T` of another category is this move with `c` and `s` taken from `T`, and nothing
else. -/
theorem moveLink_changes_only_target (d : Data) (L : Link) (c : Option Nat) (s : Int)
    (hnd : (d.links.map (·.id)).Nodup) (hL : L ∈ d.links) :
    (∃ d', moveLink d L.id ⟨some c, some s⟩ = .ok d' ∧
        d'.links = d.links.map (fun l =>
          if l = L then { L with category_id := c, sort_order := s } else l) ∧
        ({ L with category_id := c, sort_order := s } : Link) ∈ d'.links ∧
        (∀ l ∈ d.links, l ≠ L → l ∈ d'.links) ∧
        d'.links.length = d.links.length ∧
        d'.categories = d.categories ∧ d'.menu_links = d.menu_links) ∧
      ∀ (links : List Link) (T : Link), L.id ≠ T.id → L.category_id ≠ T.category_id →
        handleDrop links L L.id T = [⟨L.id, ⟨some T.category_id, some T.sort_order⟩⟩] := by
  have hmap : d.links.map (fun l =>
      if l.id = L.id then
        { l with category_id := (some c : Option (Option Nat)).getD l.category_id,
                 sort_order := (some s : Option Int).getD l.sort_order }
      else l) =
      d.links.map (fun l => if l = L then { L with category_id := c, sort_order := s } else l) := by
    apply List.map_congr_left
    intro l hl
    by_cases h : l = L
    · subst h; simp
    · have hid : l.id ≠ L.id := fun e => h (eq_of_mem_links_of_id_eq hnd hl hL e)
      simp [h, hid]
  refine ⟨⟨{ d with links := d.links.map (fun l =>
      if l = L then { L with category_id := c, sort_order := s } else l) }, ?_, rfl, ?_, ?_, ?_,
      rfl, rfl⟩, ?_⟩
  · simp only [moveLink, Option.isNone_some, Bool.and_self, Bool.false_eq_true, if_false]
    rw [hmap]
  · exact List.mem_map.2 ⟨L, hL, by simp⟩
  · intro l hl hne
    exact List.mem_map.2 ⟨l, hl, by simp [hne]⟩
  · simp
  · intro links T hid hcat
    simp [handleDrop, hid, hcat]

/-- Witness for C22 in `abcStore`: link `A` moved to category 2 with `sort_order` 5. -/
theorem moveLink_changes_only_target_witness :
    (∃ d', moveLink abcStore linkA.id ⟨some (some 2), some 5⟩ = .ok d' ∧
        d'.links = abcStore.links.map (fun l =>
          if l = linkA then { linkA with category_id := some 2, sort_order := 5 } else l) ∧
        ({ linkA with category_id := some 2, sort_order := 5 } : Link) ∈ d'.links ∧
        (∀ l ∈ abcStore.links, l ≠ linkA → l ∈ d'.links) ∧
        d'.links.length = abcStore.links.length ∧
        d'.categories = abcStore.categories ∧ d'.menu_links = abcStore.menu_links) ∧
      ∀ (links : List Link) (T : Link), linkA.id ≠ T.id → linkA.category_id ≠ T.category_id →
        handleDrop links linkA linkA.id T =
          [⟨linkA.id, ⟨some T.category_id, some T.sort_order⟩⟩] :=
  moveLink_changes_only_target abcStore linkA (some 2) 5 (by decide) (by decide)

/-! ### The writes of a reorder -/

/-- Counterexample for C23: dropping `C` on `B` in `abcStore` yields the sequence `A, C, B`.
Link `A` already has `sort_order = 0`, its position in the new sequence, yet both handlers send
a write for it (request for link 1 with `sort_order` 0) along with the writes for `C` and
`B`. -/
theorem reorderRequests_writes_unchanged :
    handleDropSequence abcStore.links linkC linkB = some [linkA, linkC, linkB] ∧
      linkA ∈ abcStore.links ∧ linkA.sort_order = 0 ∧
      handleDrop abcStore.links linkC 3 linkB =
        [⟨1, ⟨none, some 0⟩⟩, ⟨3, ⟨none, some 1⟩⟩, ⟨2, ⟨none, some 2⟩⟩] ∧
      handleDragEnd abcStore.links 3 2 =
        [⟨1, ⟨none, some 0⟩⟩, ⟨3, ⟨none, some 1⟩⟩, ⟨2, ⟨none, some 2⟩⟩] := by
  decide

/-- C23 (amended): a reorder writes every entity of the sequence, changed or not. The
write-set has one write per entity of the sequence, the write at position `i` is for the
entity at position `i` and sets its `sort_order` to `i` (and nothing else), and an empty
sequence yields an empty write-set. A write for an entity whose `sort_order` already is its
position is sent all the same and leaves the store as it is. -/
theorem reorderRequests_writes_all (d : Data) (seq : List Link) (i : Nat) (l : Link)
    (hi : seq[i]? = some l) :
    (reorderRequests seq).length = seq.length ∧
      (reorderRequests seq)[i]? = some ⟨l.id, ⟨none, some (i : Int)⟩⟩ ∧
      reorderRequests [] = [] ∧
      ((∀ x ∈ d.links, x.id = l.id → x.sort_order = (i : Int)) →
        applyRequests d [⟨l.id, ⟨none, some (i : Int)⟩⟩] = d) := by
  refine ⟨by simp [reorderRequests], ?_, rfl, ?_⟩
  · simp [reorderRequests, List.getElem?_map, List.getElem?_enum, hi]
  · intro h
    have hmap : d.links.map (fun x =>
        if x.id = l.id then
          { x with category_id := (none : Option (Option Nat)).getD x.category_id,
                   sort_order := (some (i : Int) : Option Int).getD x.sort_order }
        else x) = d.links := by
      conv_rhs => rw [← List.map_id d.links]
      apply List.map_congr_left
      intro x hx
      by_cases hid : x.id = l.id
      · have hs := h x hx hid
        cases x
        simp only at hs hid
        simp [hid, hs]
      · simp [hid]
    simp only [applyRequests, List.foldl_cons, List.foldl_nil, moveLink, Option.isNone_none,
      Option.isNone_some, Bool.and_false, Bool.false_eq_true, if_false]
    rw [hmap]

/-- Witness for C23 (amended): the sequence `A, C, B` in `abcStore`, position 0. -/
theorem reorderRequests_writes_all_witness :
    (reorderRequests [linkA, linkC, linkB]).length = 3 ∧
      (reorderRequests [linkA, linkC, linkB])[0]? = some ⟨1, ⟨none, some 0⟩⟩ ∧
      applyRequests abcStore [⟨1, ⟨none, some 0⟩⟩] = abcStore :=
  ⟨(reorderRequests_writes_all abcStore [linkA, linkC, linkB] 0 linkA rfl).1,
   (reorderRequests_writes_all abcStore [linkA, linkC, linkB] 0 linkA rfl).2.1,
   (reorderRequests_writes_all abcStore [linkA, linkC, linkB] 0 linkA rfl).2.2.2 (by decide)⟩

/-! ### The `sort_order` of a new category and of a new menu entry -/

/-- Counterexample for C24: the add-category form creates a top-level category in
`denseStore`, whose top-level group holds `sort_order` 0, 1, 2. The create succeeds and the new
category gets `sort_order` 0, which is below the 2 of the existing top-level category 4. -/
theorem createCategory_not_at_end :
    ∃ r, createCategory denseStore (handleAddCategory "New" "" none) = .ok r ∧
      r.2.parent_id = none ∧ r.2.sort_order = 0 ∧
      ∃ c ∈ denseStore.categories, c.parent_id = r.2.parent_id ∧ r.2.sort_order < c.sort_order :=
  ⟨_, rfl, rfl, rfl, ⟨4, some "Play", none, 2, none⟩, by decide, rfl, by decide⟩

/-- C24 (amended): a successful create appends the new category at the end of the table, with
a fresh id and the name, icon and parent of the request; its `sort_order` is the one the
request supplies and 0 when it supplies none. The add-category form supplies none, so a
category created through it has `sort_order` 0 whatever its sibling group holds. -/
theorem createCategory_sort_order (d : Data) (b : CategoryBody) (r : Data × Category)
    (h : createCategory d b = .ok r) :
    r.1.categories = d.categories ++ [r.2] ∧
      (∀ c ∈ d.categories, c.id < r.2.id) ∧
      r.2.name = b.name ∧ r.2.icon = b.icon ∧ r.2.parent_id = b.parent_id ∧
      r.2.sort_order = b.sort_order.getD 0 ∧
      (∀ name icon parent_id, b = handleAddCategory name icon parent_id → r.2.sort_order = 0) := by
  unfold createCategory at h
  split at h
  · cases h
  · simp only [Except.ok.injEq] at h
    subst h
    refine ⟨rfl, ?_, rfl, rfl, rfl, rfl, ?_⟩
    · intro c hc
      exact lt_nextId d.catSeq _ c.id (List.mem_map.2 ⟨c, hc, rfl⟩)
    · intro name icon parent_id hb
      subst hb
      rfl

/-- Witness for C24 (amended): the add-category form on `denseStore`. -/
theorem createCategory_sort_order_witness :
    ∃ r, createCategory denseStore (handleAddCategory "New" "" none) = .ok r ∧
      r.1.categories = denseStore.categories ++ [r.2] ∧ r.2.sort_order = 0 :=
  ⟨_, rfl, (createCategory_sort_order denseStore (handleAddCategory "New" "" none) _ rfl).1,
    (createCategory_sort_order denseStore (handleAddCategory "New" "" none) _ rfl).2.2.2.2.2.2
      "New" "" none rfl⟩

theorem foldl_max_mem (xs : List Int) :
    ∀ x : Int, xs.foldl max x ∈ x :: xs ∧ ∀ y ∈ x :: xs, y ≤ xs.foldl max x := by
  induction xs with
  | nil => intro x; simp
  | cons a as ih =>
    intro x
    rw [List.foldl_cons]
    obtain ⟨h1, h2⟩ := ih (max x a)
    constructor
    · rcases List.mem_cons.1 h1 with h | h
      · rw [h]
        rcases max_choice x a with hm | hm
        · rw [hm]; simp
        · rw [hm]; simp
      · exact List.mem_cons_of_mem _ (List.mem_cons_of_mem _ h)
    · intro y hy
      rcases List.mem_cons.1 hy with rfl | hy
      · exact le_trans (le_max_left _ _) (h2 _ (List.mem_cons_self _ _))
      · rcases List.mem_cons.1 hy with rfl | hy
        · exact le_trans (le_max_right _ _) (h2 _ (List.mem_cons_self _ _))
        · exact h2 _ (List.mem_cons_of_mem _ hy)

/-- C25: for a newly added menu entry (`editMenuLink` is `null`) the `sort_order` that
`handleSaveMenuLink` computes is 0 when there are no entries, and otherwise one more than the
greatest `sort_order` of the existing entries; in both cases it is strictly greater than the
`sort_order` of every existing entry. -/
theorem handleSaveMenuLink_sort_order (menuLinks : List MenuLink) (title url icon : String) :
    (menuLinks = [] → (handleSaveMenuLink none menuLinks title url icon).sort_order = 0) ∧
      (menuLinks ≠ [] → ∃ m ∈ menuLinks,
        (handleSaveMenuLink none menuLinks title url icon).sort_order = m.sort_order + 1 ∧
        ∀ l ∈ menuLinks, l.sort_order ≤ m.sort_order) ∧
      ∀ l ∈ menuLinks,
        l.sort_order < (handleSaveMenuLink none menuLinks title url icon).sort_order := by
  cases menuLinks with
  | nil => exact ⟨fun _ => rfl, fun h => absurd rfl h, by simp⟩
  | cons m0 ms =>
    obtain ⟨h1, h2⟩ := foldl_max_mem (ms.map (fun l => l.sort_order)) m0.sort_order
    have hs : (handleSaveMenuLink none (m0 :: ms) title url icon).sort_order =
        (ms.map (fun l => l.sort_order)).foldl max m0.sort_order + 1 := rfl
    have hle : ∀ l ∈ m0 :: ms,
        l.sort_order ≤ (ms.map (fun l => l.sort_order)).foldl max m0.sort_order := by
      intro l hl
      apply h2
      rw [← List.map_cons (fun l : MenuLink => l.sort_order)]
      exact List.mem_map.2 ⟨l, hl, rfl⟩
    refine ⟨fun h => (by cases h), fun _ => ?_, ?_⟩
    · rw [← List.map_cons (fun l : MenuLink => l.sort_order)] at h1
      obtain ⟨m, hm, hmv⟩ := List.mem_map.1 h1
      refine ⟨m, hm, ?_, ?_⟩
      · rw [hs, hmv]
      · intro l hl
        rw [hmv]
        exact hle l hl
    · intro l hl
      rw [hs]
      exact Int.lt_add_one_iff.2 (hle l hl)

/-- Witness for C25: an entry added to the one entry of `menuStore`, whose `sort_order` is 0,
gets that `sort_order` plus one. -/
theorem handleSaveMenuLink_sort_order_witness :
    ∃ m ∈ menuStore.menu_links,
      (handleSaveMenuLink none menuStore.menu_links "New" "https://n.com" "").sort_order =
        m.sort_order + 1 ∧
      ∀ l ∈ menuStore.menu_links, l.sort_order ≤ m.sort_order :=
  (handleSaveMenuLink_sort_order menuStore.menu_links "New" "https://n.com" "").2.1 (by decide)

/-! ### The bookmark parser: well-formed output -/

mutual
theorem foldersOfNode_parent (parent : Option Nat) :
    ∀ (n : BookmarkNode) (next : Nat), ∀ e ∈ foldersOfNode parent next n,
      next ≤ e.id ∧ (e.parent = parent ∨ ∃ q, e.parent = some q ∧ next ≤ q ∧ q < e.id)
  | .mk type name url children, next => by
    unfold foldersOfNode
    intro e he
    by_cases hf : (type == some "folder") = true
    · simp only [hf, if_true, List.mem_cons] at he
      rcases he with rfl | he
      · exact ⟨Nat.le_refl _, Or.inl rfl⟩
      · cases children with
        | none => simp at he
        | some cs =>
          obtain ⟨h1, h2⟩ := foldersOfList_parent (some next) cs (next + 1) e he
          refine ⟨by omega, Or.inr ?_⟩
          rcases h2 with h2 | ⟨q, hq, h3, h4⟩
          · exact ⟨next, h2, Nat.le_refl _, by omega⟩
          · exact ⟨q, hq, by omega, h4⟩
    · rw [Bool.not_eq_true] at hf
      simp [hf] at he
theorem foldersOfList_parent (parent : Option Nat) :
    ∀ (cs : List BookmarkNode) (next : Nat), ∀ e ∈ foldersOfList parent next cs,
      next ≤ e.id ∧ (e.parent = parent ∨ ∃ q, e.parent = some q ∧ next ≤ q ∧ q < e.id)
  | [], next => by simp [foldersOfList]
  | n :: ns, next => by
    unfold foldersOfList
    intro e he
    rcases List.mem_append.1 he with he | he
    · exact foldersOfNode_parent parent n next e he
    · obtain ⟨h1, h2⟩ := foldersOfList_parent parent ns _ e he
      refine ⟨by omega, ?_⟩
      rcases h2 with h2 | ⟨q, hq, h3, h4⟩
      · exact Or.inl h2
      · exact Or.inr ⟨q, hq, by omega, h4⟩
end

mutual
theorem bookmarksOfNode_parent_lt (parent : Option Nat) :
    ∀ (n : BookmarkNode) (next : Nat), ∀ e ∈ bookmarksOfNode parent next n,
      e.parent = parent ∨ ∃ id, next ≤ id ∧ id < next + folderCountNode n ∧ e.parent = some id
  | .mk type name url children, next => by
    unfold bookmarksOfNode folderCountNode
    intro e he
    by_cases hf : (type == some "folder") = true
    · simp only [hf, if_true] at he ⊢
      cases children with
      | none => simp at he
      | some cs =>
        right
        rcases bookmarksOfList_parent_lt (some next) cs (next + 1) e he with h2 | ⟨id, h1, h2, h3⟩
        · exact ⟨next, Nat.le_refl _, by omega, h2⟩
        · exact ⟨id, by omega, by simp only; omega, h3⟩
    · rw [Bool.not_eq_true] at hf
      simp only [hf, Bool.false_eq_true, if_false] at he
      by_cases hu : (type == some "url" && truthyStr url) = true
      · simp only [hu, if_true, List.mem_singleton] at he
        subst he
        exact Or.inl rfl
      · rw [Bool.not_eq_true] at hu
        simp [hu] at he
theorem bookmarksOfList_parent_lt (parent : Option Nat) :
    ∀ (cs : List BookmarkNode) (next : Nat), ∀ e ∈ bookmarksOfList parent next cs,
      e.parent = parent ∨ ∃ id, next ≤ id ∧ id < next + folderCountList cs ∧ e.parent = some id
  | [], next => by simp [bookmarksOfList]
  | n :: ns, next => by
    unfold bookmarksOfList folderCountList
    intro e he
    have hlen : (foldersOfNode parent next n).length = folderCountNode n := by
      have := congrArg List.length (foldersOfNode_ids parent n next)
      simpa using this
    rcases List.mem_append.1 he with he | he
    · rcases bookmarksOfNode_parent_lt parent n next e he with h2 | ⟨id, h1, h2, h3⟩
      · exact Or.inl h2
      · exact Or.inr ⟨id, h1, by omega, h3⟩
    · rw [hlen] at he
      rcases bookmarksOfList_parent_lt parent ns _ e he with h2 | ⟨id, h1, h2, h3⟩
      · exact Or.inl h2
      · exact Or.inr ⟨id, by omega, by omega, h3⟩
end

theorem parseBrowserBookmarks_ids (parseUrl : String → Option ParsedUrl)
    (children : Option (List BookmarkNode)) :
    (parseBrowserBookmarks parseUrl children).1.map (·.id) =
      List.range' 10000 (parseBrowserBookmarks parseUrl children).1.length := by
  rw [parseBrowserBookmarks_eq]
  have h := foldersOfList_ids none (children.getD []) 10001
  have hmap : (((foldersOfList none 10001 (children.getD [])).enumFrom 1).map
      (fun p => folderCategory p.1 p.2)).map (·.id) =
        (foldersOfList none 10001 (children.getD [])).map (·.id) := by
    rw [List.map_map]
    have : ((fun c : CategoryDoc => c.id) ∘ fun p : Nat × FolderEntry => folderCategory p.1 p.2) =
        (fun e : FolderEntry => e.id) ∘ Prod.snd := by
      funext p; rfl
    rw [this, ← List.map_map, List.enumFrom_map_snd]
  simp only [List.map_cons, List.length_cons, List.length_map, List.enumFrom_length]
  rw [hmap, h, foldersOfList_length, List.range'_succ]

theorem parseBrowserBookmarks_parent_bound (parseUrl : String → Option ParsedUrl)
    (children : Option (List BookmarkNode)) :
    ∀ c ∈ (parseBrowserBookmarks parseUrl children).1, ∀ p, c.parent_id = some p →
      10000 ≤ p ∧ p < c.id := by
  rw [parseBrowserBookmarks_eq]
  intro c hc p hp
  rcases List.mem_cons.1 hc with rfl | hc
  · simp at hp
  · obtain ⟨⟨k, e⟩, hke, rfl⟩ := List.mem_map.1 hc
    have he : e ∈ foldersOfList none 10001 (children.getD []) := by
      have := List.mem_map_of_mem Prod.snd hke
      rwa [List.enumFrom_map_snd] at this
    obtain ⟨h1, h2⟩ := foldersOfList_parent none _ 10001 e he
    simp only [folderCategory] at hp ⊢
    rcases h2 with h2 | ⟨q, hq, h3, h4⟩
    · rw [h2] at hp; cases hp
    · rw [hq] at hp
      cases hp
      exact ⟨by omega, h4⟩

theorem parseBrowserBookmarks_id_at (parseUrl : String → Option ParsedUrl)
    (children : Option (List BookmarkNode)) (j : Nat) (c : CategoryDoc)
    (hj : (parseBrowserBookmarks parseUrl children).1[j]? = some c) : c.id = 10000 + j := by
  have hlt : j < (parseBrowserBookmarks parseUrl children).1.length := by
    by_contra hge
    rw [List.getElem?_eq_none (Nat.le_of_not_lt hge)] at hj
    cases hj
  have h := congrArg (fun l => l[j]?) (parseBrowserBookmarks_ids parseUrl children)
  simp only [List.getElem?_map, hj, Option.map_some', List.getElem?_range' _ _ hlt] at h
  simpa using h

/-- C28: the output of `parseBrowserBookmarks` is well formed for every input tree. The ids of
the categories are 10000, 10001, ... in list order, hence pairwise distinct; every non-null
`parent_id` is the id of a category at an earlier position of the categories list; the ids of
the links are 1, 2, ..., n in list order; and the `category_id` of every link is the id of a
category of the returned categories list. -/
theorem parseBrowserBookmarks_well_formed (parseUrl : String → Option ParsedUrl)
    (children : Option (List BookmarkNode)) :
    (parseBrowserBookmarks parseUrl children).1.map (·.id) =
        List.range' 10000 (parseBrowserBookmarks parseUrl children).1.length ∧
      ((parseBrowserBookmarks parseUrl children).1.map (·.id)).Nodup ∧
      (∀ (i : Nat) (c : CategoryDoc) (p : Nat),
        (parseBrowserBookmarks parseUrl children).1[i]? = some c ∧ c.parent_id = some p →
        ∃ j c', j < i ∧ (parseBrowserBookmarks parseUrl children).1[j]? = some c' ∧ c'.id = p) ∧
      (parseBrowserBookmarks parseUrl children).2.map (·.id) =
        (List.range' 1 (parseBrowserBookmarks parseUrl children).2.length).map some ∧
      ∀ l ∈ (parseBrowserBookmarks parseUrl children).2,
        ∃ c ∈ (parseBrowserBookmarks parseUrl children).1, l.category_id = some c.id := by
  have hids := parseBrowserBookmarks_ids parseUrl children
  have hlen : (parseBrowserBookmarks parseUrl children).1.length =
      folderCountList (children.getD []) + 1 := by
    rw [parseBrowserBookmarks_eq]
    simp [foldersOfList_length]
  refine ⟨hids, ?_, ?_, ?_, ?_⟩
  · rw [hids]
    exact List.nodup_range' _ _
  · rintro i c p ⟨hi, hp⟩
    have hci := parseBrowserBookmarks_id_at parseUrl children i c hi
    obtain ⟨h1, h2⟩ := parseBrowserBookmarks_parent_bound parseUrl children c
      (List.mem_iff_getElem?.2 ⟨i, hi⟩) p hp
    have hilt : i < (parseBrowserBookmarks parseUrl children).1.length := by
      by_contra hge
      rw [List.getElem?_eq_none (Nat.le_of_not_lt hge)] at hi
      cases hi
    have hjlt : p - 10000 < (parseBrowserBookmarks parseUrl children).1.length := by omega
    refine ⟨p - 10000, (parseBrowserBookmarks parseUrl children).1[p - 10000], by omega,
      List.getElem?_eq_getElem hjlt, ?_⟩
    have := parseBrowserBookmarks_id_at parseUrl children (p - 10000) _
      (List.getElem?_eq_getElem hjlt)
    omega
  · rw [parseBrowserBookmarks_eq]
    simp only [List.map_map, List.length_map, List.enumFrom_length]
    have : ((fun l : LinkDoc => l.id) ∘
        fun p : Nat × BookmarkEntry => bookmarkLink parseUrl 10000 p.1 p.2) =
        (fun k : Nat => some (k + 1)) ∘ Prod.fst := by
      funext p; rfl
    rw [this, ← List.map_map, List.enumFrom_map_fst]
    apply List.ext_getElem?
    intro k
    by_cases hk : k < (bookmarksOfList none 10001 (children.getD [])).length
    · simp [List.getElem?_range', hk, Nat.add_comm]
    · have hk' : (bookmarksOfList none 10001 (children.getD [])).length ≤ k :=
        Nat.le_of_not_lt hk
      rw [List.getElem?_eq_none (by simpa using hk'), List.getElem?_eq_none (by simpa using hk')]
  · intro l hl
    have hl' := hl
    rw [parseBrowserBookmarks_eq] at hl'
    obtain ⟨⟨k, e⟩, hke, rfl⟩ := List.mem_map.1 hl'
    have he : e ∈ bookmarksOfList none 10001 (children.getD []) := by
      have := List.mem_map_of_mem Prod.snd hke
      rwa [List.enumFrom_map_snd] at this
    rcases bookmarksOfList_parent_lt none _ 10001 e he with h2 | ⟨id, h1, h2, h3⟩
    · refine ⟨⟨10000, some "待分类", some "📌", none, some 9999⟩, ?_, ?_⟩
      · rw [parseBrowserBookmarks_eq]
        exact List.mem_cons_self _ _
      · simp [bookmarkLink, h2, truthyNat]
    · have hmem : id ∈ (parseBrowserBookmarks parseUrl children).1.map (·.id) := by
        rw [hids, hlen, List.mem_range']
        exact ⟨id - 10000, by omega, by omega⟩
      obtain ⟨c, hc, hcid⟩ := List.mem_map.1 hmem
      refine ⟨c, hc, ?_⟩
      have : id ≠ 0 := by omega
      simp [bookmarkLink, h3, truthyNat, this, hcid]

/-- Witness for C28: in the output for `exampleTree` the category at position 2 (folder `G`,
id 10002) has `parent_id` 10001, the id of the category at position 1 (folder `F`). -/
theorem parseBrowserBookmarks_well_formed_witness :
    ∃ j c', j < 2 ∧ (parseBrowserBookmarks noUrl (some exampleTree)).1[j]? = some c' ∧
      c'.id = 10001 :=
  (parseBrowserBookmarks_well_formed noUrl (some exampleTree)).2.2.1 2
    ⟨10002, some "G", some "📁", some 10001, some 2⟩ 10001 ⟨by decide, rfl⟩

/-! ### Import: no category becomes its own parent -/

theorem parentUpdate_some (m : CategoryMap) (cat : CategoryDoc) (mp mc : Nat)
    (h : parentUpdate m cat = some (mp, mc)) :
    ∃ pid, cat.parent_id = some pid ∧ m.lookup pid = some mp ∧ m.lookup cat.id = some mc := by
  unfold parentUpdate at h
  cases hp : cat.parent_id with
  | none => simp [hp, truthyNat] at h
  | some pid =>
    refine ⟨pid, rfl, ?_⟩
    simp only [hp, Option.getD_some] at h
    cases h1 : m.lookup pid with
    | none => simp [h1, truthyNat] at h
    | some vp =>
      cases h2 : m.lookup cat.id with
      | none => simp [h1, h2, truthyNat] at h
      | some vc =>
        simp only [h1, h2, Option.getD_some] at h
        split at h
        · split at h
          · simp only [Option.some.injEq, Prod.mk.injEq] at h
            rw [h.1, h.2]
            exact ⟨rfl, rfl⟩
          · cases h
        · cases h

/-- A run of step 2 whose updates never pair a row with itself keeps rows from being their own
parent. -/
theorem applyParents_not_self (m : CategoryMap) :
    ∀ (cats : List CategoryDoc) (r : Category),
      (∀ cat ∈ cats, ∀ mp mc, parentUpdate m cat = some (mp, mc) → mp ≠ mc) →
      r.parent_id ≠ some r.id → (applyParents m cats r).parent_id ≠ some r.id
  | [], _, _, hr => hr
  | cat :: cats, r, h, hr => by
    rw [applyParents]
    have hset : (setParent m cat r).parent_id ≠ some (setParent m cat r).id := by
      rw [setParent_id]
      unfold setParent
      cases hp : parentUpdate m cat with
      | none => exact hr
      | some pr =>
        obtain ⟨mp, mc⟩ := pr
        simp only
        by_cases hid : r.id = mc
        · simp only [hid, if_true]
          intro heq
          exact h cat (List.mem_cons_self _ _) mp mc hp (Option.some.inj heq)
        · simp only [hid, if_false]
          exact hr
    have := applyParents_not_self m cats (setParent m cat r)
      (fun c hc => h c (List.mem_cons_of_mem _ hc)) hset
    rwa [setParent_id] at this

/-- Counterexample for C29: no category of `exampleStore` is its own parent. In `sameNameDoc`
the child and the parent it declares carry the same new name `X`; in `storeNameDoc` they carry
the name `Tools` of a category of the store. Both imports succeed, and afterwards the category
`X` (id 2), respectively `Tools` (id 1), has its own id as `parent_id`. -/
theorem import_makes_self_parent :
    (∀ c ∈ exampleStore.categories, c.parent_id ≠ some c.id) ∧
      (importData noUrl "now" none ⟨exampleStore, none⟩ sameNameDoc).2 = .success ⟨2, 0, 0⟩ ∧
      (importData noUrl "now" none ⟨exampleStore, none⟩ sameNameDoc).1.data.categories =
        [⟨1, some "Tools", none, 0, none⟩, ⟨2, some "X", some "", 0, some 2⟩] ∧
      (importData noUrl "now" none ⟨exampleStore, none⟩ storeNameDoc).2 = .success ⟨2, 0, 0⟩ ∧
      (importData noUrl "now" none ⟨exampleStore, none⟩ storeNameDoc).1.data.categories =
        [⟨1, some "Tools", none, 0, some 1⟩] := by
  decide

/-- C29 (amended): the store has distinct category ids and no category that is its own parent;
the categories of the document have pairwise distinct ids, and none of them carries the same
name as the category of the document whose id it declares as `parent_id` (in particular none
declares itself). Then after a successful run of the merge no category has `parent_id` equal
to its own id. -/
theorem importData_no_self_parent (parseUrl : String → Option ParsedUrl) (now : String)
    (failAt : Option Nat) (db db' : Db) (data : ImportDoc) (stats : ImportStats)
    (cats : List CategoryDoc) (links : List LinkDoc) (ms : List MenuLinkDoc)
    (hdet : detectFormat parseUrl data = some (cats, links, ms))
    (hids : (db.data.categories.map (·.id)).Nodup)
    (hself : ∀ r ∈ db.data.categories, r.parent_id ≠ some r.id)
    (hdocids : (cats.map (·.id)).Nodup)
    (hnames : ∀ c ∈ cats, ∀ p ∈ cats, c.parent_id = some p.id → c.name ≠ p.name)
    (h : importData parseUrl now failAt db data = (db', .success stats)) :
    ∀ r ∈ db'.data.categories, r.parent_id ≠ some r.id := by
  obtain ⟨cats', links', ms', hdet', hdb, _⟩ := importData_of_success _ _ _ _ _ _ _ h
  rw [hdet] at hdet'
  simp only [Option.some.injEq, Prod.mk.injEq] at hdet'
  obtain ⟨rfl, rfl, rfl⟩ := hdet'
  have P := passOne_foldl db.data cats
  generalize hst : cats.foldl importCategory (db.data, []) = st at P
  have hcats : db'.data.categories = st.1.categories.map (applyParents st.2 cats) := by
    rw [hdb]
    simp only
    rw [importBody_categories, hst, foldl_importParent_eq_map]
  have hids' := P.ids hids
  have hupd : ∀ cat ∈ cats, ∀ mp mc, parentUpdate st.2 cat = some (mp, mc) → mp ≠ mc := by
    intro cat hcat mp mc hu hmm
    obtain ⟨pid, hpid, hlp, hlc⟩ := parentUpdate_some st.2 cat mp mc hu
    obtain ⟨p, hp, hpk, rp, hrp, hrpid, hrpn⟩ :=
      P.entries pid mp (mem_of_lookup_eq_some st.2 pid mp hlp)
    obtain ⟨c, hc, hck, rc, hrc, hrcid, hrcn⟩ :=
      P.entries cat.id mc (mem_of_lookup_eq_some st.2 cat.id mc hlc)
    have hcc : c = cat := List.inj_on_of_nodup_map hdocids hc hcat hck
    subst hcc
    have hrr : rp = rc := eq_of_mem_of_id_eq hids' hrp hrc (by rw [hrpid, hrcid, hmm])
    apply hnames c hcat p hp (by rw [hpid, hpk])
    rw [← hrcn, ← hrpn, hrr]
  intro r hr
  rw [hcats] at hr
  obtain ⟨r0, hr0, rfl⟩ := List.mem_map.1 hr
  rw [applyParents_id]
  apply applyParents_not_self st.2 cats r0 hupd
  obtain ⟨new, hnew, hrows⟩ := P.appended
  rw [hnew, List.mem_append] at hr0
  rcases hr0 with hr0 | hr0
  · exact hself r0 hr0
  · rw [(hrows r0 hr0).1]
    exact fun hc => by cases hc

/-- Witness for C29 (amended): `remapDoc` into `exampleStore`; child and declared parent have
different names throughout, and the row of `Leaf` (id 2) gets the row of `Sub` (id 3) as
parent. -/
theorem importData_no_self_parent_witness :
    (⟨2, some "Leaf", some "", 0, some 3⟩ : Category) ∈
        (importData noUrl "now" none ⟨exampleStore, none⟩ remapDoc).1.data.categories ∧
      (⟨2, some "Leaf", some "", 0, some 3⟩ : Category).parent_id ≠ some 2 :=
  ⟨by decide,
    importData_no_self_parent noUrl "now" none ⟨exampleStore, none⟩ _ remapDoc _
      remapCats [] [] rfl (by decide) (by decide) (by decide) (by decide) rfl
      ⟨2, some "Leaf", some "", 0, some 3⟩ (by decide)⟩

/-! ### Import: the counters -/

theorem dedup_cons_length (u : String) (L : List String) :
    (u :: L).dedup.length = (L.filter (fun x => decide (x ≠ u))).dedup.length + 1 := by
  rw [← List.card_toFinset, ← List.card_toFinset, List.toFinset_cons, List.toFinset_filter]
  have h : insert u L.toFinset =
      insert u (L.toFinset.filter (fun x => decide (x ≠ u) = true)) := by
    ext x
    simp only [Finset.mem_insert, Finset.mem_filter, List.mem_toFinset, decide_eq_true_eq]
    tauto
  rw [h, Finset.card_insert_of_not_mem]
  simp

theorem absentUrls_step (now : String) (m : CategoryMap) (st : Data × LinkCounts) (y : LinkDoc)
    (ys : List LinkDoc) :
    absentUrls (importLink now m st y).1 ys =
      ((ys.filterMap (·.url)).filter fun u =>
        decide (linkUrlCount u st.1 = 0) && decide (y.url ≠ some u)).dedup := by
  unfold absentUrls
  congr 1
  apply List.filter_congr
  intro u _
  rw [importLink_urlCount now m u st y]
  by_cases h0 : linkUrlCount u st.1 = 0
  · by_cases hy : y.url = some u
    · simp [h0, hy]
    · simp [h0, hy]
  · simp [h0]

theorem importLink_counts (now : String) (m : CategoryMap) (st : Data × LinkCounts)
    (y : LinkDoc) :
    (findLinkByUrl st.1 y.url = none ∧
        (importLink now m st y).2 = { st.2 with addedCount := st.2.addedCount + 1 } ∧
        (importLink now m st y).1.links.length = st.1.links.length + 1) ∨
      (findLinkByUrl st.1 y.url ≠ none ∧
        (importLink now m st y).2 = { st.2 with mergedCount := st.2.mergedCount + 1 } ∧
        (importLink now m st y).1.links.length = st.1.links.length) := by
  cases hf : findLinkByUrl st.1 y.url with
  | none =>
    left
    obtain ⟨h1, h2⟩ := importLink_insert_row now m st y hf
    exact ⟨rfl, h2, by rw [h1]; simp⟩
  | some e =>
    right
    rw [importLink_merge_eq now m st y e hf]
    exact ⟨by simp, rfl, by simp⟩

theorem foldl_importLink_counts (now : String) (m : CategoryMap) :
    ∀ (ys : List LinkDoc) (st : Data × LinkCounts),
      (ys.foldl (importLink now m) st).2.addedCount +
          (ys.foldl (importLink now m) st).2.mergedCount =
        st.2.addedCount + st.2.mergedCount + ys.length ∧
      (ys.foldl (importLink now m) st).1.links.length + st.2.addedCount =
        st.1.links.length + (ys.foldl (importLink now m) st).2.addedCount ∧
      (ys.foldl (importLink now m) st).2.addedCount =
        st.2.addedCount + (absentUrls st.1 ys).length + (urllessLinks ys).length
  | [], st => by simp [absentUrls, urllessLinks]
  | y :: ys, st => by
    rw [List.foldl_cons]
    obtain ⟨h1, h2, h3⟩ := foldl_importLink_counts now m ys (importLink now m st y)
    rw [absentUrls_step] at h3
    rcases importLink_counts now m st y with ⟨hf, hc, hl⟩ | ⟨hf, hc, hl⟩
    · rw [hc] at h1 h2 h3
      rw [hl] at h2
      simp only at h1 h2 h3
      refine ⟨by rw [h1, List.length_cons]; omega, by omega, ?_⟩
      rw [h3]
      cases hy : y.url with
      | none =>
        have hab : absentUrls st.1 (y :: ys) =
            ((ys.filterMap (·.url)).filter fun u =>
              decide (linkUrlCount u st.1 = 0) && decide ((none : Option String) ≠ some u)).dedup := by
          unfold absentUrls
          rw [List.filterMap_cons, hy]
          congr 1
          apply List.filter_congr
          intro u _
          simp
        have hul : (urllessLinks (y :: ys)).length = (urllessLinks ys).length + 1 := by
          simp [urllessLinks, List.filter_cons, hy]
        rw [hab, hul]
        omega
      | some u =>
        have h0 : linkUrlCount u st.1 = 0 := by
          rw [hy] at hf
          exact (findLinkByUrl_eq_none_iff st.1 u).1 hf
        have hab : (absentUrls st.1 (y :: ys)).length =
            (((ys.filterMap (·.url)).filter fun v =>
              decide (linkUrlCount v st.1 = 0) && decide (some u ≠ some v)).dedup).length + 1 := by
          unfold absentUrls
          rw [List.filterMap_cons, hy]
          simp only [List.filter_cons, h0, decide_True, if_true]
          rw [dedup_cons_length, List.filter_filter]
          congr 3
          apply List.filter_congr
          intro v _
          by_cases hv : v = u
          · simp [hv]
          · have : u ≠ v := fun e => hv e.symm
            simp [hv, this]
        have hul : (urllessLinks (y :: ys)).length = (urllessLinks ys).length := by
          simp [urllessLinks, List.filter_cons, hy]
        rw [hab, hul]
        omega
    · rw [hc] at h1 h2 h3
      rw [hl] at h2
      simp only at h1 h2 h3
      refine ⟨by rw [h1, List.length_cons]; omega, by omega, ?_⟩
      rw [h3]
      cases hy : y.url with
      | none =>
        rw [hy] at hf
        exact absurd rfl hf
      | some u =>
        have h0 : linkUrlCount u st.1 ≠ 0 := by
          intro h0
          rw [hy] at hf
          exact hf ((findLinkByUrl_eq_none_iff st.1 u).2 h0)
        have hab : absentUrls st.1 (y :: ys) =
            ((ys.filterMap (·.url)).filter fun v =>
              decide (linkUrlCount v st.1 = 0) && decide (some u ≠ some v)).dedup := by
          unfold absentUrls
          rw [List.filterMap_cons, hy]
          simp only [List.filter_cons, h0, decide_False, Bool.false_eq_true, if_false]
          congr 1
          apply List.filter_congr
          intro v _
          by_cases hv : v = u
          · simp [hv, h0]
          · have : u ≠ v := fun e => hv e.symm
            simp [this]
        have hul : (urllessLinks (y :: ys)).length = (urllessLinks ys).length := by
          simp [urllessLinks, List.filter_cons, hy]
        rw [hab, hul]

/-- The counters of the merge on a document all of whose links have a url: on every
successful run, `linksAdded + linksMerged` is the number of links of the document, the number
of links of the store grows by exactly `linksAdded`, `linksAdded` is the number of distinct
urls of the document that the store did not hold, and `categoriesImported` is the number of
categories of the document. -/
theorem importData_counts (parseUrl : String → Option ParsedUrl) (now : String)
    (failAt : Option Nat) (db db' : Db) (data : ImportDoc) (stats : ImportStats)
    (cats : List CategoryDoc) (links : List LinkDoc) (ms : List MenuLinkDoc)
    (hdet : detectFormat parseUrl data = some (cats, links, ms))
    (hurl : ∀ y ∈ links, y.url.isSome)
    (h : importData parseUrl now failAt db data = (db', .success stats)) :
    stats.linksAdded + stats.linksMerged = links.length ∧
      db'.data.links.length = db.data.links.length + stats.linksAdded ∧
      stats.linksAdded = (absentUrls db.data links).length ∧
      stats.categoriesImported = cats.length := by
  obtain ⟨cats', links', ms', hdet', hdb, hstats⟩ := importData_of_success _ _ _ _ _ _ _ h
  rw [hdet] at hdet'
  simp only [Option.some.injEq, Prod.mk.injEq] at hdet'
  obtain ⟨rfl, rfl, rfl⟩ := hdet'
  obtain ⟨m, d2, hl, _, h1, h2, h3⟩ := importBody_links now db.data cats links ms
  obtain ⟨c1, c2, c3⟩ := foldl_importLink_counts now m links (d2, ⟨0, 0⟩)
  have hab : absentUrls d2 links = absentUrls db.data links := by
    unfold absentUrls linkUrlCount
    rw [hl]
  have hnil : urllessLinks links = [] := by
    unfold urllessLinks
    rw [List.filter_eq_nil_iff]
    intro y hy
    have := hurl y hy
    cases hu : y.url with
    | none => rw [hu] at this; cases this
    | some u => simp
  simp only [Nat.add_zero, Nat.zero_add] at c1 c2 c3
  rw [hab, hnil, List.length_nil, Nat.add_zero] at c3
  refine ⟨?_, ?_, ?_, ?_⟩
  · rw [hstats, h2, h3, c1]
  · rw [hdb]
    simp only
    rw [h1, c2, hl, hstats, h2]
  · rw [hstats, h2, c3]
  · rw [hstats]
    rfl

/-- The counters of the merge of `exampleDoc` into `exampleStore`: the link of url
`https://a.com` is merged, the first link of url `https://b.com` is inserted and the second
is merged. -/
theorem importData_counts_example :
    (importData noUrl "now" none ⟨exampleStore, none⟩ exampleDoc).2 = .success ⟨2, 1, 2⟩ ∧
      (1 : Nat) + 2 = 3 ∧
      (absentUrls exampleStore
        [⟨some 1, some "https://a.com", some "New", none, none, some 1, none, none, none⟩,
         ⟨some 2, some "https://b.com", some "B", none, none, some 7, none, none, none⟩,
         ⟨some 3, some "https://b.com", some "B2", none, none, some 7, none, none, none⟩]).length
        = 1 :=
  ⟨by decide,
    (importData_counts noUrl "now" none ⟨exampleStore, none⟩ _ exampleDoc ⟨2, 1, 2⟩ _ _ _
      rfl (by decide) rfl).1,
    ((importData_counts noUrl "now" none ⟨exampleStore, none⟩ _ exampleDoc ⟨2, 1, 2⟩ _ _ _
      rfl (by decide) rfl).2.2.1).symm⟩

/-- C30, at the failing input: `urllessDoc` holds two links, neither of which has a url, so
the number of distinct urls of the document that the store does not hold is 0. The route
`POST /api/links` rejects a link without url with the 400 response, in `exampleStore` as
everywhere. The merge of `urllessDoc` into `exampleStore` answers with success, inserts both
links and reports `linksAdded = 2`. -/
theorem import_counts_urlless_links :
    detectFormat noUrl urllessDoc = some ([],
        [⟨some 1, none, some "a", none, none, some 1, none, none, none⟩,
         ⟨some 2, none, some "b", none, none, some 1, none, none, none⟩], []) ∧
      absentUrls exampleStore
        [⟨some 1, none, some "a", none, none, some 1, none, none, none⟩,
         ⟨some 2, none, some "b", none, none, some 1, none, none, none⟩] = [] ∧
      addLink "now" exampleStore ⟨none, some "a", none, none, some 1, none⟩ =
        .error .badRequest ∧
      (importData noUrl "now" none ⟨exampleStore, none⟩ urllessDoc).2 = .success ⟨0, 2, 0⟩ ∧
      exampleStore.links.length = 1 ∧
      (importData noUrl "now" none ⟨exampleStore, none⟩ urllessDoc).1.data.links.map
          (fun l => (l.id, l.url, l.title)) =
        [(5, some "https://a.com", some "Old"), (6, none, some "a"), (7, none, some "b")] :=
  ⟨by decide, by decide, rfl, by decide, by decide, by decide⟩

/-! ### Import: a second run of the same document -/

theorem findCategoryByName_append_of_some (d d' : Data) (extra : List Category)
    (h : d'.categories = d.categories ++ extra) (name : Option String) (e : Category)
    (he : findCategoryByName d name = some e) : findCategoryByName d' name = some e := by
  unfold findCategoryByName at he ⊢
  cases name with
  | none => cases he
  | some n =>
    simp only at he ⊢
    rw [h, List.find?_append, he]
    rfl

theorem findCategoryByName_append_of_none (d d' : Data) (row : Category)
    (extra : List Category) (h : d'.categories = d.categories ++ row :: extra)
    (n : String) (hrow : row.name = some n)
    (he : findCategoryByName d (some n) = none) : findCategoryByName d' (some n) = some row := by
  unfold findCategoryByName at he ⊢
  simp only at he ⊢
  rw [h, List.find?_append, he, List.find?_cons]
  simp [hrow]

theorem nameId_of_find (d : Data) (name : Option String) (e : Category)
    (h : findCategoryByName d name = some e) : nameId d name = e.id := by
  simp [nameId, h]

/-- Step 1 only appends rows, and it maps every named category of the document to the row
that a query by its name finds afterwards. -/
theorem foldl_importCategory_shape :
    ∀ (cs : List CategoryDoc) (st : Data × CategoryMap), (∀ c ∈ cs, c.name.isSome) →
      (∃ extra, (cs.foldl importCategory st).1.categories = st.1.categories ++ extra) ∧
      (cs.foldl importCategory st).2 =
        (cs.map fun c => (c.id, nameId (cs.foldl importCategory st).1 c.name)).reverse ++ st.2 ∧
      ∀ c ∈ cs, (findCategoryByName (cs.foldl importCategory st).1 c.name).isSome
  | [], st, _ => ⟨⟨[], by simp⟩, by simp, by simp⟩
  | c :: cs, st, hn => by
    rw [List.foldl_cons]
    obtain ⟨⟨extra, hex⟩, hmap, hfound⟩ :=
      foldl_importCategory_shape cs (importCategory st c)
        (fun x hx => hn x (List.mem_cons_of_mem _ hx))
    obtain ⟨n, hcn⟩ := Option.isSome_iff_exists.1 (hn c (List.mem_cons_self _ _))
    rcases importCategory_cases st c with ⟨e, hfe, _, _, heq⟩ | ⟨hnone, heq⟩
    · rw [heq] at hex hmap hfound ⊢
      simp only at hex hmap
      have hfR := findCategoryByName_append_of_some st.1 _ extra hex c.name e hfe
      refine ⟨⟨extra, hex⟩, ?_, ?_⟩
      · rw [hmap, List.map_cons, List.reverse_cons, nameId_of_find _ _ _ hfR]
        simp
      · intro x hx
        rcases List.mem_cons.1 hx with rfl | hx
        · rw [hfR]; rfl
        · exact hfound x hx
    · rw [heq] at hex hmap hfound ⊢
      simp only at hex hmap
      rw [List.append_assoc] at hex
      have hrow : (newCategoryRow st.1 c).name = some n := by
        rw [← hcn]; rfl
      rw [hcn] at hnone
      have hfR := findCategoryByName_append_of_none st.1 _ (newCategoryRow st.1 c) extra hex n
        hrow hnone
      refine ⟨⟨_, hex⟩, ?_, ?_⟩
      · rw [hmap, List.map_cons, List.reverse_cons, hcn, nameId_of_find _ _ _ hfR]
        simp
      · intro x hx
        rcases List.mem_cons.1 hx with rfl | hx
        · rw [hcn, hfR]; rfl
        · exact hfound x hx

/-- Step 1 over categories whose names the store holds inserts nothing. -/
theorem foldl_importCategory_of_found :
    ∀ (cs : List CategoryDoc) (X : Data) (acc : CategoryMap),
      (∀ c ∈ cs, (findCategoryByName X c.name).isSome) →
      cs.foldl importCategory (X, acc) =
        (X, (cs.map fun c => (c.id, nameId X c.name)).reverse ++ acc)
  | [], X, acc, _ => by simp
  | c :: cs, X, acc, h => by
    rw [List.foldl_cons]
    obtain ⟨e, he⟩ := Option.isSome_iff_exists.1 (h c (List.mem_cons_self _ _))
    have hstep : importCategory (X, acc) c = (X, (c.id, e.id) :: acc) := by
      unfold importCategory
      simp only [he]
    rw [hstep, foldl_importCategory_of_found cs X _ (fun x hx => h x (List.mem_cons_of_mem _ hx)),
      List.map_cons, List.reverse_cons, nameId_of_find _ _ _ he]
    simp

theorem setParent_name (m : CategoryMap) (cat : CategoryDoc) (r : Category) :
    (setParent m cat r).name = r.name := by
  unfold setParent
  split
  · split <;> rfl
  · rfl

theorem applyParents_name (m : CategoryMap) :
    ∀ (cats : List CategoryDoc) (r : Category), (applyParents m cats r).name = r.name
  | [], _ => rfl
  | cat :: cats, r => by
    rw [applyParents, applyParents_name m cats, setParent_name]

theorem findCategoryByName_map (d d' : Data) (f : Category → Category)
    (hname : ∀ r, (f r).name = r.name) (h : d'.categories = d.categories.map f)
    (name : Option String) :
    findCategoryByName d' name = (findCategoryByName d name).map f := by
  unfold findCategoryByName
  cases name with
  | none => rfl
  | some n =>
    simp only
    have hp : ((fun c : Category => c.name == some n) ∘ f) =
        fun c : Category => c.name == some n := by
      funext r
      simp [hname r]
    rw [h, List.find?_map, hp]

/-- Step 2 acts on the rows of one id either not at all or by setting one `parent_id`. -/
theorem applyParents_keep_or_set (m : CategoryMap) :
    ∀ (cats : List CategoryDoc) (id : Nat),
      (∀ r : Category, r.id = id → applyParents m cats r = r) ∨
        ∃ c, ∀ r : Category, r.id = id → applyParents m cats r = { r with parent_id := c }
  | [], _ => Or.inl fun _ _ => rfl
  | cat :: cats, id => by
    have hset : (∀ r : Category, r.id = id → setParent m cat r = r) ∨
        ∃ c, ∀ r : Category, r.id = id → setParent m cat r = { r with parent_id := c } := by
      unfold setParent
      cases hp : parentUpdate m cat with
      | none => exact Or.inl fun _ _ => rfl
      | some pr =>
        obtain ⟨mp, mc⟩ := pr
        by_cases hid : id = mc
        · right
          refine ⟨some mp, fun r hr => ?_⟩
          simp [hr, hid]
        · left
          intro r hr
          have : r.id ≠ mc := by rw [hr]; exact hid
          simp [this]
    rcases applyParents_keep_or_set m cats id with hrest | ⟨c, hrest⟩
    · rcases hset with hs | ⟨c, hs⟩
      · left
        intro r hr
        rw [applyParents, hs r hr, hrest r hr]
      · right
        refine ⟨c, fun r hr => ?_⟩
        rw [applyParents, hs r hr]
        exact hrest _ hr
    · right
      refine ⟨c, fun r hr => ?_⟩
      rw [applyParents, hrest _ ((setParent_id m cat r).trans hr)]
      rcases hset with hs | ⟨c', hs⟩
      · rw [hs r hr]
      · rw [hs r hr]

/-- Step 2 run twice is step 2 run once. -/
theorem applyParents_idem (m : CategoryMap) (cats : List CategoryDoc) (r : Category) :
    applyParents m cats (applyParents m cats r) = applyParents m cats r := by
  rcases applyParents_keep_or_set m cats r.id with h | ⟨c, h⟩
  · rw [h r rfl, h r rfl]
  · rw [h r rfl]
    exact h _ rfl

theorem strOr_self (a : Option String) : strOr a a = a := by
  unfold strOr
  split <;> rfl

theorem strOr_keepOrSet (a : Option String) : KeepOrSet (strOr a) := by
  unfold KeepOrSet strOr
  by_cases h : truthyStr a = true
  · exact Or.inr ⟨a, fun t => by simp [h]⟩
  · exact Or.inl fun t => by simp [h]

theorem KeepOrSet.comp {f g : Option String → Option String} (hf : KeepOrSet f)
    (hg : KeepOrSet g) : KeepOrSet (fun t => g (f t)) := by
  rcases hg with hg | ⟨c, hg⟩
  · rcases hf with hf | ⟨c, hf⟩
    · exact Or.inl fun t => (hg (f t)).trans (hf t)
    · exact Or.inr ⟨c, fun t => (hg (f t)).trans (hf t)⟩
  · exact Or.inr ⟨c, fun t => hg _⟩

theorem KeepOrSet.strOr_fix {f : Option String → Option String} (hf : KeepOrSet f)
    (a t : Option String) (ht : f t = t) : strOr a (f (strOr a t)) = strOr a t := by
  rcases hf with hf | ⟨c, hf⟩
  · rw [hf]
    have : ∀ x, strOr a (strOr a x) = strOr a x := by
      intro x
      unfold strOr
      split <;> simp [*]
    exact this t
  · rw [hf, ← ht, hf]

theorem selfMerge_eq (y : LinkDoc) (l : Link) :
    selfMerge y l = { l with title := strOr y.title l.title,
                             description := strOr y.description l.description,
                             icon := strOr y.icon l.icon } := by
  simp [selfMerge, mergeRow]

theorem selfMerge_url (y : LinkDoc) (l : Link) : (selfMerge y l).url = l.url :=
  mergeRow_url y l l

theorem remerge_url : ∀ (pre : List LinkDoc) (x : Link), (remerge pre x).url = x.url
  | [], _ => rfl
  | y :: ys, x => by
    rw [remerge, remerge_url ys]
    split
    · exact selfMerge_url y x
    · rfl

theorem remerge_append : ∀ (pre : List LinkDoc) (y : LinkDoc) (x : Link),
    remerge (pre ++ [y]) x =
      if y.url = x.url then selfMerge y (remerge pre x) else remerge pre x
  | [], _, _ => rfl
  | z :: pre, y, x => by
    rw [List.cons_append, remerge, remerge, remerge_append pre y]
    have : (if z.url = x.url then selfMerge z x else x).url = x.url := by
      split
      · exact selfMerge_url z x
      · rfl
    rw [this]

theorem remerge_of_no_url : ∀ (pre : List LinkDoc) (x : Link),
    (∀ y ∈ pre, y.url ≠ x.url) → remerge pre x = x
  | [], _, _ => rfl
  | y :: ys, x, h => by
    rw [remerge, if_neg (h y (List.mem_cons_self _ _))]
    exact remerge_of_no_url ys x fun z hz => h z (List.mem_cons_of_mem _ hz)

/-- The merges of a list of links act on each of the three merged columns of the rows of one
url either not at all or by overwriting it. -/
theorem remerge_shape : ∀ (pre : List LinkDoc) (u : Option String),
    ∃ ft fd fi : Option String → Option String,
      KeepOrSet ft ∧ KeepOrSet fd ∧ KeepOrSet fi ∧
      ∀ x : Link, x.url = u →
        remerge pre x = { x with title := ft x.title, description := fd x.description,
                                 icon := fi x.icon }
  | [], _ => ⟨id, id, id, Or.inl fun _ => rfl, Or.inl fun _ => rfl, Or.inl fun _ => rfl,
      fun _ _ => rfl⟩
  | y :: ys, u => by
    obtain ⟨ft, fd, fi, ht, hd, hi, hx⟩ := remerge_shape ys u
    by_cases hy : y.url = u
    · refine ⟨fun t => ft (strOr y.title t), fun t => fd (strOr y.description t),
        fun t => fi (strOr y.icon t), (strOr_keepOrSet _).comp ht, (strOr_keepOrSet _).comp hd,
        (strOr_keepOrSet _).comp hi, fun x hxu => ?_⟩
      rw [remerge, if_pos (hy.trans hxu.symm), hx _ ((selfMerge_url y x).trans hxu),
        selfMerge_eq]
    · refine ⟨ft, fd, fi, ht, hd, hi, fun x hxu => ?_⟩
      rw [remerge, if_neg (fun h => hy (h.trans hxu)), hx x hxu]

/-- A row that the merges of `pre` leave as it is, is left by them as it is also after one
more merge. -/
theorem selfMerge_remerge_fix (pre : List LinkDoc) (y : LinkDoc) (r : Link)
    (h : remerge pre r = r) :
    selfMerge y (remerge pre (selfMerge y r)) = selfMerge y r := by
  obtain ⟨ft, fd, fi, ht, hd, hi, hx⟩ := remerge_shape pre r.url
  have hr := hx r rfl
  rw [h] at hr
  have h1 : ft r.title = r.title := (congrArg Link.title hr).symm
  have h2 : fd r.description = r.description := (congrArg Link.description hr).symm
  have h3 : fi r.icon = r.icon := (congrArg Link.icon hr).symm
  rw [hx _ (selfMerge_url y r), selfMerge_eq, selfMerge_eq]
  simp only [ht.strOr_fix y.title r.title h1, hd.strOr_fix y.description r.description h2,
    hi.strOr_fix y.icon r.icon h3]

theorem find?_url_mergeRow (y : LinkDoc) (e : Link) (x : Option String) (links : List Link) :
    (links.map (mergeRow y e)).find? (fun l => l.url == x) =
      (links.find? (fun l => l.url == x)).map (mergeRow y e) :=
  find?_map_same (mergeRow y e) (fun l => by simp only [mergeRow_url]) links

/-- A merge keeps the row found for each url. -/
theorem first_mergeRow_iff (y : LinkDoc) (e : Link) (links : List Link)
    (hnd : (links.map (·.id)).Nodup) (r : Link) (hr : r ∈ links) :
    (links.map (mergeRow y e)).find? (fun l => l.url == (mergeRow y e r).url) =
        some (mergeRow y e r) ↔
      links.find? (fun l => l.url == r.url) = some r := by
  rw [mergeRow_url, find?_url_mergeRow]
  constructor
  · intro h
    cases hf : links.find? (fun l => l.url == r.url) with
    | none => rw [hf] at h; cases h
    | some r0 =>
      rw [hf] at h
      simp only [Option.map_some', Option.some.injEq] at h
      have hid : r0.id = r.id := by
        rw [← mergeRow_id y e r0, h, mergeRow_id]
      rw [eq_of_mem_links_of_id_eq hnd (List.mem_of_find?_eq_some hf) hr hid]
  · intro h
    rw [h]
    rfl

theorem findLinkByUrl_some_iff (d : Data) (y : LinkDoc) (hy : y.url.isSome) (e : Link) :
    findLinkByUrl d y.url = some e ↔ d.links.find? (fun l => l.url == y.url) = some e := by
  obtain ⟨u, hu⟩ := Option.isSome_iff_exists.1 hy
  rw [hu]
  rfl

theorem findLinkByUrl_none_iff (d : Data) (y : LinkDoc) (hy : y.url.isSome) :
    findLinkByUrl d y.url = none ↔ d.links.find? (fun l => l.url == y.url) = none := by
  obtain ⟨u, hu⟩ := Option.isSome_iff_exists.1 hy
  rw [hu]
  rfl

/-- One step of the link loop, for a link that has a url, keeps `ReLink`. -/
theorem reLink_step (now : String) (m : CategoryMap) (pre : List LinkDoc) (y : LinkDoc)
    (st : Data × LinkCounts) (hy : y.url.isSome) (h : ReLink pre st.1.links) :
    ReLink (pre ++ [y]) (importLink now m st y).1.links := by
  cases hf : findLinkByUrl st.1 y.url with
  | some e =>
    rw [importLink_merge_eq now m st y e hf]
    simp only
    have hfe := (findLinkByUrl_some_iff st.1 y hy e).1 hf
    have hemem : e ∈ st.1.links := List.mem_of_find?_eq_some hfe
    have heurl : e.url = y.url := by simpa using List.find?_some hfe
    refine ⟨?_, ?_, ?_⟩
    · rw [map_mergeRow_ids]
      exact h.nodup
    · intro y' hy'
      rw [find?_url_mergeRow]
      rcases List.mem_append.1 hy' with hy' | hy'
      · obtain ⟨e', he'⟩ := h.present y' hy'
        exact ⟨_, by rw [he']; rfl⟩
      · rw [List.mem_singleton.1 hy', hfe]
        exact ⟨_, rfl⟩
    · intro r' hr' hfirst
      obtain ⟨r, hr, rfl⟩ := List.mem_map.1 hr'
      have hr1 := (first_mergeRow_iff y e st.1.links h.nodup r hr).1 hfirst
      have hfix := h.fixed r hr hr1
      by_cases hu : y.url = r.url
      · have her : e = r := by
          rw [hu, hr1] at hfe
          exact (Option.some.inj hfe).symm
        subst her
        show remerge (pre ++ [y]) (selfMerge y e) = selfMerge y e
        rw [remerge_append, if_pos (hu.trans (selfMerge_url y e).symm)]
        exact selfMerge_remerge_fix pre y e hfix
      · have hne : r.id ≠ e.id := by
          intro hid
          have := eq_of_mem_links_of_id_eq h.nodup hr hemem hid
          exact hu (by rw [this, heurl])
        rw [mergeRow_of_ne y e r hne, remerge_append, if_neg hu]
        exact hfix
  | none =>
    obtain ⟨hl, _⟩ := importLink_insert_row now m st y hf
    rw [hl]
    have hfn := (findLinkByUrl_none_iff st.1 y hy).1 hf
    have hNurl : (newLinkRow now m st.1 y).url = y.url := rfl
    have hnone : ∀ r ∈ st.1.links, r.url ≠ y.url := by
      intro r hr hru
      have := List.find?_eq_none.1 hfn r hr
      simp [hru] at this
    refine ⟨?_, ?_, ?_⟩
    · rw [List.map_append, List.nodup_append]
      refine ⟨h.nodup, by simp, ?_⟩
      intro a ha hb
      simp only [List.map_cons, List.map_nil, List.mem_singleton] at hb
      have := lt_nextId st.1.linkSeq _ a ha
      rw [hb] at this
      exact Nat.lt_irrefl _ this
    · intro y' hy'
      rw [List.find?_append]
      rcases List.mem_append.1 hy' with hy' | hy'
      · obtain ⟨e', he'⟩ := h.present y' hy'
        exact ⟨e', by rw [he']; rfl⟩
      · rw [List.mem_singleton.1 hy', hfn]
        exact ⟨newLinkRow now m st.1 y, by simp [hNurl]⟩
    · intro r hr hfirst
      rw [List.find?_append] at hfirst
      rcases List.mem_append.1 hr with hr | hr
      · have hru : y.url ≠ r.url := fun e => hnone r hr e.symm
        cases hfr : st.1.links.find? (fun l => l.url == r.url) with
        | none =>
          have := List.find?_eq_none.1 hfr r hr
          simp at this
        | some x =>
          rw [hfr] at hfirst
          simp only [Option.or_some, Option.some.injEq] at hfirst
          rw [hfirst] at hfr
          rw [remerge_append, if_neg hru]
          exact h.fixed r hr hfr
      · rw [List.mem_singleton.1 hr, remerge_append, if_pos hNurl.symm]
        have hpre : remerge pre (newLinkRow now m st.1 y) = newLinkRow now m st.1 y := by
          apply remerge_of_no_url
          intro y' hy' hyu
          obtain ⟨e', he'⟩ := h.present y' hy'
          rw [hyu, hNurl, hfn] at he'
          cases he'
        rw [hpre, selfMerge_eq]
        simp [newLinkRow, strOr_self]

/-- The link loop over links that all have a url, from a table with distinct ids. -/
theorem reLink_foldl (now : String) (m : CategoryMap) (ys : List LinkDoc) (d2 : Data)
    (hy : ∀ y ∈ ys, y.url.isSome) (hnd : (d2.links.map (·.id)).Nodup) :
    ReLink ys (ys.foldl (importLink now m) (d2, ⟨0, 0⟩)).1.links :=
  foldl_prefix_invariant (fun pre (st : Data × LinkCounts) => ReLink pre st.1.links)
    (importLink now m) ys
    (fun pre a post s hl hs =>
      reLink_step now m pre a s (hy a (by rw [hl]; simp)) hs)
    ys [] (d2, ⟨0, 0⟩) rfl ⟨hnd, by simp, fun _ _ _ => rfl⟩

/-- The link loop over links whose urls the table holds: every step is a merge, and the loop
merges into each row that a query by url finds the links of its url. -/
theorem foldl_importLink_remerge (now : String) (m : CategoryMap) :
    ∀ (ys : List LinkDoc) (d : Data) (c : LinkCounts), (d.links.map (·.id)).Nodup →
      (∀ y ∈ ys, y.url.isSome ∧ ∃ e, d.links.find? (fun l => l.url == y.url) = some e) →
      ys.foldl (importLink now m) (d, c) =
        ({ d with links := d.links.map fun r =>
            if d.links.find? (fun l => l.url == r.url) = some r then remerge ys r else r },
          { c with mergedCount := c.mergedCount + ys.length })
  | [], d, c, _, _ => by
    simp [remerge]
  | y :: ys, d, c, hnd, h => by
    obtain ⟨hy, e, hfe⟩ := h y (List.mem_cons_self _ _)
    have hf : findLinkByUrl d y.url = some e := (findLinkByUrl_some_iff d y hy e).2 hfe
    have hemem : e ∈ d.links := List.mem_of_find?_eq_some hfe
    have heurl : e.url = y.url := by simpa using List.find?_some hfe
    rw [List.foldl_cons, importLink_merge_eq now m (d, c) y e hf]
    simp only
    rw [foldl_importLink_remerge now m ys _ _ (by simp only; rw [map_mergeRow_ids]; exact hnd)
      (fun y' hy' => by
        obtain ⟨h1, e', he'⟩ := h y' (List.mem_cons_of_mem _ hy')
        refine ⟨h1, mergeRow y e e', ?_⟩
        simp only
        rw [find?_url_mergeRow, he']
        rfl)]
    simp only [List.map_map, List.length_cons, Prod.mk.injEq]
    refine ⟨?_, by simp only [Nat.add_assoc, Nat.add_comm 1]⟩
    congr 1
    apply List.map_congr_left
    intro r hr
    simp only [Function.comp]
    have hiff := first_mergeRow_iff y e d.links hnd r hr
    by_cases hfirst : d.links.find? (fun l => l.url == r.url) = some r
    · rw [if_pos (hiff.2 hfirst), if_pos hfirst, remerge]
      by_cases hu : y.url = r.url
      · have her : e = r := by
          rw [hu, hfirst] at hfe
          exact (Option.some.inj hfe).symm
        subst her
        rw [if_pos hu]
        rfl
      · have hne : r.id ≠ e.id := by
          intro hid
          have := eq_of_mem_links_of_id_eq hnd hr hemem hid
          exact hu (by rw [this, heurl])
        rw [mergeRow_of_ne y e r hne, if_neg hu]
    · rw [if_neg (fun hc => hfirst (hiff.1 hc)), if_neg hfirst]
      apply mergeRow_of_ne
      intro hid
      have hre := eq_of_mem_links_of_id_eq hnd hr hemem hid
      apply hfirst
      rw [hre, heurl]
      exact hfe

/-- The menu link loop over entries that the store holds inserts nothing. -/
theorem foldl_importMenuLink_of_found :
    ∀ (ms : List MenuLinkDoc) (X : Data),
      (∀ x ∈ ms, (findMenuLink X x.title x.url).isSome) → ms.foldl importMenuLink X = X
  | [], _, _ => rfl
  | x :: ms, X, h => by
    have hstep : importMenuLink X x = X := by
      obtain ⟨r, hr⟩ := Option.isSome_iff_exists.1 (h x (List.mem_cons_self _ _))
      unfold importMenuLink
      simp only [hr]
    rw [List.foldl_cons, hstep]
    exact foldl_importMenuLink_of_found ms X fun z hz => h z (List.mem_cons_of_mem _ hz)

/-- After the menu link loop the store holds every entry of the document that has a title and
a url. -/
theorem foldl_importMenuLink_found (ms : List MenuLinkDoc) (d : Data) (x : MenuLinkDoc)
    (hx : x ∈ ms) (ht : x.title.isSome) (hu : x.url.isSome) :
    (findMenuLink (ms.foldl importMenuLink d) x.title x.url).isSome := by
  obtain ⟨t, ht⟩ := Option.isSome_iff_exists.1 ht
  obtain ⟨u, hu⟩ := Option.isSome_iff_exists.1 hu
  rw [ht, hu]
  have hcnt := foldl_importMenuLink_pairCount t u ms d
  have hne : menuPairCount t u (ms.foldl importMenuLink d) ≠ 0 := by
    rw [hcnt]
    by_cases h0 : menuPairCount t u d = 0
    · rw [if_pos ⟨h0, x, hx, ht, hu⟩]
      omega
    · omega
  cases hf : findMenuLink (ms.foldl importMenuLink d) (some t) (some u) with
  | none => exact absurd ((findMenuLink_eq_none_iff _ t u).1 hf) hne
  | some r => rfl

theorem data_with_categories (X : Data) (cs : List Category) (h : cs = X.categories) :
    { X with categories := cs } = X := by
  subst h
  rfl

theorem data_with_links (X : Data) (ls : List Link) (h : ls = X.links) :
    { X with links := ls } = X := by
  subst h
  rfl

/-- A run of the merge from a store in which step 1 finds every category under the ids of
`m`, step 2 has been applied, the link loop has run over the links and the menu entries are
held: nothing is inserted and the store is left as it is. -/
theorem importBody_second_run (now' : String) (cats : List CategoryDoc) (links : List LinkDoc)
    (ms : List MenuLinkDoc) (T D4 : Data) (m : CategoryMap)
    (hm : m = (cats.map fun c => (c.id, nameId T c.name)).reverse)
    (hfound : ∀ c ∈ cats, (findCategoryByName T c.name).isSome)
    (hcats : D4.categories = T.categories.map (applyParents m cats))
    (hrel : ReLink links D4.links) (hlu : ∀ y ∈ links, y.url.isSome)
    (hmenu : ∀ x ∈ ms, (findMenuLink D4 x.title x.url).isSome) :
    importBody now' D4 cats links ms = (D4, ⟨cats.length, 0, links.length⟩) := by
  have hfind : ∀ name, findCategoryByName D4 name =
      (findCategoryByName T name).map (applyParents m cats) :=
    findCategoryByName_map T D4 _ (applyParents_name m cats) hcats
  have hnameId : ∀ name, nameId D4 name = nameId T name := by
    intro name
    unfold nameId
    rw [hfind]
    cases findCategoryByName T name with
    | none => rfl
    | some r => simp [applyParents_id]
  have hP1 : cats.foldl importCategory (D4, []) = (D4, m) := by
    rw [foldl_importCategory_of_found cats D4 [] (fun c hc => by
      rw [hfind, Option.isSome_map']
      exact hfound c hc), hm]
    simp [hnameId]
  have hP2 : cats.foldl (importParent m) D4 = D4 := by
    rw [foldl_importParent_eq_map]
    apply data_with_categories
    rw [hcats, List.map_map]
    apply List.map_congr_left
    intro r _
    exact applyParents_idem m cats r
  have hP3 : links.foldl (importLink now' m) (D4, ⟨0, 0⟩) = (D4, ⟨0, links.length⟩) := by
    rw [foldl_importLink_remerge now' m links D4 ⟨0, 0⟩ hrel.nodup
      (fun y hy => ⟨hlu y hy, hrel.present y hy⟩)]
    simp only [Nat.zero_add, Prod.mk.injEq, and_true]
    apply data_with_links
    conv_rhs => rw [← List.map_id D4.links]
    apply List.map_congr_left
    intro r hr
    by_cases hfirst : D4.links.find? (fun l => l.url == r.url) = some r
    · rw [if_pos hfirst]
      exact hrel.fixed r hr hfirst
    · rw [if_neg hfirst]
      rfl
  have hP4 : ms.foldl importMenuLink D4 = D4 := foldl_importMenuLink_of_found ms D4 hmenu
  unfold importBody
  simp only [hP1, hP2, hP3, hP4]

/-- The merge run a second time over the same document, all of whose categories have a name,
links a url and menu entries a title and a url, leaves the store of the first run as it
is. -/
theorem importBody_idempotent (now now' : String) (d : Data) (cats : List CategoryDoc)
    (links : List LinkDoc) (ms : List MenuLinkDoc)
    (hids : (d.links.map (·.id)).Nodup)
    (hcn : ∀ c ∈ cats, c.name.isSome) (hlu : ∀ y ∈ links, y.url.isSome)
    (hmn : ∀ x ∈ ms, x.title.isSome ∧ x.url.isSome) :
    importBody now' (importBody now d cats links ms).1 cats links ms =
      ((importBody now d cats links ms).1, ⟨cats.length, 0, links.length⟩) := by
  obtain ⟨_, hmap, hfound⟩ := foldl_importCategory_shape cats (d, []) hcn
  rw [List.append_nil] at hmap
  apply importBody_second_run now' cats links ms (cats.foldl importCategory (d, [])).1 _
    (cats.foldl importCategory (d, [])).2 hmap hfound
  · rw [importBody_categories, foldl_importParent_eq_map]
  · have hl : (importBody now d cats links ms).1.links =
        (links.foldl (importLink now (cats.foldl importCategory (d, [])).2)
          (cats.foldl (importParent (cats.foldl importCategory (d, [])).2)
            (cats.foldl importCategory (d, [])).1, ⟨0, 0⟩)).1.links :=
      foldl_importMenuLink_links ms _
    rw [hl]
    apply reLink_foldl now _ links _ hlu
    rw [(foldl_importParent_links _ _ _).1, (foldl_importCategory_links _ _).1]
    exact hids
  · exact hlu
  · intro x hx
    exact foldl_importMenuLink_found ms _ x hx (hmn x hx).1 (hmn x hx).2

/-- Counterexample for C26: `namelessDoc` holds one category without a name and neither links
nor menu links, so every link of it has a url and every menu link a title and a url. Its
first run into `exampleStore` leaves two categories; a second run of the same document into
that store succeeds and leaves three: the category without a name is inserted again. -/
theorem import_twice_adds_category :
    (importData noUrl "now" none ⟨exampleStore, none⟩ namelessDoc).1.data.categories =
        [⟨1, some "Tools", none, 0, none⟩, ⟨2, none, some "", 0, none⟩] ∧
      (importData noUrl "now" none
          (importData noUrl "now" none ⟨exampleStore, none⟩ namelessDoc).1 namelessDoc).2 =
        .success ⟨1, 0, 0⟩ ∧
      (importData noUrl "now" none
          (importData noUrl "now" none ⟨exampleStore, none⟩ namelessDoc).1
          namelessDoc).1.data.categories =
        [⟨1, some "Tools", none, 0, none⟩, ⟨2, none, some "", 0, none⟩,
          ⟨3, none, some "", 0, none⟩] := by
  decide

/-- C26 (amended): the store has distinct link ids; in the document every category has a
name, every link has a url and every menu link has a title and a url; a first run of the
merge answers with success. Then a second run of the same document into the resulting store
answers with success, adds no category, link or menu link (`linksAdded` is 0 and `linksMerged`
is the number of links of the document) and leaves the store equal to the store after the
first run. -/
theorem importData_idempotent (parseUrl : String → Option ParsedUrl) (now now' : String)
    (failAt : Option Nat) (db db1 : Db) (data : ImportDoc) (stats1 : ImportStats)
    (cats : List CategoryDoc) (links : List LinkDoc) (ms : List MenuLinkDoc)
    (hdet : detectFormat parseUrl data = some (cats, links, ms))
    (hids : (db.data.links.map (·.id)).Nodup)
    (hcn : ∀ c ∈ cats, c.name.isSome) (hlu : ∀ y ∈ links, y.url.isSome)
    (hmn : ∀ x ∈ ms, x.title.isSome ∧ x.url.isSome)
    (h : importData parseUrl now failAt db data = (db1, .success stats1)) :
    importData parseUrl now' none db1 data =
      (db1, .success ⟨cats.length, 0, links.length⟩) := by
  obtain ⟨cats', links', ms', hdet', hdb, _⟩ := importData_of_success _ _ _ _ _ _ _ h
  rw [hdet] at hdet'
  simp only [Option.some.injEq, Prod.mk.injEq] at hdet'
  obtain ⟨rfl, rfl, rfl⟩ := hdet'
  rw [hdb, importData_of_detect parseUrl now' _ data cats links ms hdet,
    importBody_idempotent now now' db.data cats links ms hids hcn hlu hmn]

/-- Witness for C26 (amended): `exampleDoc` run twice into `exampleStore`. -/
theorem importData_idempotent_witness :
    importData noUrl "later" none
        (importData noUrl "now" none ⟨exampleStore, none⟩ exampleDoc).1 exampleDoc =
      ((importData noUrl "now" none ⟨exampleStore, none⟩ exampleDoc).1, .success ⟨2, 0, 3⟩) :=
  importData_idempotent noUrl "now" "later" none ⟨exampleStore, none⟩ _ exampleDoc ⟨2, 1, 2⟩
    _ _ _ rfl (by decide) (by decide) (by decide) (by decide) rfl

/-! ### Export followed by the merge into the initial store -/

/-- The link loop over links of pairwise distinct urls none of which the table holds: every
link is inserted, in order. -/
theorem foldl_importLink_all_inserted (now : String) (m : CategoryMap) :
    ∀ (ys : List LinkDoc) (st : Data × LinkCounts), (ys.map (·.url)).Nodup →
      (∀ y ∈ ys, findLinkByUrl st.1 y.url = none) →
      (ys.foldl (importLink now m) st).1.links.map linkContent =
        st.1.links.map linkContent ++ ys.map (docLinkContent m)
  | [], st, _, _ => by simp
  | y :: ys, st, hnd, hnone => by
    rw [List.map_cons, List.nodup_cons] at hnd
    obtain ⟨hl, _⟩ := importLink_insert_row now m st y (hnone y (List.mem_cons_self _ _))
    rw [List.foldl_cons, foldl_importLink_all_inserted now m ys _ hnd.2, hl]
    · simp only [List.map_append, List.map_cons, List.map_nil, List.append_assoc,
        List.singleton_append]
      rfl
    · intro y' hy'
      have hne : y'.url ≠ y.url := by
        intro e
        exact hnd.1 (e ▸ List.mem_map_of_mem (·.url) hy')
      cases hu : y'.url with
      | none => rfl
      | some u =>
        have h0 := hnone y' (List.mem_cons_of_mem _ hy')
        rw [hu] at h0 hne
        unfold findLinkByUrl at h0 ⊢
        simp only at h0 ⊢
        rw [hl, List.find?_append, h0]
        have : ((newLinkRow now m st.1 y).url == some u) = false := by
          have hN : (newLinkRow now m st.1 y).url = y.url := rfl
          rw [hN]
          exact beq_false_of_ne fun e => hne e.symm
        simp [List.find?_cons, this]

/-- The rows that step 1 inserts carry the name, the icon (`''` for none) and the
`sort_order` (0 for none) of a category of the document. -/
theorem foldl_importCategory_rows (d : Data) (all : List CategoryDoc) :
    ∀ (cs : List CategoryDoc) (st : Data × CategoryMap), (∀ c ∈ cs, c ∈ all) →
      (∀ r ∈ st.1.categories, r ∈ d.categories ∨ ∃ cat ∈ all, r.name = cat.name ∧
        r.icon = strOr cat.icon (some "") ∧ r.sort_order = cat.sort_order.getD 0) →
      ∀ r ∈ (cs.foldl importCategory st).1.categories, r ∈ d.categories ∨
        ∃ cat ∈ all, r.name = cat.name ∧
          r.icon = strOr cat.icon (some "") ∧ r.sort_order = cat.sort_order.getD 0
  | [], _, _, h => h
  | c :: cs, st, hall, h => by
    rw [List.foldl_cons]
    apply foldl_importCategory_rows d all cs _ (fun x hx => hall x (List.mem_cons_of_mem _ hx))
    rcases importCategory_cases st c with ⟨e, _, _, _, heq⟩ | ⟨_, heq⟩
    · rw [heq]
      exact h
    · rw [heq]
      intro r hr
      rcases List.mem_append.1 hr with hr | hr
      · exact h r hr
      · rw [List.mem_singleton.1 hr]
        exact Or.inr ⟨c, hall c (List.mem_cons_self _ _), rfl, rfl, rfl⟩

/-- What step 2 does to the row of a category `c` of the document that declares a category
`p` of the document as its parent. -/
theorem applyParents_of_declared (d : Data) (cats : List CategoryDoc)
    (st : Data × CategoryMap) (P : PassOne d cats st)
    (hids : (d.categories.map (·.id)).Nodup) (hnz : ∀ r ∈ d.categories, r.id ≠ 0)
    (hdocids : (cats.map (·.id)).Nodup) (hdocnames : (cats.map (·.name)).Nodup)
    (c p : CategoryDoc) (hc : c ∈ cats) (hp : p ∈ cats) (hcp : c.parent_id = some p.id)
    (hpid : p.id ≠ 0) :
    ∃ rc ∈ st.1.categories, ∃ rp ∈ st.1.categories, rc.name = c.name ∧ rp.name = p.name ∧
      applyParents st.2 cats rc = { rc with parent_id := some rp.id } := by
  obtain ⟨rc, hrc, hrcn, hlc⟩ := passOne_lookup d cats st P hdocids c hc
  obtain ⟨rp, hrp, hrpn, hlp⟩ := passOne_lookup d cats st P hdocids p hp
  have hnz' := passOne_id_ne_zero d cats st P hnz
  have hids' := P.ids hids
  have hupd : parentUpdate st.2 c = some (rp.id, rc.id) :=
    parentUpdate_of_mapped st.2 c p.id rp.id rc.id hcp hpid hlp hlc (hnz' rp hrp) (hnz' rc hrc)
  have hother : ∀ cat ∈ cats, cat ≠ c → ∀ mp mc, parentUpdate st.2 cat = some (mp, mc) →
      mc ≠ rc.id := by
    intro cat hcat hne mp mc hu hmc
    obtain ⟨r, hr, hrn, hl⟩ := passOne_lookup d cats st P hdocids cat hcat
    have hmcr : mc = r.id := parentUpdate_target st.2 cat mp mc r.id hu hl
    have hrr : r = rc := eq_of_mem_of_id_eq hids' hr hrc (by rw [← hmcr, hmc])
    have hname : cat.name = c.name := by rw [← hrn, ← hrcn, hrr]
    exact hne (List.inj_on_of_nodup_map hdocnames hcat hc hname)
  refine ⟨rc, hrc, rp, hrp, hrcn, hrpn, ?_⟩
  obtain ⟨pre, post, hsplit⟩ := List.append_of_mem hc
  have hnodup : cats.Nodup := List.Nodup.of_map _ hdocids
  rw [hsplit] at hnodup
  have hcpre : c ∉ pre := fun hmem =>
    (List.nodup_append.1 hnodup).2.2 hmem (List.mem_cons_self _ _)
  have hcpost : c ∉ post := (List.nodup_cons.1 (List.nodup_append.1 hnodup).2.1).1
  rw [hsplit, applyParents_append, applyParents]
  rw [applyParents_of_no_target st.2 pre rc (fun cat hcat mp mc hu =>
    hother cat (hsplit ▸ List.mem_append_left _ hcat)
      (fun hcc => hcpre (hcc ▸ hcat)) mp mc hu)]
  have hset : setParent st.2 c rc = { rc with parent_id := some rp.id } := by
    simp [setParent, hupd]
  rw [hset]
  exact applyParents_of_no_target st.2 post _ (fun cat hcat mp mc hu =>
    hother cat (hsplit ▸ List.mem_append_right _ (List.mem_cons_of_mem _ hcat))
      (fun hcc => hcpost (hcc ▸ hcat)) mp mc hu)

theorem applyParents_icon_sort_order (m : CategoryMap) (cats : List CategoryDoc)
    (r : Category) :
    (applyParents m cats r).icon = r.icon ∧
      (applyParents m cats r).sort_order = r.sort_order := by
  rcases applyParents_keep_or_set m cats r.id with h | ⟨c, h⟩
  · rw [h r rfl]
    exact ⟨rfl, rfl⟩
  · rw [h r rfl]
    exact ⟨rfl, rfl⟩

/-- Counterexample for C27: the links of `abcStore` have pairwise distinct urls, the
`sort_order` values 0, 1, 2 and 0, and null tags. The document that the export produces for it
is merged into the initial store with success, and afterwards every link has `sort_order` 0
(the `INSERT` of the link loop does not write the column) and the tags `''`. The category
`Work`, whose icon is null in `abcStore`, comes back with the icon `''`. The only category of
`exampleStore` is `Tools`; after the merge of its export the store holds `常用` as well. -/
theorem export_import_drops_sort_order :
    (abcStore.links.map (·.url)).Nodup ∧
      abcStore.links.map (fun l => (l.url, l.sort_order, l.tags)) =
        [(some "https://a.com", 0, none), (some "https://b.com", 1, none),
          (some "https://c.com", 2, none), (some "https://d.com", 0, none)] ∧
      (importData noUrl "now" none ⟨setupDb, none⟩ (exportData abcStore)).2 =
        .success ⟨2, 4, 0⟩ ∧
      (importData noUrl "now" none ⟨setupDb, none⟩ (exportData abcStore)).1.data.links.map
          (fun l => (l.url, l.sort_order, l.tags)) =
        [(some "https://a.com", 0, some ""), (some "https://b.com", 0, some ""),
          (some "https://c.com", 0, some ""), (some "https://d.com", 0, some "")] ∧
      (⟨2, some "Work", none, 1, none⟩ : Category) ∈ abcStore.categories ∧
      (importData noUrl "now" none ⟨setupDb, none⟩ (exportData abcStore)).1.data.categories =
        [⟨1, some "常用", some "⭐", 0, none⟩, ⟨2, some "Work", some "", 1, none⟩] ∧
      exampleStore.categories = [⟨1, some "Tools", none, 0, none⟩] ∧
      (importData noUrl "now" none ⟨setupDb, none⟩ (exportData exampleStore)).1.data.categories =
        [⟨1, some "常用", some "⭐", 0, none⟩, ⟨2, some "Tools", some "", 0, none⟩] := by
  decide

/-- C27 (amended): the store has distinct non-zero category ids, pairwise distinct category
names and links of pairwise distinct urls. The merge of the document that the export produces
for it into the initial store (only the default category `常用`) answers with success and
yields a store with: one link per link of the store, in the same order, with the same url,
title, description, icon and tags (`''` for null tags), filed under a category that carries
the name of the category the link was filed under; categories with pairwise distinct names
that are the name `常用` and the names of the store; for every category of the store a category
of its name, which has the same `sort_order` and the same icon (`''` for a null icon) unless
it is named `常用`; and, for every category of the store whose parent is a category of the
store, the parent of the category of its name is the category of the parent's name. -/
theorem export_import_restores (parseUrl : String → Option ParsedUrl) (now : String) (d : Data)
    (hcid : (d.categories.map (·.id)).Nodup) (hcnz : ∀ c ∈ d.categories, c.id ≠ 0)
    (hcname : (d.categories.map (·.name)).Nodup) (hurl : (d.links.map (·.url)).Nodup) :
    ∃ R stats,
      importData parseUrl now none ⟨setupDb, none⟩ (exportData d) =
        (⟨R, none⟩, .success stats) ∧
      R.links.map (fun l => (l.url, l.title, l.description, l.icon, l.tags)) =
        d.links.map (fun l => (l.url, l.title, l.description, l.icon,
          strOr l.tags (some ""))) ∧
      (∀ (i : Nat) (l : Link) (c : Category),
        d.links[i]? = some l ∧ c ∈ d.categories ∧ l.category_id = some c.id →
        ∃ l' r, R.links[i]? = some l' ∧ r ∈ R.categories ∧
          l'.category_id = some r.id ∧ r.name = c.name) ∧
      (R.categories.filterMap (·.name)).Nodup ∧
      (∀ r ∈ R.categories, r.name = some "常用" ∨ ∃ c ∈ d.categories, r.name = c.name) ∧
      (∀ c ∈ d.categories, ∃ r ∈ R.categories, r.name = c.name ∧
        (c.name ≠ some "常用" →
          r.sort_order = c.sort_order ∧ r.icon = strOr c.icon (some ""))) ∧
      ∀ c ∈ d.categories, ∀ p ∈ d.categories, c.parent_id = some p.id →
        ∃ rc ∈ R.categories, ∃ rp ∈ R.categories,
          rc.name = c.name ∧ rp.name = p.name ∧ rc.parent_id = some rp.id := by
  -- the document
  generalize hdocs : d.categories.map
    (fun c => (⟨c.id, c.name, c.icon, c.parent_id, some c.sort_order⟩ : CategoryDoc)) = docs
  generalize hldocs : d.links.map (fun l =>
    (⟨some l.id, l.url, l.title, l.description, l.icon, l.category_id, l.tags,
      some l.sort_order, some l.created_at⟩ : LinkDoc)) = ldocs
  generalize hmdocs : d.menu_links.map (fun r =>
    (⟨some r.id, r.title, r.url, r.icon, r.position, some r.sort_order⟩ : MenuLinkDoc)) = mdocs
  have hdet : detectFormat parseUrl (exportData d) = some (docs, ldocs, mdocs) := by
    rw [← hdocs, ← hldocs, ← hmdocs]
    rfl
  have hdocids : (docs.map (·.id)).Nodup := by
    rw [← hdocs, List.map_map]
    exact hcid
  have hdocnames : (docs.map (·.name)).Nodup := by
    rw [← hdocs, List.map_map]
    exact hcname
  have hmemdoc : ∀ c ∈ d.categories,
      (⟨c.id, c.name, c.icon, c.parent_id, some c.sort_order⟩ : CategoryDoc) ∈ docs := by
    intro c hc
    rw [← hdocs]
    exact List.mem_map.2 ⟨c, hc, rfl⟩
  have hdocmem : ∀ cat ∈ docs, ∃ c ∈ d.categories,
      cat = ⟨c.id, c.name, c.icon, c.parent_id, some c.sort_order⟩ := by
    intro cat hcat
    rw [← hdocs] at hcat
    obtain ⟨c, hc, rfl⟩ := List.mem_map.1 hcat
    exact ⟨c, hc, rfl⟩
  -- steps 1 and 2
  have P := passOne_foldl setupDb docs
  have hrows := foldl_importCategory_rows setupDb docs docs (setupDb, []) (fun _ h => h)
    (fun r hr => Or.inl hr)
  generalize hst : docs.foldl importCategory (setupDb, []) = st at P hrows
  have hsetids : (setupDb.categories.map (·.id)).Nodup := by decide
  have hsetnz : ∀ r ∈ setupDb.categories, r.id ≠ 0 := by decide
  have hnz' := passOne_id_ne_zero setupDb docs st P hsetnz
  have hcats : (importBody now setupDb docs ldocs mdocs).1.categories =
      st.1.categories.map (applyParents st.2 docs) := by
    rw [importBody_categories, hst, foldl_importParent_eq_map]
  have hinR : ∀ r0 ∈ st.1.categories,
      applyParents st.2 docs r0 ∈ (importBody now setupDb docs ldocs mdocs).1.categories := by
    intro r0 hr0
    rw [hcats]
    exact List.mem_map_of_mem _ hr0
  -- the link loop
  have hlinks : (importBody now setupDb docs ldocs mdocs).1.links.map linkContent =
      ldocs.map (docLinkContent st.2) := by
    have hl : (importBody now setupDb docs ldocs mdocs).1.links =
        (ldocs.foldl (importLink now (docs.foldl importCategory (setupDb, [])).2)
          (docs.foldl (importParent (docs.foldl importCategory (setupDb, [])).2)
            (docs.foldl importCategory (setupDb, [])).1, ⟨0, 0⟩)).1.links :=
      foldl_importMenuLink_links mdocs _
    have hD2 : (docs.foldl (importParent (docs.foldl importCategory (setupDb, [])).2)
        (docs.foldl importCategory (setupDb, [])).1).links = [] := by
      rw [(foldl_importParent_links _ _ _).1, (foldl_importCategory_links _ _).1]
      rfl
    rw [hst] at hl hD2
    rw [hl, foldl_importLink_all_inserted now _ ldocs _ (by
      rw [← hldocs, List.map_map]
      exact hurl) (fun y _ => by
        unfold findLinkByUrl
        cases y.url with
        | none => rfl
        | some u => simp only [hD2, List.find?_nil])]
    simp only [hD2, List.map_nil, List.nil_append]
  refine ⟨(importBody now setupDb docs ldocs mdocs).1, (importBody now setupDb docs ldocs mdocs).2,
    importData_of_detect parseUrl now setupDb (exportData d) docs ldocs mdocs hdet,
    ?_, ?_, ?_, ?_, ?_, ?_⟩
  · have := congrArg (List.map (fun t : Option String × Option String × Option String ×
      Option String × Option String × Option Nat => (t.1, t.2.1, t.2.2.1, t.2.2.2.1, t.2.2.2.2.1)))
      hlinks
    rw [List.map_map, List.map_map] at this
    refine Eq.trans this ?_
    rw [← hldocs, List.map_map]
    rfl
  · rintro i l c ⟨hi, hc, hlc⟩
    have hli : ldocs[i]? = some ⟨some l.id, l.url, l.title, l.description, l.icon,
        l.category_id, l.tags, some l.sort_order, some l.created_at⟩ := by
      rw [← hldocs, List.getElem?_map, hi]
      rfl
    have hget := congrArg (fun L => L[i]?) hlinks
    simp only [List.getElem?_map, hli, Option.map_some'] at hget
    cases hRi : (importBody now setupDb docs ldocs mdocs).1.links[i]? with
    | none => rw [hRi] at hget; cases hget
    | some l' =>
      rw [hRi] at hget
      simp only [Option.map_some', Option.some.injEq] at hget
      obtain ⟨rc, hrc, hrcn, hlook⟩ := passOne_lookup setupDb docs st P hdocids _ (hmemdoc c hc)
      have hres : resolveCategory st.2 (some c.id) = rc.id := by
        unfold resolveCategory
        simp only at hlook
        simp [hlook, truthyNat, hnz' rc hrc]
      have hcat : l'.category_id = some rc.id := by
        have := congrArg (fun t => t.2.2.2.2.2) hget
        simp only [linkContent, docLinkContent, hlc, hres] at this
        exact this
      refine ⟨l', applyParents st.2 docs rc, rfl, hinR rc hrc, ?_, ?_⟩
      · rw [applyParents_id]
        exact hcat
      · rw [applyParents_name]
        exact hrcn
  · have hn := P.names (by decide)
    rw [hcats, List.filterMap_map]
    have : ((fun r : Category => r.name) ∘ applyParents st.2 docs) = fun r : Category => r.name := by
      funext r
      exact applyParents_name st.2 docs r
    rw [this]
    exact hn
  · intro r hr
    rw [hcats] at hr
    obtain ⟨r0, hr0, rfl⟩ := List.mem_map.1 hr
    rw [applyParents_name]
    obtain ⟨new, hnew, hnewrows⟩ := P.appended
    rw [hnew, List.mem_append] at hr0
    rcases hr0 with hr0 | hr0
    · left
      simp only [setupDb, List.mem_singleton] at hr0
      rw [hr0]
    · right
      obtain ⟨_, _, cat, hcat, hname, _⟩ := hnewrows r0 hr0
      obtain ⟨c, hc, rfl⟩ := hdocmem cat hcat
      exact ⟨c, hc, hname⟩
  · intro c hc
    obtain ⟨r0, hr0, hr0n, _⟩ := P.mapped _ (hmemdoc c hc)
    refine ⟨applyParents st.2 docs r0, hinR r0 hr0, by rw [applyParents_name]; exact hr0n, ?_⟩
    intro hne
    rw [(applyParents_icon_sort_order st.2 docs r0).1, (applyParents_icon_sort_order st.2 docs r0).2]
    rcases hrows r0 hr0 with hset | ⟨cat, hcat, hname, hicon, hsort⟩
    · simp only [setupDb, List.mem_singleton] at hset
      rw [hset] at hr0n
      exact absurd hr0n.symm hne
    · have hcc : cat = ⟨c.id, c.name, c.icon, c.parent_id, some c.sort_order⟩ :=
        List.inj_on_of_nodup_map hdocnames hcat (hmemdoc c hc) (by rw [← hname, hr0n])
      rw [hcc] at hicon hsort
      exact ⟨hsort, hicon⟩
  · intro c hc p hp hcp
    obtain ⟨rc, hrc, rp, hrp, hrcn, hrpn, happ⟩ :=
      applyParents_of_declared setupDb docs st P hsetids hsetnz hdocids hdocnames _ _
        (hmemdoc c hc) (hmemdoc p hp) hcp (hcnz p hp)
    refine ⟨applyParents st.2 docs rc, hinR rc hrc, applyParents st.2 docs rp, hinR rp hrp,
      by rw [applyParents_name]; exact hrcn, by rw [applyParents_name]; exact hrpn, ?_⟩
    rw [happ, applyParents_id]

/-- Witness for C27 (amended): `abcStore`, whose link `D` is filed under the category
`Work`. -/
theorem export_import_restores_witness :
    ∃ R stats,
      importData noUrl "now" none ⟨setupDb, none⟩ (exportData abcStore) =
        (⟨R, none⟩, .success stats) ∧
      R.links.map (fun l => (l.url, l.title, l.description, l.icon, l.tags)) =
        abcStore.links.map (fun l => (l.url, l.title, l.description, l.icon,
          strOr l.tags (some ""))) ∧
      ∃ l' r, R.links[3]? = some l' ∧ r ∈ R.categories ∧
        l'.category_id = some r.id ∧ r.name = some "Work" := by
  obtain ⟨R, stats, h1, h2, h3, _⟩ :=
    export_import_restores noUrl "now" abcStore (by decide) (by decide) (by decide) (by decide)
  exact ⟨R, stats, h1, h2, h3 3 linkD ⟨2, some "Work", none, 1, none⟩ ⟨rfl, by decide, rfl⟩⟩

/-! ### Import: atomicity -/

/-- A loop that is reached with fewer calls left than it issues stops before its end. -/
theorem runLoop_fail {σ α : Type} (calls : σ → α → Nat) (step : σ → α → σ) :
    ∀ (l : List α) (k : Nat) (s : σ), k < loopCalls calls step s l →
      ∃ b' s', runLoop calls step (some k) s l = (b', s', false)
  | [], k, s, h => absurd h (Nat.not_lt_zero k)
  | a :: l, k, s, h => by
    rw [runLoop]
    by_cases hk : k < calls s a
    · exact ⟨none, s, by simp [hk]⟩
    · simp only [hk, if_false]
      apply runLoop_fail calls step l (k - calls s a) (step s a)
      rw [loopCalls] at h
      omega

/-- A loop that is reached with at least as many calls left as it issues runs to its end. -/
theorem runLoop_pass {σ α : Type} (calls : σ → α → Nat) (step : σ → α → σ) :
    ∀ (l : List α) (k : Nat) (s : σ), loopCalls calls step s l ≤ k →
      runLoop calls step (some k) s l =
        (some (k - loopCalls calls step s l), l.foldl step s, true)
  | [], k, s, _ => rfl
  | a :: l, k, s, h => by
    rw [loopCalls] at h
    have hk : ¬ k < calls s a := by omega
    rw [runLoop, if_neg hk, runLoop_pass calls step l (k - calls s a) (step s a) (by omega),
      loopCalls, Nat.sub_sub]
    rfl

/-- When one of the calls between `BEGIN TRANSACTION` and `COMMIT`, or `COMMIT` itself,
throws, the `try` block does not reach its response. -/
theorem importSteps_fail (now : String) (j : Nat) (d : Data) (categories : List CategoryDoc)
    (links : List LinkDoc) (menu_links : List MenuLinkDoc)
    (h : j ≤ importStepCalls now d categories links menu_links) :
    (importSteps now (some j) d categories links menu_links).2 = none := by
  unfold importStepCalls at h
  simp only at h
  unfold importSteps
  by_cases h1 : j < loopCalls importCategoryCalls importCategory (d, []) categories
  · obtain ⟨b', s', e⟩ := runLoop_fail _ _ _ _ _ h1
    rw [e]
  · rw [runLoop_pass _ _ _ _ _ (Nat.le_of_not_lt h1)]
    simp only
    by_cases h2 : j - loopCalls importCategoryCalls importCategory (d, []) categories <
        loopCalls (importParentCalls (categories.foldl importCategory (d, [])).2)
          (importParent (categories.foldl importCategory (d, [])).2)
          (categories.foldl importCategory (d, [])).1 categories
    · obtain ⟨b', s', e⟩ := runLoop_fail _ _ _ _ _ h2
      rw [e]
    · rw [runLoop_pass _ _ _ _ _ (Nat.le_of_not_lt h2)]
      simp only
      by_cases h3 : j - loopCalls importCategoryCalls importCategory (d, []) categories -
          loopCalls (importParentCalls (categories.foldl importCategory (d, [])).2)
            (importParent (categories.foldl importCategory (d, [])).2)
            (categories.foldl importCategory (d, [])).1 categories <
          loopCalls importLinkCalls (importLink now (categories.foldl importCategory (d, [])).2)
            (categories.foldl (importParent (categories.foldl importCategory (d, [])).2)
              (categories.foldl importCategory (d, [])).1, ⟨0, 0⟩) links
      · obtain ⟨b', s', e⟩ := runLoop_fail _ _ _ _ _ h3
        rw [e]
      · rw [runLoop_pass _ _ _ _ _ (Nat.le_of_not_lt h3)]
        simp only
        by_cases h4 : j - loopCalls importCategoryCalls importCategory (d, []) categories -
            loopCalls (importParentCalls (categories.foldl importCategory (d, [])).2)
              (importParent (categories.foldl importCategory (d, [])).2)
              (categories.foldl importCategory (d, [])).1 categories -
            loopCalls importLinkCalls (importLink now (categories.foldl importCategory (d, [])).2)
              (categories.foldl (importParent (categories.foldl importCategory (d, [])).2)
                (categories.foldl importCategory (d, [])).1, ⟨0, 0⟩) links <
            loopCalls importMenuLinkCalls importMenuLink
              (links.foldl (importLink now (categories.foldl importCategory (d, [])).2)
                (categories.foldl (importParent (categories.foldl importCategory (d, [])).2)
                  (categories.foldl importCategory (d, [])).1, ⟨0, 0⟩)).1 menu_links
        · obtain ⟨b', s', e⟩ := runLoop_fail _ _ _ _ _ h4
          rw [e]
        · rw [runLoop_pass _ _ _ _ _ (Nat.le_of_not_lt h4)]
          simp only
          rw [if_pos (by
            rw [Option.some.injEq]
            omega)]

/-- When no call up to and including `COMMIT` throws, the `try` block is the run of
`importBody`. -/
theorem importSteps_pass (now : String) (j : Nat) (d : Data) (categories : List CategoryDoc)
    (links : List LinkDoc) (menu_links : List MenuLinkDoc)
    (h : importStepCalls now d categories links menu_links < j) :
    importSteps now (some j) d categories links menu_links =
      ((importBody now d categories links menu_links).1,
        some (importBody now d categories links menu_links).2) := by
  unfold importStepCalls at h
  simp only at h
  unfold importSteps
  rw [runLoop_pass _ _ _ _ _ (by omega)]
  simp only
  rw [runLoop_pass _ _ _ _ _ (by omega)]
  simp only
  rw [runLoop_pass _ _ _ _ _ (by omega)]
  simp only
  rw [runLoop_pass _ _ _ _ _ (by omega)]
  simp only
  rw [if_neg (by
    rw [Option.some.injEq]
    omega)]
  rfl

/-- C6: the document is recognised and no transaction is open when the request starts.
With `BEGIN TRANSACTION` as database call 0, the calls of the steps as calls 1 to
`importStepCalls` and `COMMIT` as call `importStepCalls + 1`: when any call after
`BEGIN TRANSACTION`, up to and including `COMMIT`, throws, the response is the 500 response and
the whole connection state (categories, links, menu links, counters, no open transaction) is
the one from before the request; when `BEGIN TRANSACTION` itself throws, nothing is written;
when no call throws, the response is success with the result of the merge. So, whichever call
throws, the request either answers with success or leaves the contents as they were, and a
500 response always comes with the state from before. -/
theorem importData_atomic (parseUrl : String → Option ParsedUrl) (now : String)
    (failAt : Option Nat) (db : Db) (data : ImportDoc) (hidle : db.txn = none) :
    ((∃ stats, (importData parseUrl now failAt db data).2 = .success stats) ∨
        (importData parseUrl now failAt db data).1.data = db.data) ∧
      ((importData parseUrl now failAt db data).2 = .failed →
        (importData parseUrl now failAt db data).1 = db) ∧
      ∀ cats links ms, detectFormat parseUrl data = some (cats, links, ms) →
        (∀ k, failAt = some k → 1 ≤ k → k ≤ importStepCalls now db.data cats links ms + 1 →
          importData parseUrl now failAt db data = (db, .failed)) ∧
        (failAt = some 0 → importData parseUrl now failAt db data = (db, .rollbackFailed)) ∧
        ((failAt = none ∨ ∃ k, failAt = some k ∧
            importStepCalls now db.data cats links ms + 1 < k) →
          importData parseUrl now failAt db data =
            (⟨(importBody now db.data cats links ms).1, none⟩,
              .success (importBody now db.data cats links ms).2)) := by
  obtain ⟨d0, t⟩ := db
  simp only at hidle
  subst hidle
  have hold : ((∃ stats, (importData parseUrl now failAt ⟨d0, none⟩ data).2 = .success stats) ∨
        (importData parseUrl now failAt ⟨d0, none⟩ data).1.data = d0) ∧
      ((importData parseUrl now failAt ⟨d0, none⟩ data).2 = .failed →
        (importData parseUrl now failAt ⟨d0, none⟩ data).1 = ⟨d0, none⟩) := by
    unfold importData
    cases hdet : detectFormat parseUrl data with
    | none => simp
    | some fmt =>
      obtain ⟨categories, links, menu_links⟩ := fmt
      by_cases h0 : failAt = some 0
      · simp [h0, importCatch_of_idle]
      · simp only [h0, if_false, Db.begin]
        cases hs : importSteps now (failAt.map (· - 1)) d0 categories links menu_links with
        | mk d r =>
          cases r with
          | none => simp [importCatch_of_txn]
          | some stats => simp [Db.commit]
  refine ⟨hold.1, hold.2, ?_⟩
  intro cats links ms hdet
  refine ⟨?_, ?_, ?_⟩
  · intro k hk h1 hle
    subst hk
    have hne : (some k : Option Nat) ≠ some 0 := by
      intro e
      cases e
      omega
    have hs := importSteps_fail now (k - 1) d0 cats links ms (by simp only at hle; omega)
    unfold importData
    simp only [hdet, hne, if_false, Db.begin, Option.map_some']
    rcases hst : importSteps now (some (k - 1)) d0 cats links ms with ⟨d', r⟩
    rw [hst] at hs
    simp only at hs
    subst hs
    rfl
  · intro h0
    subst h0
    unfold importData
    simp only [hdet, if_true]
    exact importCatch_of_idle _ rfl
  · intro h
    rcases h with h | ⟨k, hk, hlt⟩
    · subst h
      exact importData_of_detect parseUrl now d0 data cats links ms hdet
    · subst hk
      have hne : (some k : Option Nat) ≠ some 0 := by
        intro e
        cases e
        omega
      have hs := importSteps_pass now (k - 1) d0 cats links ms (by simp only at hlt; omega)
      unfold importData
      simp only [hdet, hne, if_false, Db.begin, Option.map_some', hs, Db.commit]

/-- Witness for C6: `exampleDoc` into `exampleStore` issues 12 calls between
`BEGIN TRANSACTION` and `COMMIT`. When call 9 throws, a category and a link have been
inserted, and the response is 500 with the state from before; the same when `COMMIT`, call 13,
throws; when no call up to 13 throws the response is success. -/
theorem importData_atomic_witness :
    importStepCalls "now" exampleStore (exampleDoc.categories.getD [])
        (exampleDoc.links.getD []) (exampleDoc.menu_links.getD []) = 12 ∧
      (importSteps "now" (some 8) exampleStore (exampleDoc.categories.getD [])
        (exampleDoc.links.getD []) (exampleDoc.menu_links.getD [])).1 ≠ exampleStore ∧
      importData noUrl "now" (some 9) ⟨exampleStore, none⟩ exampleDoc =
        (⟨exampleStore, none⟩, .failed) ∧
      importData noUrl "now" (some 13) ⟨exampleStore, none⟩ exampleDoc =
        (⟨exampleStore, none⟩, .failed) ∧
      (importData noUrl "now" (some 14) ⟨exampleStore, none⟩ exampleDoc).2 =
        .success ⟨2, 1, 2⟩ :=
  ⟨by decide, by decide,
    ((importData_atomic noUrl "now" (some 9) ⟨exampleStore, none⟩ exampleDoc rfl).2.2
      _ _ _ rfl).1 9 rfl (by decide) (by decide),
    ((importData_atomic noUrl "now" (some 13) ⟨exampleStore, none⟩ exampleDoc rfl).2.2
      _ _ _ rfl).1 13 rfl (by decide) (by decide),
    (congrArg Prod.snd
      (((importData_atomic noUrl "now" (some 14) ⟨exampleStore, none⟩ exampleDoc rfl).2.2
        _ _ _ rfl).2.2 (Or.inr ⟨14, rfl, by decide⟩))).trans (by decide)⟩

end MyNav
